import Mathlib

/-!
Verification development for the gitpatcher core: a shallow embedding of the
patch-email codec, the patch application engine, the patch-set regenerator
helpers and the trivial-change classifier, together with theorems settling the
specified properties.  Machine integers of the source are modelled by `Nat`,
fallible code by `Option`/`Except`, and panics by explicit `none`/`panicked`
outcomes.
-/

namespace Gitpatcher

/-! ## String utilities shared by the embeddings

All string manipulation is implemented structurally over character lists so
that every definition evaluates by kernel reduction; `String` is only
converted at the boundaries with `toList`/`asString`.
-/

/-- Whether `pat` is a prefix of `l` (over character lists). -/
def listPrefixOf (pat l : List Char) : Bool :=
  match pat, l with
  | [], _ => true
  | _ :: _, [] => false
  | p :: ps, c :: cs => p == c && listPrefixOf ps cs

/-- Whether `pat` occurs somewhere inside `l`. -/
def listInfixOf (pat l : List Char) : Bool :=
  match l with
  | [] => listPrefixOf pat []
  | _ :: cs => listPrefixOf pat l || listInfixOf pat cs

/-- Substring containment, embedding `bstr::ByteSlice::contains_str`. -/
def containsStr (s pat : String) : Bool := listInfixOf pat.toList s.toList

/-- Embeds `str::starts_with` for string patterns. -/
def strStartsWith (s pat : String) : Bool := listPrefixOf pat.toList s.toList

/-- Embeds `str::ends_with` for string patterns. -/
def strEndsWith (s pat : String) : Bool :=
  listPrefixOf pat.toList.reverse s.toList.reverse

/-- Drop the first `n` characters of a string (`s[n..]` on ASCII data). -/
def strDrop (s : String) (n : Nat) : String := (s.toList.drop n).asString

/-- Drop the last `n` characters of a string. -/
def strDropRight (s : String) (n : Nat) : String :=
  (s.toList.take (s.toList.length - n)).asString

/-- ASCII whitespace test matching `char::is_whitespace` on the data that
occurs in patch files. -/
def isWs (c : Char) : Bool := c == ' ' || c == '\t' || c == '\n' || c == '\r'

/-- Embeds `str::trim`: remove leading and trailing whitespace. -/
def strTrim (s : String) : String :=
  (((s.toList.dropWhile isWs).reverse.dropWhile isWs).reverse).asString

/-- Split a character list at every LF (the separators are consumed). -/
def splitLF : List Char → List (List Char)
  | [] => [[]]
  | c :: rest =>
    if c = '\n' then [] :: splitLF rest
    else
      match splitLF rest with
      | [] => [[c]]
      | l :: ls => (c :: l) :: ls

/-- Lines of a string following the semantics of Rust `str::lines`: split on
LF, drop the final empty segment produced by a trailing newline, and strip one
trailing CR from each line. -/
def rustLines (s : String) : List String :=
  let parts := splitLF s.toList
  let parts := if parts.getLast? = some [] then parts.dropLast else parts
  parts.map (fun l =>
    (if l.getLast? = some '\r' then l.dropLast else l).asString)

/-- Join a list of lines, terminating every line with LF (the `pushln` style
used throughout the source when rebuilding text from lines). -/
def joinLF (lines : List String) : String :=
  lines.foldr (fun l acc => l ++ "\n" ++ acc) ""

/-- A line is `clean` when it has no embedded LF and no trailing CR, so that
joining with LF and re-splitting with `rustLines` restores it exactly. -/
def cleanLine (l : String) : Bool :=
  l.toList.all (fun c => c != '\n') && !(l.toList.getLast? == some '\r')

/-! ## RememberLast (src/utils.rs) -/

/-- Embeds `RememberLast::remember` on the buffer contents (oldest to newest):
push while below capacity, otherwise rotate the oldest element out. -/
def rememberPush (limit : Nat) (last : List String) (x : String) : List String :=
  if last.length < limit then last ++ [x] else last.tail ++ [x]

/-- Embeds `RememberLast::back`: the Rust code indexes `last[len - offset - 1]`,
which panics when `offset ≥ len`; that case is modelled as `none`. -/
def rememberBack (last : List String) (offset : Nat) : Option String :=
  if offset < last.length then last.get? (last.length - offset - 1) else none

/-! ## Trivial-change classifier (src/regenerate_patches/patch_file.rs) -/

/-- Embeds nom `is_hex_digit` (ASCII hex digits). -/
def is_hex_digit (c : Char) : Bool :=
  c.isDigit || ('a' ≤ c && c ≤ 'f') || ('A' ≤ c && c ≤ 'F')

/-- Embeds `is_trivial_line`.  The first nom branch
`take_until("From ") >> take_while1(is_hex_digit)` succeeds exactly when the
line contains `"From "` (after `take_until` the remainder starts with the hex
digit `F`), and the second branch `opt(take(1)) >> tag("index")` succeeds
exactly when the line minus its first character starts with `"index"`. -/
def is_trivial_line (line : String) : Bool :=
  containsStr line "--- a" || containsStr line "+++ b" ||
    (containsStr line "From " || listPrefixOf "index".toList (line.toList.drop 1))

/-- Embeds `line.starts_with(CHANGE_MARKERS)` for the markers `+` and `-`. -/
def startsWithChangeMarker (l : String) : Bool :=
  strStartsWith l "+" || strStartsWith l "-"

/-- The scan loop of `is_trivial_patch_change`: remember (bounded to the last
5) every `+`/`-` line of the diff that is not trivial. -/
def rememberedChanges (diff : String) : List String :=
  (rustLines diff).foldl
    (fun acc line =>
      if startsWithChangeMarker line && !is_trivial_line line then
        rememberPush 5 acc line
      else acc)
    []

/-- Embeds `line[1..].trim()`: strip the change marker, then trim. -/
def stripMarkerTrim (l : String) : String := strTrim (strDrop l 1)

/-- The decision `match` at the end of `is_trivial_patch_change`, over the
remembered buffer (oldest to newest); the source matches on `remember.len()`
with arms `0`, `1` and a default, rendered here as an if-chain on the length.
`none` models the panic of an out-of-bounds `RememberLast::back` access.  The
guard `remember.len() + ignored_changes >= 2` of the source is omitted because
it is always true on this branch (`len ≥ 2` and `ignored_changes ≥ 1`
there). -/
def trivialDecision (r : List String) (git_ver : String) : Option Bool :=
  if r.length = 0 then some true
  else if r.length = 1 then
    (rememberBack r 0).map (fun l => stripMarkerTrim l == git_ver)
  else do
    let b0 ← rememberBack r 0
    let i0 : Nat := if stripMarkerTrim b0 == "" then 1 else 0
    let bi ← rememberBack r i0
    if stripMarkerTrim bi == git_ver then do
      let b1 ← rememberBack r (i0 + 1)
      if stripMarkerTrim b1 == "--" then do
        let b3 ← rememberBack r (i0 + 3)
        if stripMarkerTrim b3 == "--" then
          pure (i0 + 4 == r.length)
        else
          pure (i0 + 2 == r.length)
      else
        pure (i0 + 2 == r.length)
    else
      pure (i0 == r.length)

/-- Embeds `is_trivial_patch_change`; `none` models a panic. -/
def is_trivial_patch_change (diff git_ver : String) : Option Bool :=
  trivialDecision (rememberedChanges diff) git_ver

/-- The remembered buffer viewed newest-first with markers stripped and
trimmed, the view in which the classifier's `back` offsets are positional. -/
def strippedNewestFirst (r : List String) : List String :=
  r.reverse.map stripMarkerTrim

/-- Specification-side trivial decision on the newest-first stripped view:
empty means trivial; a single change is trivial exactly when it equals the
version string; otherwise the view must be an optional blank change, then the
version string, then either exactly one further change that is not a `--`
footer separator (the presumed old-version line, whose content is not
inspected), or exactly a `--` change, one uninspected change, and a closing
`--` change. -/
def patternSpecNF (L : List String) (v : String) : Bool :=
  match L with
  | [] => true
  | [a] => a == v
  | a :: rest =>
    let m := if a == "" then rest else a :: rest
    match m with
    | v' :: b :: rest2 =>
        v' == v &&
          (if b == "--" then
            (match rest2 with
             | [_, d] => d == "--"
             | _ => false)
           else rest2.isEmpty)
    | _ => false

/-- The amended classification rule over the remembered buffer. -/
def trivialPatternSpec (r : List String) (v : String) : Bool :=
  patternSpecNF (strippedNewestFirst r) v

/-- A remembered added line (marker `+`) whose stripped, trimmed content is
neither blank, nor the current tool-version string, nor the `--` footer
separator: by the claim such a line must make the patch non-trivial. -/
def hasUnexplainedAddedLine (r : List String) (git_ver : String) : Bool :=
  r.any (fun l =>
    strStartsWith l "+" && !(stripMarkerTrim l == "") &&
      !(stripMarkerTrim l == git_ver) && !(stripMarkerTrim l == "--"))

/-- `trivialDecision` restated over the newest-first buffer directly (the
buffer reversed); bridging definition used only for the case analysis. -/
def decisionOnNF : List String → String → Option Bool
  | [], _ => some true
  | [a], v => some (stripMarkerTrim a == v)
  | a :: a1 :: tl, v => do
    let b0 ← (a :: a1 :: tl).get? 0
    let i0 : Nat := if stripMarkerTrim b0 == "" then 1 else 0
    let bi ← (a :: a1 :: tl).get? i0
    if stripMarkerTrim bi == v then do
      let b1 ← (a :: a1 :: tl).get? (i0 + 1)
      if stripMarkerTrim b1 == "--" then do
        let b3 ← (a :: a1 :: tl).get? (i0 + 3)
        if stripMarkerTrim b3 == "--" then
          pure (i0 + 4 == (a :: a1 :: tl).length)
        else
          pure (i0 + 2 == (a :: a1 :: tl).length)
      else
        pure (i0 + 2 == (a :: a1 :: tl).length)
    else
      pure (i0 == (a :: a1 :: tl).length)

theorem rememberBack_eq_reverse_get? (r : List String) (i : Nat) :
    rememberBack r i = r.reverse.get? i := by
  unfold rememberBack
  by_cases h : i < r.length
  · rw [if_pos h, List.get?_reverse h]
    congr 1
    omega
  · rw [if_neg h, eq_comm, List.get?_eq_none]
    simp only [List.length_reverse]
    omega

theorem trivialDecision_eq_decisionOnNF (r : List String) (v : String) :
    trivialDecision r v = decisionOnNF r.reverse v := by
  have hlen : r.length = r.reverse.length := (List.length_reverse r).symm
  match hs : r.reverse with
  | [] =>
    have h0 : r.length = 0 := by rw [hlen, hs]; rfl
    simp [trivialDecision, decisionOnNF, h0]
  | [a] =>
    have h1 : r.length = 1 := by rw [hlen, hs]; rfl
    simp [trivialDecision, decisionOnNF, h1, rememberBack_eq_reverse_get?, hs]
  | a :: a1 :: tl =>
    have h2 : r.length = tl.length + 2 := by rw [hlen, hs]; simp
    unfold trivialDecision
    rw [if_neg (by omega), if_neg (by omega)]
    simp only [rememberBack_eq_reverse_get?, hs, h2, decisionOnNF, List.length_cons]

theorem decisionOnNF_eq_patternSpecNF (s : List String) (v : String) (b : Bool)
    (h : decisionOnNF s v = some b) :
    b = patternSpecNF (s.map stripMarkerTrim) v := by
  match s with
  | [] =>
    simp only [decisionOnNF, Option.some.injEq] at h
    simp [patternSpecNF, h.symm]
  | [a] =>
    simp only [decisionOnNF, Option.some.injEq] at h
    simp [patternSpecNF, h.symm]
  | a :: a1 :: tl =>
    by_cases h0 : stripMarkerTrim a = ""
    · -- the newest remembered change is blank: i0 = 1
      by_cases h1 : stripMarkerTrim a1 = v
      · match tl with
        | [] =>
          simp [decisionOnNF, Option.bind_eq_bind, Option.some_bind, beq_iff_eq,
            h0, h1, List.get?] at h
        | a2 :: tl2 =>
          by_cases h2 : stripMarkerTrim a2 = "--"
          · match tl2 with
            | [] =>
              simp [decisionOnNF, Option.bind_eq_bind, Option.some_bind, beq_iff_eq,
                h0, h1, h2, List.get?] at h
            | [a3] =>
              simp [decisionOnNF, Option.bind_eq_bind, Option.some_bind, beq_iff_eq,
                h0, h1, h2, List.get?] at h
            | a3 :: a4 :: tl4 =>
              by_cases h4 : stripMarkerTrim a4 = "--"
              · simp only [decisionOnNF, Option.bind_eq_bind, Option.some_bind,
                  Option.pure_def, List.get?, beq_iff_eq, h0, h1, h2, h4, reduceIte,
                  Option.some.injEq, List.length_cons] at h
                subst h
                match tl4 with
                | [] => simp [patternSpecNF, h0, h1, h2, h4]
                | a5 :: tl5 =>
                  simp [patternSpecNF, h0, h1, h2, h4, beq_eq_false_iff_ne]
              · simp only [decisionOnNF, Option.bind_eq_bind, Option.some_bind,
                  Option.pure_def, List.get?, beq_iff_eq, h0, h1, h2, h4, reduceIte,
                  Option.some.injEq, List.length_cons] at h
                subst h
                match tl4 with
                | [] => simp [patternSpecNF, h0, h1, h2, beq_iff_eq, h4]
                | a5 :: tl5 =>
                  simp [patternSpecNF, h0, h1, h2, beq_eq_false_iff_ne]
          · simp only [decisionOnNF, Option.bind_eq_bind, Option.some_bind,
              Option.pure_def, List.get?, beq_iff_eq, h0, h1, h2, reduceIte,
              Option.some.injEq, List.length_cons] at h
            subst h
            match tl2 with
            | [] => simp [patternSpecNF, h0, h1, beq_iff_eq, h2]
            | a3 :: tl3 =>
              simp [patternSpecNF, h0, h1, beq_iff_eq, h2, beq_eq_false_iff_ne]
      · simp only [decisionOnNF, Option.bind_eq_bind, Option.some_bind,
          Option.pure_def, List.get?, beq_iff_eq, h0, h1, reduceIte,
          Option.some.injEq, List.length_cons] at h
        subst h
        match tl with
        | [] => simp [patternSpecNF, h0, beq_iff_eq, h1]
        | a2 :: tl2 =>
          simp [patternSpecNF, h0, beq_iff_eq, h1, beq_eq_false_iff_ne]
    · -- the newest remembered change is not blank: i0 = 0
      by_cases h1 : stripMarkerTrim a = v
      · have hv : ¬(v = "") := by rw [← h1]; exact h0
        by_cases h2 : stripMarkerTrim a1 = "--"
        · match tl with
          | [] =>
            simp [decisionOnNF, Option.bind_eq_bind, Option.some_bind, beq_iff_eq,
              h0, h1, h2, hv, List.get?] at h
          | [a2] =>
            simp [decisionOnNF, Option.bind_eq_bind, Option.some_bind, beq_iff_eq,
              h0, h1, h2, hv, List.get?] at h
          | a2 :: a3 :: tl3 =>
            by_cases h3 : stripMarkerTrim a3 = "--"
            · simp only [decisionOnNF, Option.bind_eq_bind, Option.some_bind,
                Option.pure_def, List.get?, beq_iff_eq, h0, h1, h2, h3, hv, reduceIte,
                Option.some.injEq, List.length_cons] at h
              subst h
              match tl3 with
              | [] => simp [patternSpecNF, h1, h2, h3, hv]
              | a4 :: tl4 =>
                simp [patternSpecNF, h1, h2, h3, hv, beq_eq_false_iff_ne]
            · simp only [decisionOnNF, Option.bind_eq_bind, Option.some_bind,
                Option.pure_def, List.get?, beq_iff_eq, h0, h1, h2, h3, hv, reduceIte,
                Option.some.injEq, List.length_cons] at h
              subst h
              match tl3 with
              | [] => simp [patternSpecNF, h1, h2, beq_iff_eq, h3, hv]
              | a4 :: tl4 =>
                simp [patternSpecNF, h1, h2, hv, beq_eq_false_iff_ne]
        · simp only [decisionOnNF, Option.bind_eq_bind, Option.some_bind,
            Option.pure_def, List.get?, beq_iff_eq, h0, h1, h2, hv, reduceIte,
            Option.some.injEq, List.length_cons] at h
          subst h
          match tl with
          | [] => simp [patternSpecNF, h1, beq_iff_eq, h2, hv]
          | a2 :: tl2 =>
            simp [patternSpecNF, h1, beq_iff_eq, h2, hv, beq_eq_false_iff_ne]
      · simp only [decisionOnNF, Option.bind_eq_bind, Option.some_bind,
          Option.pure_def, List.get?, beq_iff_eq, h0, h1, reduceIte,
          Option.some.injEq, List.length_cons] at h
        subst h
        simp [patternSpecNF, beq_iff_eq, h0, h1, beq_eq_false_iff_ne]

/-- Claim C4, counterexample: the classifier is claimed to mark any patch
non-trivial when a remembered content line is not explained by the blank
change, the version-string change or the `--` pair; yet on the diff
`---`/`+XXX`/`---`/`+2.30.1` with current version `2.30.1` the remembered
added line `+XXX` is none of these and the classifier still returns trivial. -/
theorem claim_C4_counterexample :
    is_trivial_patch_change "---\n+XXX\n---\n+2.30.1\n" "2.30.1" = some true ∧
      hasUnexplainedAddedLine
        (rememberedChanges "---\n+XXX\n---\n+2.30.1\n") "2.30.1" = true := by
  exact ⟨by decide, by decide⟩

/-- Claim C4, amended: whenever `is_trivial_patch_change` returns (does not
panic), it returns trivial exactly when the remembered buffer, viewed newest
first with markers stripped and trimmed, is empty; or a single line equal to
the tool-version string; or an optional blank change, then the version string,
then either exactly one further change that is not `--` (the presumed
old-version line, whose content is not inspected) or exactly a `--` change,
one uninspected change, and a closing `--` change. -/
theorem claim_C4_amended (d v : String) (b : Bool)
    (h : is_trivial_patch_change d v = some b) :
    b = true ↔ trivialPatternSpec (rememberedChanges d) v = true := by
  unfold is_trivial_patch_change at h
  rw [trivialDecision_eq_decisionOnNF] at h
  have hb := decisionOnNF_eq_patternSpecNF _ _ _ h
  subst hb
  exact Iff.rfl

/-- Witness for the amended claim C4 at the typical version bump. -/
theorem claim_C4_witness :
    is_trivial_patch_change "-2.20.0\n+2.30.1\n" "2.30.1" = some true ∧
      (true = true ↔
        trivialPatternSpec (rememberedChanges "-2.20.0\n+2.30.1\n") "2.30.1" = true) :=
  ⟨by decide, claim_C4_amended "-2.20.0\n+2.30.1\n" "2.30.1" true (by decide)⟩

/-- Claim C9: the classifier is claimed never to make an out-of-bounds
`RememberLast::back` access; but with exactly two remembered lines, the newest
blank and the older equal to the version string, the source evaluates
`remember.back(ignored_changes)` with `ignored_changes = 2`, computing the
index `len - offset - 1 = 2 - 2 - 1`, which underflows and panics (modelled by
`none`). -/
theorem claim_C9_panics :
    is_trivial_patch_change "+2.30.1\n+\n" "2.30.1" = none ∧
      (rememberedChanges "+2.30.1\n+\n").length = 2 := by
  exact ⟨by decide, by decide⟩

/-! ## CommitMessage (src/format_patches/format.rs) -/

inductive InvalidCommitMessage
  | emptyMessage
  | blankMessage
deriving DecidableEq, Repr

/-- Parsed view over a commit message: the source stores `Range<usize>` byte
offsets into `full`; character indices are used here (they are in monotone
correspondence with byte offsets, so every ordering fact coincides). -/
structure CommitMessage where
  full : String
  summary_start : Nat
  summary_end : Nat
  body_start : Nat
  body_end : Nat
deriving DecidableEq, Repr

/-- Embeds `rfind`: index of the last character satisfying `p`. -/
def rfindIdx? (l : List Char) (p : Char → Bool) : Option Nat :=
  (l.reverse.findIdx? p).map (fun j => l.length - 1 - j)

/-- Embeds `CommitMessage::parse`. -/
def CommitMessage.parse (full : String) : Except InvalidCommitMessage CommitMessage :=
  if full == "" then .error .emptyMessage
  else
    let chars := full.toList
    match chars.findIdx? (fun c => !isWs c) with
    | none => .error .blankMessage
    | some summary_start =>
      let summary_end := chars.findIdx (fun c => c == '\n')
      let potential_body := chars.drop summary_end
      let body_start := ((potential_body.findIdx? (fun c => !isWs c)).getD 0) + summary_end
      let body_end :=
        (match rfindIdx? potential_body (fun c => !isWs c) with
         | some i => i + 1
         | none => potential_body.length) + summary_end
      .ok { full := full, summary_start := summary_start, summary_end := summary_end,
            body_start := body_start, body_end := body_end }

/-- Embeds `CommitMessage::summary`, the slice `&full[start..end]`: Rust range
slicing panics when `start > end`, modelled by `none`. -/
def CommitMessage.summaryStr? (cm : CommitMessage) : Option String :=
  if cm.summary_start ≤ cm.summary_end then
    some (((cm.full.toList.drop cm.summary_start).take
      (cm.summary_end - cm.summary_start)).asString)
  else none

/-- Embeds `CommitMessage::body`, the slice `&full[start..end]`. -/
def CommitMessage.bodyStr? (cm : CommitMessage) : Option String :=
  if cm.body_start ≤ cm.body_end then
    some (((cm.full.toList.drop cm.body_start).take
      (cm.body_end - cm.body_start)).asString)
  else none

/-! ## Patch file naming (CommitMessage::patch_file_name) -/

/-- Embeds the kept-character test `c.is_ascii_alphanumeric() || c == '.' || c == '_'`. -/
def keepChar (c : Char) : Bool := c.isAlphanum || c == '.' || c == '_'

/-- The sanitize loop of `patch_file_name`: keep good characters, silently
drop a `(` immediately followed by `)`, otherwise emit a single `-` per run of
other characters (`lastDash` tracks `sanitized_name.ends_with('-')`). -/
def sanitizeAux : List Char → Bool → List Char
  | [], _ => []
  | '(' :: ')' :: rest, lastDash => sanitizeAux rest lastDash
  | c :: rest, lastDash =>
    if keepChar c then c :: sanitizeAux rest false
    else if lastDash then sanitizeAux rest true
    else '-' :: sanitizeAux rest true

/-- Embeds the trailing strip
`truncate(rfind(|c| c != '.' && c != '-').unwrap_or(0) + 1)`. -/
def stripTrailingJunk (l : List Char) : List Char :=
  l.take ((rfindIdx? l (fun c => c != '.' && c != '-')).getD 0 + 1)

/-- Embeds the leading strip `drain(0..find(|c| c != '-').unwrap_or(len))`. -/
def stripLeadingDash (l : List Char) : List Char :=
  l.drop (l.findIdx (fun c => c != '-'))

/-- Embeds the Rust format specifier `{:04}`. -/
def zeroPad4 (n : Nat) : String :=
  let ds := (Nat.repr n).toList
  ((List.replicate (4 - ds.length) '0') ++ ds).asString

/-- Embeds `CommitMessage::patch_file_name` applied to the summary text (the
source asserts `patch_no >= 1`; callers always satisfy it). -/
def patch_file_name (summary : String) (patch_no : Nat) : String :=
  let s1 := sanitizeAux summary.toList false
  let s2 := stripTrailingJunk s1
  let s3 := stripLeadingDash s2
  zeroPad4 patch_no ++ "-" ++ (s3.take 52).asString ++ ".patch"

/-- Replace every non-kept character by `-`. -/
def mapJunk (l : List Char) : List Char :=
  l.map (fun c => if keepChar c then c else '-')

/-- Collapse every run of consecutive dashes into a single dash. -/
def squashDashes : List Char → List Char
  | [] => []
  | [c] => [c]
  | c :: d :: rest =>
    if c == '-' && d == '-' then squashDashes (d :: rest)
    else c :: squashDashes (d :: rest)

/-- Drop every `(` immediately followed by `)` in a single left-to-right scan. -/
def dropParenPairs : List Char → List Char
  | [] => []
  | '(' :: ')' :: rest => dropParenPairs rest
  | c :: rest => c :: dropParenPairs rest

/-- The naming rule exactly as the claim words it: keep alphanumerics, `.`,
`_`; collapse runs of other characters to a single `-`; drop adjacent empty
`()` pairs; strip leading and trailing `-` and `.`; truncate to 52; prefix the
4-digit zero-padded number. -/
def claimed_patch_file_name (summary : String) (n : Nat) : String :=
  let s1 := squashDashes (mapJunk (dropParenPairs summary.toList))
  let s2 := (s1.reverse.dropWhile (fun c => c == '.' || c == '-')).reverse
  let s3 := s2.dropWhile (fun c => c == '.' || c == '-')
  zeroPad4 n ++ "-" ++ (s3.take 52).asString ++ ".patch"

/-- Trailing strip as the code actually behaves: remove trailing `-`/`.` from
the tail, but the first character always survives this step. -/
def specStripTrailing : List Char → List Char
  | [] => []
  | c :: rest => c :: (rest.reverse.dropWhile (fun c => c == '.' || c == '-')).reverse

/-- Leading strip as the code actually behaves: only `-` is stripped. -/
def specStripLeading (l : List Char) : List Char :=
  l.dropWhile (fun c => c == '-')

/-- The amended naming rule: as claimed, except that the trailing strip never
removes the first character and the leading strip removes only `-`. -/
def amended_patch_file_name (summary : String) (n : Nat) : String :=
  let s1 := squashDashes (mapJunk (dropParenPairs summary.toList))
  let s2 := specStripTrailing s1
  let s3 := specStripLeading s2
  zeroPad4 n ++ "-" ++ (s3.take 52).asString ++ ".patch"

theorem keepChar_beq_dash_false {c : Char} (h : keepChar c = true) : (c == '-') = false := by
  cases hc : c == '-'
  · rfl
  · exfalso
    have : c = '-' := by exact beq_iff_eq.mp hc
    subst this
    exact absurd h (by decide)

theorem squashDashes_cons_of_ne {c : Char} (ys : List Char) (hc : (c == '-') = false) :
    squashDashes (c :: ys) = c :: squashDashes ys := by
  cases ys with
  | nil => simp [squashDashes]
  | cons y ys' => simp [squashDashes, hc]

theorem sanitizeAux_spec (l : List Char) :
    sanitizeAux l false = squashDashes (mapJunk (dropParenPairs l)) ∧
      '-' :: sanitizeAux l true = squashDashes ('-' :: mapJunk (dropParenPairs l)) := by
  induction l using dropParenPairs.induct with
  | case1 => simp [sanitizeAux, mapJunk, dropParenPairs, squashDashes]
  | case2 rest ih =>
    constructor
    · rw [show sanitizeAux ('(' :: ')' :: rest) false = sanitizeAux rest false from rfl,
        show dropParenPairs ('(' :: ')' :: rest) = dropParenPairs rest from rfl]
      exact ih.1
    · rw [show sanitizeAux ('(' :: ')' :: rest) true = sanitizeAux rest true from rfl,
        show dropParenPairs ('(' :: ')' :: rest) = dropParenPairs rest from rfl]
      exact ih.2
  | case3 c rest h ih =>
    have hdp : dropParenPairs (c :: rest) = c :: dropParenPairs rest := by
      simp [dropParenPairs, h]
    by_cases hk : keepChar c
    · have hsan : sanitizeAux (c :: rest) false = c :: sanitizeAux rest false := by
        simp [sanitizeAux, h, hk]
      have hsan' : sanitizeAux (c :: rest) true = c :: sanitizeAux rest false := by
        simp [sanitizeAux, h, hk]
      have hmap : mapJunk (c :: dropParenPairs rest) = c :: mapJunk (dropParenPairs rest) := by
        simp [mapJunk, hk]
      have hne := keepChar_beq_dash_false hk
      constructor
      · rw [hsan, hdp, hmap, squashDashes_cons_of_ne _ hne, ih.1]
      · rw [hsan', hdp, hmap]
        have : squashDashes ('-' :: c :: mapJunk (dropParenPairs rest)) =
            '-' :: squashDashes (c :: mapJunk (dropParenPairs rest)) := by
          simp [squashDashes, hne]
        rw [this, squashDashes_cons_of_ne _ hne, ih.1]
    · have hsan : sanitizeAux (c :: rest) false = '-' :: sanitizeAux rest true := by
        simp [sanitizeAux, h, hk]
      have hsan' : sanitizeAux (c :: rest) true = sanitizeAux rest true := by
        simp [sanitizeAux, h, hk]
      have hmap : mapJunk (c :: dropParenPairs rest) = '-' :: mapJunk (dropParenPairs rest) := by
        simp [mapJunk, hk]
      constructor
      · rw [hsan, hdp, hmap]
        exact ih.2
      · rw [hsan', hdp, hmap]
        have : squashDashes ('-' :: '-' :: mapJunk (dropParenPairs rest)) =
            squashDashes ('-' :: mapJunk (dropParenPairs rest)) := by
          simp [squashDashes]
        rw [this]
        exact ih.2

theorem findIdx?_some_lt {α : Type} {p : α → Bool} :
    ∀ {l : List α} {k : Nat}, l.findIdx? p = some k → k < l.length := by
  intro l
  induction l with
  | nil => intro k h; simp [List.findIdx?] at h
  | cons a t ih =>
    intro k h
    rw [List.findIdx?_cons] at h
    by_cases hp : p a
    · simp [hp] at h
      simp only [List.length_cons]
      omega
    · simp [hp, List.findIdx?_succ] at h
      obtain ⟨j, hj, rfl⟩ := h
      have := ih hj
      simp only [List.length_cons]
      omega

theorem dropWhile_reverse_eq_take (p q : Char → Bool) (hq : ∀ c, q c = !(p c))
    (l : List Char) :
    (l.reverse.dropWhile q).reverse =
      l.take (match rfindIdx? l p with | some i => i + 1 | none => 0) := by
  induction l using List.reverseRecOn with
  | nil => simp [rfindIdx?]
  | append_singleton xs a ih =>
    rw [List.reverse_append, List.reverse_singleton, List.singleton_append,
      List.dropWhile_cons]
    have hrf : rfindIdx? (xs ++ [a]) p =
        ((a :: xs.reverse).findIdx? p).map (fun j => (xs.length + 1) - 1 - j) := by
      unfold rfindIdx?
      rw [List.reverse_append, List.reverse_singleton, List.singleton_append]
      simp [List.length_append]
    by_cases hp : p a
    · have hqa : q a = false := by rw [hq a, hp]; rfl
      have hlen : (match rfindIdx? (xs ++ [a]) p with | some i => i + 1 | none => 0) =
          (xs ++ [a]).length := by
        rw [hrf, List.findIdx?_cons, if_pos hp]
        simp [List.length_append]
      rw [hlen, List.take_length, hqa]
      simp
    · have hpa : p a = false := by revert hp; cases p a <;> simp
      have hqa : q a = true := by rw [hq a, hpa]; rfl
      rw [hqa]
      simp only [if_true]
      rw [hrf, List.findIdx?_cons, if_neg hp, List.findIdx?_succ]
      cases hfx : xs.reverse.findIdx? p with
      | none =>
        simp only [hfx, Option.map_none']
        have hxs : rfindIdx? xs p = none := by
          unfold rfindIdx?
          rw [hfx]
          rfl
        rw [ih]
        rw [hxs]
        simp
      | some j =>
        simp only [hfx, Option.map_some']
        have hjlt : j < xs.length := by
          have := findIdx?_some_lt hfx
          simpa using this
        have hxs : rfindIdx? xs p = some (xs.length - 1 - j) := by
          unfold rfindIdx?
          rw [hfx]
          rfl
        rw [ih, hxs]
        have harith : xs.length + 1 - 1 - (j + 1) + 1 = xs.length - 1 - j + 1 := by omega
        rw [harith, List.take_append_of_le_length (by omega)]

theorem stripTrailingJunk_eq_spec (l : List Char) :
    stripTrailingJunk l = specStripTrailing l := by
  have hq : ∀ c : Char, (fun c => c == '.' || c == '-') c =
      !((fun c => c != '.' && c != '-') c) := by
    intro c
    simp [bne]
  cases l with
  | nil => rfl
  | cons c rest =>
    show (c :: rest).take
        ((rfindIdx? (c :: rest) (fun c => c != '.' && c != '-')).getD 0 + 1) =
      c :: (rest.reverse.dropWhile (fun c => c == '.' || c == '-')).reverse
    rw [dropWhile_reverse_eq_take (fun c => c != '.' && c != '-')
      (fun c => c == '.' || c == '-') hq rest]
    have hrf : rfindIdx? (c :: rest) (fun c => c != '.' && c != '-') =
        ((c :: rest).reverse.findIdx? (fun c => c != '.' && c != '-')).map
          (fun j => (rest.length + 1) - 1 - j) := by
      unfold rfindIdx?
      simp
    rw [List.reverse_cons] at hrf
    cases hfx : rest.reverse.findIdx? (fun c => c != '.' && c != '-') with
    | none =>
      have hrest : rfindIdx? rest (fun c => c != '.' && c != '-') = none := by
        unfold rfindIdx?
        rw [hfx]
        rfl
      rw [hrest]
      rw [List.findIdx?_append, hfx] at hrf
      simp only [Option.none_or] at hrf
      by_cases hc : (fun c => c != '.' && c != '-') c
      · rw [List.findIdx?_cons, if_pos hc] at hrf
        simp only [List.findIdx?, Option.map_some'] at hrf
        rw [hrf]
        simp only [List.length_reverse, Option.getD_some]
        rw [List.take_cons (by omega)]
        simp
      · rw [List.findIdx?_cons, if_neg hc] at hrf
        simp only [List.findIdx?, Option.map_none'] at hrf
        rw [hrf]
        simp only [Option.getD_none]
        rw [List.take_cons (by omega)]
    | some j =>
      have hjlt : j < rest.length := by
        have := findIdx?_some_lt hfx
        simpa using this
      have hrest : rfindIdx? rest (fun c => c != '.' && c != '-') =
          some (rest.length - 1 - j) := by
        unfold rfindIdx?
        rw [hfx]
        rfl
      rw [hrest]
      rw [List.findIdx?_append, hfx] at hrf
      rw [show ∀ o : Option Nat, (some j).or o = some j from fun _ => rfl] at hrf
      simp only [Option.map_some'] at hrf
      rw [hrf]
      simp only [List.length_reverse, Option.getD_some]
      rw [List.take_cons (by omega)]
      congr 1
      congr 1
      omega

theorem stripLeadingDash_eq_spec (l : List Char) :
    stripLeadingDash l = specStripLeading l := by
  induction l with
  | nil => rfl
  | cons c rest ih =>
    unfold stripLeadingDash specStripLeading
    rw [List.findIdx_cons, List.dropWhile_cons]
    by_cases hc : c = '-'
    · subst hc
      simp only [bne_self_eq_false, cond_false, beq_self_eq_true, if_true]
      rw [List.drop_succ_cons]
      exact ih
    · have h1 : ('-' != '-') = false := by simp
      have h2 : (c != '-') = true := by simp [bne, hc]
      have h3 : (c == '-') = false := by simp [hc]
      rw [h2, h3]
      simp

/-- Claim C6, counterexample: the claim says leading `-`/`.` are stripped from
the sanitized name, but the code strips only leading `-`: on the summary `.x`
the code produces `0001-.x.patch` while the claimed rule gives
`0001-x.patch`. -/
theorem claim_C6_counterexample :
    patch_file_name ".x" 1 = "0001-.x.patch" ∧
      claimed_patch_file_name ".x" 1 = "0001-x.patch" ∧
      ("0001-.x.patch" : String) ≠ "0001-x.patch" :=
  ⟨by decide, by decide, by decide⟩

/-- Claim C6, amended: for every summary and sequence number n ≥ 1,
`patch_file_name` keeps ASCII alphanumerics, `.` and `_`, collapses each run
of other characters to a single `-`, drops immediately adjacent empty `()`
pairs, strips trailing `-`/`.` without ever removing the first character,
strips leading `-` only (a leading `.` is kept), truncates to 52 characters
and prefixes the 4-digit zero-padded number; in particular both example
file names of the claim hold. -/
theorem claim_C6_amended (s : String) (n : Nat) (h : 1 ≤ n) :
    patch_file_name s n = amended_patch_file_name s n ∧
      patch_file_name "POM Changes" 1 = "0001-POM-Changes.patch" ∧
      patch_file_name "Use ASM for event executors." 22 =
        "0022-Use-ASM-for-event-executors.patch" := by
  refine ⟨?_, by decide, by decide⟩
  simp only [patch_file_name, amended_patch_file_name]
  rw [(sanitizeAux_spec s.toList).1, stripTrailingJunk_eq_spec, stripLeadingDash_eq_spec]

/-- Witness for the amended claim C6 at a concrete summary and number. -/
theorem claim_C6_witness :
    patch_file_name "Version Command 2.0" 8 =
        amended_patch_file_name "Version Command 2.0" 8 ∧
      patch_file_name "POM Changes" 1 = "0001-POM-Changes.patch" ∧
      patch_file_name "Use ASM for event executors." 22 =
        "0022-Use-ASM-for-event-executors.patch" :=
  claim_C6_amended "Version Command 2.0" 8 (by decide)

/-- Claim C10: parsing is claimed to return ranges with start ≤ end on every
non-blank input, including ones whose first non-whitespace character comes
after the first newline; but on the input consisting of a newline followed by
`abc` the parse succeeds with `summary_start = 1 > summary_end = 0`, so
`summary()` slices `full[1..0]` and panics (modelled by `none`). -/
theorem claim_C10_range_bug :
    CommitMessage.parse "\nabc" =
        .ok { full := "\nabc", summary_start := 1, summary_end := 0,
              body_start := 1, body_end := 4 } ∧
      CommitMessage.summaryStr?
          { full := "\nabc", summary_start := 1, summary_end := 0,
            body_start := 1, body_end := 4 } = none :=
  ⟨by rfl, by decide⟩

/-! ## Patch file set and regeneration (src/regenerate_patches/patch_file.rs) -/

/-- Repository states of the git2 backend relevant to `regenerate_patches`. -/
inductive RepositoryState
  | clean | merge | revert | revertSequence | cherrypick | cherrypickSequence
  | bisect | rebase | rebaseInteractive | rebaseMerge | applyMailbox
  | applyMailboxOrRebase
deriving DecidableEq, Repr

structure PatchFile where
  index : Nat
  path : String
deriving DecidableEq, Repr

inductive PatchError
  | patchedRepoInvalidState (state : RepositoryState)
  | invalidPatchName (name : String)
deriving DecidableEq, Repr

/-- Embeds `usize::from_str` on a four-character prefix: an optional leading
`+`, then one or more ASCII digits. -/
def parseUsize (s : String) : Option Nat :=
  let chars := s.toList
  let digits := if chars.head? = some '+' then chars.tail else chars
  if digits = [] then none
  else if digits.all Char.isDigit then
    some (digits.foldl (fun acc c => acc * 10 + (c.toNat - 48)) 0)
  else none

/-- Embeds `PatchFile::parse`: the name must be at least five bytes, carry `-`
at byte four, end in `.patch`, and open with a parsable number (the `{:04}`
prefix); the path is the parent joined with the file name. -/
def PatchFile.parse (parent : String) (file_name : String) :
    Except PatchError PatchFile :=
  if file_name.toList.length ≥ 5 ∧ file_name.toList.get? 4 = some '-' ∧
      strEndsWith file_name ".patch" = true then
    match parseUsize (file_name.toList.take 4).asString with
    | some index => .ok { index := index, path := parent ++ "/" ++ file_name }
    | none => .error (.invalidPatchName file_name)
  else .error (.invalidPatchName file_name)

/-- Insertion into a list sorted by ascending `index`. -/
def insertByIndex (x : PatchFile) : List PatchFile → List PatchFile
  | [] => [x]
  | y :: ys => if x.index < y.index then x :: y :: ys else y :: insertByIndex x ys

/-- Embeds `patches.sort_by_key(|patch| patch.index)` (among equal indices the
relative order is irrelevant to every stated property). -/
def sortByIndex : List PatchFile → List PatchFile
  | [] => []
  | x :: xs => insertByIndex x (sortByIndex xs)

/-- Embeds `PatchFileSet::reload_files` on a directory listing: ignore entries
not ending in `.patch`, parse the rest (any failure aborts the reload), and
sort by the numeric sequence index.  (Non-UTF-8 names, skipped by the source,
cannot be represented here.) -/
def reload_files (patch_dir : String) (entries : List String) :
    Except PatchError (List PatchFile) := do
  let names := entries.filter (fun n => strEndsWith n ".patch")
  let ps ← names.mapM (fun n => PatchFile.parse patch_dir n)
  pure (sortByIndex ps)

/-- Ascending-by-index chain check. -/
def sortedByIndexB : List PatchFile → Bool
  | [] => true
  | [_] => true
  | x :: y :: rest => x.index ≤ y.index && sortedByIndexB (y :: rest)

theorem sortedByIndexB_insert (x : PatchFile) :
    ∀ l, sortedByIndexB l = true → sortedByIndexB (insertByIndex x l) = true := by
  intro l
  induction l with
  | nil => intro _; simp [insertByIndex, sortedByIndexB]
  | cons y ys ih =>
    intro h
    by_cases hxy : x.index < y.index
    · have h2 : sortedByIndexB (y :: ys) = true := h
      simp only [insertByIndex, hxy, if_true, reduceIte]
      show (x.index ≤ y.index && sortedByIndexB (y :: ys)) = true
      simp [h2]
      omega
    · cases ys with
      | nil =>
        simp only [insertByIndex, hxy, reduceIte]
        show (y.index ≤ x.index && sortedByIndexB [x]) = true
        simp [sortedByIndexB]
        omega
      | cons z zs =>
        have hyz : y.index ≤ z.index ∧ sortedByIndexB (z :: zs) = true := by
          have : (y.index ≤ z.index && sortedByIndexB (z :: zs)) = true := h
          constructor
          · exact of_decide_eq_true (Bool.and_eq_true_iff.mp this).1
          · exact (Bool.and_eq_true_iff.mp this).2
        have hins := ih hyz.2
        simp only [insertByIndex, hxy, reduceIte]
        by_cases hxz : x.index < z.index
        · simp only [insertByIndex, hxz, reduceIte] at hins ⊢
          show (y.index ≤ x.index && sortedByIndexB (x :: z :: zs)) = true
          simp [hins]
          omega
        · simp only [insertByIndex, hxz, reduceIte] at hins ⊢
          show (y.index ≤ z.index && sortedByIndexB (z :: insertByIndex x zs)) = true
          simp [hins]
          omega

theorem sortByIndex_sorted : ∀ l, sortedByIndexB (sortByIndex l) = true := by
  intro l
  induction l with
  | nil => rfl
  | cons x xs ih => exact sortedByIndexB_insert x _ ih

/-- Claim C8: after a successful `reload_files` the patch list is sorted in
ascending numeric sequence order: `0002-` precedes `0010-` by its parsed
number, and sequence numbers need not be contiguous. -/
theorem claim_C8_numeric_order (patch_dir : String) (entries : List String)
    (ps : List PatchFile) (h : reload_files patch_dir entries = .ok ps) :
    sortedByIndexB ps = true ∧
      reload_files "patches" ["0010-second.patch", "0002-first.patch"] =
        .ok [{ index := 2, path := "patches/0002-first.patch" },
             { index := 10, path := "patches/0010-second.patch" }] ∧
      reload_files "patches" ["0001-a.patch", "0005-b.patch"] =
        .ok [{ index := 1, path := "patches/0001-a.patch" },
             { index := 5, path := "patches/0005-b.patch" }] := by
  refine ⟨?_, by rfl, by rfl⟩
  simp only [reload_files] at h
  cases hm : (entries.filter (fun n => strEndsWith n ".patch")).mapM
      (fun n => PatchFile.parse patch_dir n) with
  | error e =>
    rw [hm] at h
    exact absurd h (by simp [Bind.bind, Except.bind])
  | ok l =>
    rw [hm] at h
    have : ps = sortByIndex l := by
      simpa [Bind.bind, Except.bind, pure, Except.pure] using h.symm
    rw [this]
    exact sortByIndex_sorted l

/-- Witness for claim C8 at a concrete directory listing. -/
theorem claim_C8_witness :
    sortedByIndexB [{ index := 2, path := "p/0002-b.patch" : PatchFile },
        { index := 7, path := "p/0007-a.patch" }] = true ∧
      reload_files "patches" ["0010-second.patch", "0002-first.patch"] =
        .ok [{ index := 2, path := "patches/0002-first.patch" },
             { index := 10, path := "patches/0010-second.patch" }] ∧
      reload_files "patches" ["0001-a.patch", "0005-b.patch"] =
        .ok [{ index := 1, path := "patches/0001-a.patch" },
             { index := 5, path := "patches/0005-b.patch" }] :=
  claim_C8_numeric_order "p" ["0007-a.patch", "0002-b.patch"]
    [{ index := 2, path := "p/0002-b.patch" }, { index := 7, path := "p/0007-a.patch" }]
    (by rfl)

/-- Outcome of the patch-removal phase of `regenerate_patches`. -/
inductive RemovalOutcome
  | removed (files : List PatchFile)
  | invalidState (state : RepositoryState)
  | panicked
deriving DecidableEq, Repr

/-- Embeds the `match target.state()` removal phase of `regenerate_patches`:
on a rebase, `next` is the rebase's current operation index (`unwrap_or(0)`)
and `&patch_set.patches[..next]` is deleted — that slice expression panics
when `next` exceeds the number of patches (modelled by `panicked`); on a clean
state every patch is deleted; any other state is
`PatchError::PatchedRepoInvalidState` with nothing deleted. -/
def remove_old_patches (state : RepositoryState) (operation_current : Option Nat)
    (patches : List PatchFile) : RemovalOutcome :=
  match state with
  | .rebase | .rebaseInteractive =>
    let next := operation_current.getD 0
    if next ≤ patches.length then .removed (patches.take next) else .panicked
  | .clean => .removed patches
  | s => .invalidState s

/-- Claim C7, counterexample: in a rebase whose current operation index is 2
over a single patch file, the claim requires exactly the files below index 2
(that is, the one patch) to be deleted, but the source slices
`patches[..2]` out of a one-element vector and panics, deleting nothing. -/
theorem claim_C7_counterexample :
    remove_old_patches .rebase (some 2)
        [{ index := 1, path := "patches/0001-a.patch" }] = .panicked ∧
      RemovalOutcome.panicked ≠
        .removed [{ index := 1, path := "patches/0001-a.patch" }] :=
  ⟨by rfl, by decide⟩

/-- Claim C7, amended: a clean state deletes every patch file; a rebase state
deletes exactly the patch files with position below the current operation
index and preserves all later ones, provided that index does not exceed the
number of patch files — when it does the call panics and deletes nothing; any
other state fails with `PatchedRepoInvalidState` and deletes nothing. -/
theorem claim_C7_amended (state : RepositoryState) (cur : Option Nat)
    (patches : List PatchFile) :
    (state = .clean → remove_old_patches state cur patches = .removed patches) ∧
      ((state = .rebase ∨ state = .rebaseInteractive) →
        (cur.getD 0 ≤ patches.length →
          remove_old_patches state cur patches =
              .removed (patches.take (cur.getD 0)) ∧
            patches = patches.take (cur.getD 0) ++ patches.drop (cur.getD 0)) ∧
          (patches.length < cur.getD 0 →
            remove_old_patches state cur patches = .panicked)) ∧
      (state ≠ .clean ∧ state ≠ .rebase ∧ state ≠ .rebaseInteractive →
        remove_old_patches state cur patches = .invalidState state) := by
  refine ⟨?_, ?_, ?_⟩
  · intro hs
    subst hs
    rfl
  · intro hs
    constructor
    · intro hle
      rcases hs with hs | hs <;> subst hs <;>
        exact ⟨by simp [remove_old_patches, hle], (List.take_append_drop _ _).symm⟩
    · intro hgt
      rcases hs with hs | hs <;> subst hs <;>
        simp [remove_old_patches]
      · omega
      · omega
  · intro ⟨h1, h2, h3⟩
    cases state <;> first | rfl | exact absurd rfl h1 | exact absurd rfl h2 | exact absurd rfl h3

/-- Witness for the amended claim C7 at a concrete rebase removal. -/
theorem claim_C7_witness :
    (RepositoryState.rebase = .clean →
        remove_old_patches .rebase (some 1)
          [{ index := 1, path := "p/0001-a.patch" : PatchFile },
           { index := 2, path := "p/0002-b.patch" }] =
          .removed [{ index := 1, path := "p/0001-a.patch" },
                    { index := 2, path := "p/0002-b.patch" }]) ∧
      ((RepositoryState.rebase = .rebase ∨ RepositoryState.rebase = .rebaseInteractive) →
        ((some 1 : Option Nat).getD 0 ≤
            ([{ index := 1, path := "p/0001-a.patch" : PatchFile },
              { index := 2, path := "p/0002-b.patch" }] : List PatchFile).length →
          remove_old_patches .rebase (some 1)
              [{ index := 1, path := "p/0001-a.patch" },
               { index := 2, path := "p/0002-b.patch" }] =
              .removed ([{ index := 1, path := "p/0001-a.patch" : PatchFile },
                 { index := 2, path := "p/0002-b.patch" }].take
                  ((some 1 : Option Nat).getD 0)) ∧
            ([{ index := 1, path := "p/0001-a.patch" : PatchFile },
              { index := 2, path := "p/0002-b.patch" }] : List PatchFile) =
              [{ index := 1, path := "p/0001-a.patch" : PatchFile },
                 { index := 2, path := "p/0002-b.patch" }].take
                  ((some 1 : Option Nat).getD 0) ++
                [{ index := 1, path := "p/0001-a.patch" : PatchFile },
                   { index := 2, path := "p/0002-b.patch" }].drop
                  ((some 1 : Option Nat).getD 0)) ∧
          (([{ index := 1, path := "p/0001-a.patch" : PatchFile },
              { index := 2, path := "p/0002-b.patch" }] : List PatchFile).length <
              (some 1 : Option Nat).getD 0 →
            remove_old_patches .rebase (some 1)
              [{ index := 1, path := "p/0001-a.patch" },
               { index := 2, path := "p/0002-b.patch" }] = .panicked)) ∧
      (RepositoryState.rebase ≠ .clean ∧ RepositoryState.rebase ≠ .rebase ∧
          RepositoryState.rebase ≠ .rebaseInteractive →
        remove_old_patches .rebase (some 1)
          [{ index := 1, path := "p/0001-a.patch" },
           { index := 2, path := "p/0002-b.patch" }] = .invalidState .rebase) :=
  claim_C7_amended .rebase (some 1)
    [{ index := 1, path := "p/0001-a.patch" }, { index := 2, path := "p/0002-b.patch" }]

/-! ## Structured diffs (modelling the git2/diffy collaborators) -/

/-- Delta statuses of the git2 backend (`git2::Delta`). -/
inductive DeltaStatus
  | added | deleted | modified | renamed | copied | unmodified | ignored
  | untracked | typechange | unreadable | conflicted
deriving DecidableEq, Repr

/-- One file-level change of a structured diff, carrying what the apply engine
reads from the collaborators: the per-side paths and existence flags of
`git2::DiffDelta`, the binary flag, and the single-file patch content (old and
new line lists) that `Patch::from_diff`/`diffy` expose.  `none` paths model
`/dev/null` sides. -/
structure Delta where
  status : DeltaStatus
  oldPath : Option String
  newPath : Option String
  oldExists : Bool
  newExists : Bool
  oldLines : List String
  newLines : List String
  binary : Bool
deriving DecidableEq, Repr

/-- Fold a digit run into its numeric value. -/
def digitsToNat (l : List Char) : Nat :=
  l.foldl (fun acc c => acc * 10 + (c.toNat - 48)) 0

/-- Split a character list at the first occurrence of `pat`, returning the
part before it and the part after it (the occurrence itself consumed);
`none` when `pat` does not occur (nom `take_until`). -/
def splitFirst : List Char → List Char → Option (List Char × List Char)
  | l, pat =>
    match l with
    | [] => if pat = [] then some ([], []) else none
    | c :: cs =>
      if listPrefixOf pat l then some ([], l.drop pat.length)
      else
        match splitFirst cs pat with
        | some (a, b) => some (c :: a, b)
        | none => none

/-! ## Patch email codec (src/apply_patches/email.rs) -/

/-- Embeds `parse_header_line` (all-consuming over one line): `From `, 1 to 40
hex digits, then the fixed date-stamp suffix. -/
def parse_header_line (line : String) : Option Unit :=
  if strStartsWith line "From " then
    let rest := line.toList.drop 5
    let h := (rest.takeWhile is_hex_digit).take 40
    if 1 ≤ h.length ∧ (rest.drop h.length).asString = " Mon Sep 17 00:00:00 2001" then
      some ()
    else none
  else none

/-- Embeds `parse_author_line`: `From: `, a non-empty name up to the first
` <`, a non-empty email up to the first `>`, nothing after. -/
def parse_author_line (line : String) : Option (String × String) :=
  if strStartsWith line "From: " then
    match splitFirst (line.toList.drop 6) " <".toList with
    | some (name, rest2) =>
      if name = [] then none
      else
        match splitFirst rest2 ['>'] with
        | some (email, rest3) =>
          if email = [] then none
          else if rest3 = [] then some (name.asString, email.asString) else none
        | none => none
    | none => none
  else none

/-- Embeds `parse_date_line`: `Date: `, a non-empty run without `+`/`-`, a
sign, then digits to the end of the line; the returned date text is everything
after `Date: `. -/
def parse_date_line (line : String) : Option String :=
  if strStartsWith line "Date: " then
    let rest := line.toList.drop 6
    let a := rest.takeWhile (fun c => !(c == '+' || c == '-'))
    if a = [] then none
    else
      match rest.drop a.length with
      | [] => none
      | _ :: ds => if ds ≠ [] ∧ ds.all Char.isDigit then some rest.asString else none
  else none

/-- Embeds `parse_subject_line`: `Subject: `, an optional `[PATCH] `, then the
rest of the line as the summary (possibly empty). -/
def parse_subject_line (line : String) : Option String :=
  if strStartsWith line "Subject: " then
    let rest := line.toList.drop 9
    some (if listPrefixOf "[PATCH] ".toList rest then (rest.drop 8).asString
          else rest.asString)
  else none

/-- Embeds `parse_begin_diff_line`: `diff --git a/`, a path up to the first
` b/`, then the second path (both possibly empty). -/
def parse_begin_diff_line (line : String) : Option (String × String) :=
  if strStartsWith line "diff --git a/" then
    match splitFirst (line.toList.drop 13) " b/".toList with
    | some (fa, fb) => some (fa.asString, fb.asString)
    | none => none
  else none

/-- Split a character list on a separator character. -/
def splitOnChar (sep : Char) : List Char → List (List Char)
  | [] => [[]]
  | c :: rest =>
    if c == sep then [] :: splitOnChar sep rest
    else
      match splitOnChar sep rest with
      | [] => [[c]]
      | l :: ls => (c :: l) :: ls

/-- Modelled from the spec: the RFC 2822 date parser of the external `time`
crate (`OffsetDateTime::parse(date, Rfc2822)`).  The spec (§6) gives the
accepted shape `{weekday}, {day} {month} {year} {hh:mm:ss} ±{offset}`, which
this checker validates structurally. -/
def rfc2822Ok (s : String) : Bool :=
  match splitOnChar ' ' s.toList with
  | [wd, d, mon, y, tm, off] =>
    ["Mon,", "Tue,", "Wed,", "Thu,", "Fri,", "Sat,", "Sun,"].contains wd.asString &&
    (d ≠ [] && d.length ≤ 2 && d.all Char.isDigit) &&
    ["Jan", "Feb", "Mar", "Apr", "May", "Jun", "Jul", "Aug", "Sep", "Oct",
      "Nov", "Dec"].contains mon.asString &&
    (y.length = 4 && y.all Char.isDigit) &&
    (match splitOnChar ':' tm with
     | [hh, mm, ss] =>
       (hh.length = 2 && hh.all Char.isDigit) && (mm.length = 2 && mm.all Char.isDigit)
         && (ss.length = 2 && ss.all Char.isDigit)
     | _ => false) &&
    (match off with
     | sign :: ds => (sign == '+' || sign == '-') && ds.length = 4 && ds.all Char.isDigit
     | [] => false)
  | _ => false

/-- Parse `--- X` / `+++ X` file lines of a delta block: `/dev/null` means an
absent side, otherwise the path must carry the `a/`-or-`b/` prefix. -/
def parseFileLine (pre side line : String) : Option (Option String) :=
  if strStartsWith line pre then
    let rest := (line.toList.drop 4).asString
    if rest = "/dev/null" then some none
    else if strStartsWith rest side then some (some (strDrop rest 2))
    else none
  else none

/-- Parse the modelled hunk header `@@ -1,M +1,N @@`, yielding both counts. -/
def parseHunkHeader (line : String) : Option (Nat × Nat) :=
  if strStartsWith line "@@ -1," then
    let rest := line.toList.drop 6
    let ms := rest.takeWhile Char.isDigit
    let rest2 := rest.drop ms.length
    if ms = [] then none
    else if listPrefixOf " +1,".toList rest2 then
      let rest3 := rest2.drop 4
      let ns := rest3.takeWhile Char.isDigit
      let rest4 := rest3.drop ns.length
      if ns = [] then none
      else if rest4.asString = " @@" then some (digitsToNat ms, digitsToNat ns)
      else none
    else none
  else none

/-- Take exactly `k` marker-prefixed hunk lines, stripping the marker. -/
def takeMarked (mark : Char) : Nat → List String → Option (List String × List String)
  | 0, ls => some ([], ls)
  | _ + 1, [] => none
  | k + 1, l :: ls =>
    if l.toList.head? = some mark then
      match takeMarked mark k ls with
      | some (xs, rest) => some ((l.toList.drop 1).asString :: xs, rest)
      | none => none
    else none

/-- Parse one delta block of the modelled canonical patch format. -/
def parseDeltaBlock : List String → Option (Delta × List String)
  | [] => none
  | l :: rest =>
    match parse_begin_diff_line l with
    | none => none
    | some _ =>
      let rest1 :=
        match rest with
        | m :: r =>
          if strStartsWith m "new file mode" || strStartsWith m "deleted file mode" then r
          else rest
        | [] => rest
      match rest1 with
      | idx :: oldL :: newL :: hdr :: r2 =>
        if strStartsWith idx "index" then
          match parseFileLine "--- " "a/" oldL, parseFileLine "+++ " "b/" newL,
              parseHunkHeader hdr with
          | some oldP, some newP, some (m, n) =>
            match takeMarked '-' m r2 with
            | some (olds, r3) =>
              match takeMarked '+' n r3 with
              | some (news, r4) =>
                let status :=
                  match oldP, newP with
                  | none, _ => DeltaStatus.added
                  | _, none => DeltaStatus.deleted
                  | _, _ => DeltaStatus.modified
                some ({ status := status, oldPath := oldP, newPath := newP,
                        oldExists := oldP.isSome, newExists := newP.isSome,
                        oldLines := olds, newLines := news, binary := false }, r4)
              | none => none
            | none => none
          | _, _, _ => none
        else none
      | _ => none

/-- Parse consecutive delta blocks, stopping leniently at the first line that
does not begin a delta (the email footer). -/
def parseDeltaBlocks : Nat → List String → Option (List Delta)
  | _, [] => some []
  | 0, _ :: _ => none
  | fuel + 1, l :: rest =>
    if (parse_begin_diff_line l).isSome then
      match parseDeltaBlock (l :: rest) with
      | some (d, r) =>
        match parseDeltaBlocks fuel r with
        | some ds => some (d :: ds)
        | none => none
      | none => none
    else some []

/-- Modelled from the spec: libgit2's structured patch parser
(`git2::Diff::from_buffer`), an external collaborator (spec §6): skip to the
first `diff --git a/` line, then parse delta blocks; no diff content at all is
an error. -/
def diff_from_buffer (msg : String) : Option (List Delta) :=
  let lines := rustLines msg
  let dlines := lines.dropWhile (fun l => !(parse_begin_diff_line l).isSome)
  match dlines with
  | [] => none
  | _ :: _ => parseDeltaBlocks dlines.length dlines

inductive InvalidEmailMessage
  | unexpectedEof (expected : String)
  | invalidHeader (expected : String) (actual : String)
  | invalidDate (actual : String)
  | gitError
deriving DecidableEq, Repr

structure EmailMessage where
  date : String
  message_summary : String
  message_tail : String
  author_name : String
  author_email : String
  git_diff : List Delta
deriving DecidableEq, Repr

/-- Embeds `match_header_line`: pop one line and run an all-consuming line
parser on it. -/
def match_header_line {α : Type} (lines : List String) (expected : String)
    (parse_func : String → Option α) : Except InvalidEmailMessage (α × List String) :=
  match lines with
  | [] => .error (.unexpectedEof expected)
  | line :: rest =>
    match parse_func line with
    | some v => .ok (v, rest)
    | none => .error (.invalidHeader expected line)

/-- The summary soft-wrap continuation loop of `EmailMessage::parse`: append
non-blank lines until the first blank line. -/
def summaryScan : List String → Except InvalidEmailMessage (String × List String)
  | [] => .error (.unexpectedEof "diff after subject")
  | l :: rest =>
    if l = "" then .ok ("", rest)
    else
      match summaryScan rest with
      | .ok (s, r) => .ok (l ++ s, r)
      | .error e => .error e

/-- The body collection loop of `EmailMessage::parse`: gather lines (each with
a trailing LF, a blank line as a bare LF) until a blank line whose immediately
following line parses as a begin-diff line; end of input is
`UnexpectedEof`. -/
def bodyScan : List String → Except InvalidEmailMessage (String × List String)
  | [] => .error (.unexpectedEof "diff after message")
  | l :: rest =>
    if l = "" then
      match rest with
      | next :: _ =>
        if (parse_begin_diff_line next).isSome then .ok ("", rest)
        else
          match bodyScan rest with
          | .ok (s, r) => .ok ("\n" ++ s, r)
          | .error e => .error e
      | [] => .error (.unexpectedEof "diff after message")
    else
      match bodyScan rest with
      | .ok (s, r) => .ok (l ++ "\n" ++ s, r)
      | .error e => .error e

/-- Embeds the trailing-newline strip after the body loop. -/
def stripOneTrailingLF (s : String) : String :=
  if s.toList.getLast? = some '\n' then strDropRight s 1 else s

/-- Embeds `EmailMessage::parse`. -/
def EmailMessage.parse (msg : String) : Except InvalidEmailMessage EmailMessage := do
  match diff_from_buffer msg with
  | none => .error .gitError
  | some git_diff =>
    let lines := rustLines msg
    let (_, lines) ← match_header_line lines "header" parse_header_line
    let (author, lines) ← match_header_line lines "author" parse_author_line
    let (date, lines) ← match_header_line lines "date" parse_date_line
    let (subject, lines) ← match_header_line lines "subject" parse_subject_line
    let (summaryCont, lines) ← summaryScan lines
    let (tailRaw, _) ← bodyScan lines
    if rfc2822Ok date then
      .ok { date := date, message_summary := subject ++ summaryCont,
            message_tail := stripOneTrailingLF tailRaw,
            author_name := author.1, author_email := author.2,
            git_diff := git_diff }
    else .error (.invalidDate date)

/-! ## Round-trip lemmas for lines and the body scan -/

theorem toList_append (a b : String) : (a ++ b).toList = a.toList ++ b.toList := by
  cases a; cases b; rfl

theorem asString_toList (s : String) : s.toList.asString = s := by
  cases s; rfl

/-- The raw string accumulated by `bodyScan` over a body prefix. -/
def collectLF : List String → String
  | [] => ""
  | l :: rest => if l = "" then "\n" ++ collectLF rest else l ++ "\n" ++ collectLF rest

/-- Lines joined with single interior newlines (the body text the claim
describes: blanks retained, one trailing newline stripped). -/
def joinBodyLF : List String → String
  | [] => ""
  | [l] => l
  | l :: rest => l ++ "\n" ++ joinBodyLF rest

/-- No blank line of the body is immediately followed by a begin-diff line
(the loop would terminate early there). -/
def noEarlyTerm : List String → Bool
  | [] => true
  | l :: rest =>
    (if l = "" then
      match rest with
      | next :: _ => !(parse_begin_diff_line next).isSome
      | [] => true
     else true) && noEarlyTerm rest

theorem splitLF_append_no_lf (ys : List Char) :
    ∀ xs : List Char, (∀ c ∈ xs, c ≠ '\n') →
      splitLF (xs ++ '\n' :: ys) = xs :: splitLF ys := by
  intro xs
  induction xs with
  | nil => intro _; simp [splitLF]
  | cons c xs' ih =>
    intro hc
    have hcn : c ≠ '\n' := hc c (by simp)
    have ih' := ih (fun x hx => hc x (by simp [hx]))
    rw [List.cons_append]
    show splitLF (c :: (xs' ++ '\n' :: ys)) = (c :: xs') :: splitLF ys
    rw [show splitLF (c :: (xs' ++ '\n' :: ys)) =
        if c = '\n' then [] :: splitLF (xs' ++ '\n' :: ys)
        else
          match splitLF (xs' ++ '\n' :: ys) with
          | [] => [[c]]
          | l :: ls => (c :: l) :: ls from rfl]
    rw [if_neg hcn, ih']

theorem splitLF_joinLF (L : List String) (hclean : ∀ l ∈ L, cleanLine l = true) :
    splitLF (joinLF L).toList = (L.map String.toList) ++ [[]] := by
  induction L with
  | nil => rfl
  | cons l L' ih =>
    have hl : ∀ c ∈ l.toList, c ≠ '\n' := by
      intro c hcmem
      have := hclean l (by simp)
      unfold cleanLine at this
      have h1 := (Bool.and_eq_true_iff.mp this).1
      have h2 := List.all_eq_true.mp h1 c hcmem
      intro hcontr
      subst hcontr
      simp at h2
    have ih' := ih (fun x hx => hclean x (by simp [hx]))
    show splitLF ((l ++ "\n" ++ joinLF L').toList) = (l.toList :: L'.map String.toList) ++ [[]]
    rw [String.append_assoc, toList_append]
    rw [show ("\n" ++ joinLF L').toList = '\n' :: (joinLF L').toList from by
      rw [toList_append]; rfl]
    rw [splitLF_append_no_lf _ _ hl, ih']
    rfl

theorem rustLines_joinLF (L : List String) (hclean : ∀ l ∈ L, cleanLine l = true) :
    rustLines (joinLF L) = L := by
  unfold rustLines
  rw [splitLF_joinLF L hclean]
  have hlast : ((L.map String.toList) ++ [[]]).getLast? = some [] := by
    simp [List.getLast?_concat]
  simp only [hlast, reduceIte, List.dropLast_concat, List.map_map]
  conv_rhs => rw [← List.map_id L]
  apply List.map_congr_left
  intro l hlmem
  have hcl := hclean l hlmem
  unfold cleanLine at hcl
  have h2 := (Bool.and_eq_true_iff.mp hcl).2
  have hcr : ¬(l.toList.getLast? = some '\r') := by
    simp only [Bool.not_eq_true'] at h2
    intro hcontr
    rw [hcontr] at h2
    simp at h2
  simp only [Function.comp]
  rw [if_neg hcr, asString_toList]
  rfl

theorem collectLF_cons_blank (rest : List String) :
    collectLF ("" :: rest) = "\n" ++ collectLF rest := by
  rfl

theorem collectLF_cons_nonblank (l : String) (rest : List String) (hl : l ≠ "") :
    collectLF (l :: rest) = l ++ "\n" ++ collectLF rest := by
  rw [collectLF]
  rw [if_neg hl]

theorem bodyScan_term (d : String) (rest : List String)
    (hd : (parse_begin_diff_line d).isSome = true) :
    bodyScan ("" :: d :: rest) = .ok ("", d :: rest) := by
  rw [bodyScan.eq_def]
  simp [hd]

theorem bodyScan_cons_blank_noDiff (n : String) (X : List String)
    (hn : (parse_begin_diff_line n).isSome = false) :
    bodyScan ("" :: n :: X) =
      match bodyScan (n :: X) with
      | .ok (s, r) => .ok ("\n" ++ s, r)
      | .error e => .error e := by
  rw [bodyScan.eq_def]
  simp [hn]

theorem bodyScan_cons_nonblank (l : String) (X : List String) (hl : l ≠ "") :
    bodyScan (l :: X) =
      match bodyScan X with
      | .ok (s, r) => .ok (l ++ "\n" ++ s, r)
      | .error e => .error e := by
  rw [bodyScan.eq_def]
  simp [hl]

theorem bodyScan_complete (d : String) (rest : List String)
    (hd : (parse_begin_diff_line d).isSome = true) :
    ∀ body : List String, noEarlyTerm body = true →
      bodyScan (body ++ "" :: d :: rest) = .ok (collectLF body, d :: rest) := by
  intro body
  induction body with
  | nil =>
    intro _
    rw [List.nil_append, bodyScan_term d rest hd]
    rfl
  | cons l body' ih =>
    intro hterm
    have hterm2 : noEarlyTerm body' = true := by
      unfold noEarlyTerm at hterm
      exact (Bool.and_eq_true_iff.mp hterm).2
    have ih' := ih hterm2
    by_cases hl : l = ""
    · subst hl
      cases body' with
      | nil =>
        have h2 : (parse_begin_diff_line "").isSome = false := by decide
        show bodyScan ("" :: "" :: d :: rest) = .ok (collectLF [""], d :: rest)
        rw [bodyScan_cons_blank_noDiff "" (d :: rest) h2, bodyScan_term d rest hd,
          collectLF_cons_blank]
        rfl
      | cons n body'' =>
        have hn : (parse_begin_diff_line n).isSome = false := by
          unfold noEarlyTerm at hterm
          have h1 := (Bool.and_eq_true_iff.mp hterm).1
          simp at h1
          simp [h1]
        rw [List.cons_append] at ih'
        show bodyScan ("" :: ((n :: body'') ++ "" :: d :: rest)) =
          .ok (collectLF ("" :: n :: body''), d :: rest)
        rw [List.cons_append, bodyScan_cons_blank_noDiff n _ hn, ih',
          collectLF_cons_blank]
    · show bodyScan (l :: (body' ++ "" :: d :: rest)) = .ok (collectLF (l :: body'), d :: rest)
      rw [bodyScan_cons_nonblank l _ hl, ih', collectLF_cons_nonblank l body' hl]

theorem collectLF_eq_joinBody_append (body : List String) (hne : body ≠ []) :
    collectLF body = joinBodyLF body ++ "\n" := by
  induction body with
  | nil => exact absurd rfl hne
  | cons l body' ih =>
    cases body' with
    | nil =>
      by_cases hl : l = ""
      · subst hl
        rw [collectLF_cons_blank, show joinBodyLF [""] = "" from rfl]
        rw [show collectLF ([] : List String) = "" from rfl]
        rw [String.empty_append, String.append_empty]
      · rw [collectLF_cons_nonblank l [] hl, show joinBodyLF [l] = l from rfl]
        rw [show collectLF ([] : List String) = "" from rfl]
        rw [String.append_empty]
    | cons m body'' =>
      have ih' := ih (by simp)
      have hj : joinBodyLF (l :: m :: body'') = l ++ "\n" ++ joinBodyLF (m :: body'') := rfl
      by_cases hl : l = ""
      · subst hl
        rw [collectLF_cons_blank, hj, ih', String.empty_append]
        exact (String.append_assoc _ _ _).symm
      · rw [collectLF_cons_nonblank l _ hl, hj, ih']
        exact (String.append_assoc _ _ _).symm

theorem stripOneTrailingLF_append_lf (x : String) :
    stripOneTrailingLF (x ++ "\n") = x := by
  unfold stripOneTrailingLF
  have hdata : (x ++ "\n").toList = x.toList ++ ['\n'] := by
    rw [toList_append]; rfl
  rw [hdata]
  rw [if_pos (by simp [List.getLast?_concat])]
  unfold strDropRight
  rw [hdata]
  simp only [List.length_append, List.length_cons, List.length_nil]
  rw [List.take_append_of_le_length (by omega)]
  rw [show x.toList.length + (0 + 1) - 1 = x.toList.length from by omega]
  rw [List.take_length, asString_toList]

theorem stripOne_collectLF (body : List String) :
    stripOneTrailingLF (collectLF body) = joinBodyLF body := by
  cases body with
  | nil => rfl
  | cons l body' =>
    rw [collectLF_eq_joinBody_append (l :: body') (by simp)]
    exact stripOneTrailingLF_append_lf _

theorem summaryScan_blank (X : List String) : summaryScan ("" :: X) = .ok ("", X) := by
  rw [summaryScan.eq_def]
  simp

theorem email_parse_structure
    (hl al dl sl : String) (name email date subj : String)
    (body : List String) (d : String) (rest : List String) (delta : List Delta)
    (hh : parse_header_line hl = some ())
    (ha : parse_author_line al = some (name, email))
    (hdl : parse_date_line dl = some date)
    (hdate : rfc2822Ok date = true)
    (hsl : parse_subject_line sl = some subj)
    (hclean : ∀ l ∈ hl :: al :: dl :: sl :: "" :: (body ++ "" :: d :: rest),
      cleanLine l = true)
    (hterm : noEarlyTerm body = true)
    (hd : (parse_begin_diff_line d).isSome = true)
    (hbuf : diff_from_buffer
        (joinLF (hl :: al :: dl :: sl :: "" :: (body ++ "" :: d :: rest))) = some delta) :
    EmailMessage.parse (joinLF (hl :: al :: dl :: sl :: "" :: (body ++ "" :: d :: rest))) =
      .ok { date := date, message_summary := subj,
            message_tail := joinBodyLF body, author_name := name,
            author_email := email, git_diff := delta } := by
  unfold EmailMessage.parse
  rw [hbuf, rustLines_joinLF _ hclean]
  simp only [match_header_line, hh, ha, hdl, hsl, Bind.bind, Except.bind,
    summaryScan_blank, bodyScan_complete d rest hd body hterm, stripOne_collectLF,
    hdate, if_true, String.append_empty]

/-- Claim C5: for every well-formed header prefix (a header, author, date and
subject line each accepted by its line parser, with an RFC 2822 date), the
body loop of `EmailMessage::parse` collects body lines and stops exactly at
the blank line whose immediately following line is a begin-diff line; blank
body lines not followed by a begin-diff line are retained; and exactly one
trailing newline is stripped from the collected body, so the stored tail is
the body lines joined by single newlines. -/
theorem claim_C5_body_termination
    (hl al dl sl : String) (name email date subj : String)
    (body : List String) (d : String) (rest : List String) (delta : List Delta)
    (hh : parse_header_line hl = some ())
    (ha : parse_author_line al = some (name, email))
    (hdl : parse_date_line dl = some date)
    (hdate : rfc2822Ok date = true)
    (hsl : parse_subject_line sl = some subj)
    (hclean : ∀ l ∈ hl :: al :: dl :: sl :: "" :: (body ++ "" :: d :: rest),
      cleanLine l = true)
    (hterm : noEarlyTerm body = true)
    (hd : (parse_begin_diff_line d).isSome = true)
    (hbuf : diff_from_buffer
        (joinLF (hl :: al :: dl :: sl :: "" :: (body ++ "" :: d :: rest))) = some delta) :
    EmailMessage.parse (joinLF (hl :: al :: dl :: sl :: "" :: (body ++ "" :: d :: rest))) =
      .ok { date := date, message_summary := subj,
            message_tail := joinBodyLF body, author_name := name,
            author_email := email, git_diff := delta } :=
  email_parse_structure hl al dl sl name email date subj body d rest delta
    hh ha hdl hdate hsl hclean hterm hd hbuf

/-- Witness for claim C5 at a concrete patch message with an interior blank
body line. -/
theorem claim_C5_witness :
    EmailMessage.parse (joinLF
        ("From 1234abcd Mon Sep 17 00:00:00 2001" ::
          "From: Alice Dev <alice@example.com>" ::
          "Date: Mon, 3 Jul 2006 17:18:43 +0200" ::
          "Subject: [PATCH] Fix the frobnicator" :: "" ::
          (["Body line one", "", "Body line two"] ++
            "" :: "diff --git a/src/a.txt b/src/a.txt" ::
              ["index 1111111..2222222 100644", "--- a/src/a.txt", "+++ b/src/a.txt",
               "@@ -1,2 +1,2 @@", "-old line", "-keep", "+new line", "+keep",
               "-- ", "2.30.1"]))) =
      .ok { date := "Mon, 3 Jul 2006 17:18:43 +0200",
            message_summary := "Fix the frobnicator",
            message_tail := joinBodyLF ["Body line one", "", "Body line two"],
            author_name := "Alice Dev", author_email := "alice@example.com",
            git_diff := [{ status := .modified, oldPath := some "src/a.txt",
                           newPath := some "src/a.txt", oldExists := true,
                           newExists := true, oldLines := ["old line", "keep"],
                           newLines := ["new line", "keep"], binary := false }] } :=
  claim_C5_body_termination
    "From 1234abcd Mon Sep 17 00:00:00 2001"
    "From: Alice Dev <alice@example.com>"
    "Date: Mon, 3 Jul 2006 17:18:43 +0200"
    "Subject: [PATCH] Fix the frobnicator"
    "Alice Dev" "alice@example.com" "Mon, 3 Jul 2006 17:18:43 +0200"
    "Fix the frobnicator"
    ["Body line one", "", "Body line two"]
    "diff --git a/src/a.txt b/src/a.txt"
    ["index 1111111..2222222 100644", "--- a/src/a.txt", "+++ b/src/a.txt",
     "@@ -1,2 +1,2 @@", "-old line", "-keep", "+new line", "+keep", "-- ", "2.30.1"]
    [{ status := .modified, oldPath := some "src/a.txt", newPath := some "src/a.txt",
       oldExists := true, newExists := true, oldLines := ["old line", "keep"],
       newLines := ["new line", "keep"], binary := false }]
    (by decide) (by decide) (by decide) (by decide) (by decide) (by decide)
    (by decide) (by decide) (by decide)

/-! ## Patch application engine (src/apply_patches/email.rs) -/

/-- Side effects on the target repository: blob writes into the object
database, commit creation, and the hard reset of HEAD. -/
inductive Effect
  | blobWrite (content : List String)
  | commitCreate
  | headReset
deriving DecidableEq, Repr

/-- Pending tree edits collected in the `TreeUpdateBuilder`. -/
inductive TreeEdit
  | removeEntry (path : String)
  | upsert (path : String) (content : List String)
deriving DecidableEq, Repr

inductive DeltaApplyError
  | missingOriginalFile (path : String)
  | unexpectedDeltaStatus (status : DeltaStatus)
  | binaryDelta
  | failApplyPatch
deriving DecidableEq, Repr

inductive PatchApplyError
  | failDelta (cause : DeltaApplyError)
  | failBuildTree
  | forbiddenAbsolutePath (path : String)
deriving DecidableEq, Repr

/-- Embeds `Utf8Path::is_absolute` in the unix form the engine sees. -/
def isAbsolutePath (p : String) : Bool := strStartsWith p "/"

/-- The first absolute path of a delta, old side checked before new side
(`DeltaDesc::from_git` checks `old_file` first). -/
def firstAbsPath (d : Delta) : Option String :=
  match d.oldPath with
  | some p =>
    if isAbsolutePath p then some p
    else
      match d.newPath with
      | some q => if isAbsolutePath q then some q else none
      | none => none
  | none =>
    match d.newPath with
    | some q => if isAbsolutePath q then some q else none
    | none => none

/-- Embeds the `DeltaDesc::from_git` path validation performed for every
delta, before its status is even inspected. -/
def checkDeltaPaths (d : Delta) : Option PatchApplyError :=
  (firstAbsPath d).map (fun p => .forbiddenAbsolutePath p)

/-- Whether a delta carries an absolute path on either side. -/
def hasAbsSide (d : Delta) : Bool :=
  (match d.oldPath with | some p => isAbsolutePath p | none => false) ||
    (match d.newPath with | some q => isAbsolutePath q | none => false)

/-- Modelled from the spec: `diffy::apply_bytes` on the single-file patch of a
delta; the hunk-level context matching (spec §4.2) is modelled at whole-file
granularity — the patch applies when the pre-image matches the recorded old
content, producing the new content, and fails cleanly otherwise. -/
def diffyApply (pre : List String) (d : Delta) : Option (List String) :=
  if pre = d.oldLines then some d.newLines else none

/-- Lookup of a blob by path in a tree (association list). -/
def lookupTree : List (String × List String) → String → Option (List String)
  | [], _ => none
  | (p, c) :: rest, q => if q = p then some c else lookupTree rest q

inductive DeltaProcResult
  | ok (edit : TreeEdit)
  | err (e : DeltaApplyError)
  | panicked
deriving DecidableEq, Repr

/-- Embeds `EmailMessage::apply_delta` for one delta against the base tree.
`Deleted` asserts the exists-flags and the old path (panics otherwise) and
records a removal; `Added`/`Modified`/`Renamed`/`Copied` obtain the
single-file patch (absent exactly for binary deltas), resolve the pre-image
(empty for `Added`, else the old path read from the base tree), apply the
patch, write the patched blob and record the upsert of the new path (whose
`unwrap` panics after the blob write when absent); every other status is
`UnexpectedDeltaStatus`. -/
def apply_delta (tree : List (String × List String)) (d : Delta) :
    List Effect × DeltaProcResult :=
  match d.status with
  | .deleted =>
    if !d.oldExists then ([], .panicked)
    else if d.newExists then ([], .panicked)
    else
      match d.oldPath with
      | none => ([], .panicked)
      | some p => ([], .ok (.removeEntry p))
  | .added | .modified | .renamed | .copied =>
    if d.binary then ([], .err .binaryDelta)
    else
      match (if d.status = .added then none else d.oldPath) with
      | none =>
        (match diffyApply [] d with
         | none => ([], .err .failApplyPatch)
         | some patched =>
           match d.newPath with
           | none => ([.blobWrite patched], .panicked)
           | some np => ([.blobWrite patched], .ok (.upsert np patched)))
      | some p =>
        match lookupTree tree p with
        | none => ([], .err (.missingOriginalFile p))
        | some pre =>
          match diffyApply pre d with
          | none => ([], .err .failApplyPatch)
          | some patched =>
            match d.newPath with
            | none => ([.blobWrite patched], .panicked)
            | some np => ([.blobWrite patched], .ok (.upsert np patched))
  | s => ([], .err (.unexpectedDeltaStatus s))

inductive DeltasResult
  | ok (edits : List TreeEdit)
  | err (e : PatchApplyError)
  | panicked
deriving DecidableEq, Repr

/-- The delta loop of `apply_commit`: for each delta, validate its paths
(`DeltaDesc::from_git`), then apply it; the first failure aborts, and the
effects of already-processed deltas remain. -/
def apply_deltas (tree : List (String × List String)) :
    List Delta → List Effect × DeltasResult
  | [] => ([], .ok [])
  | d :: ds =>
    match checkDeltaPaths d with
    | some e => ([], .err e)
    | none =>
      match apply_delta tree d with
      | (effs, .ok edit) =>
        match apply_deltas tree ds with
        | (effs2, .ok edits) => (effs ++ effs2, .ok (edit :: edits))
        | (effs2, .err e) => (effs ++ effs2, .err e)
        | (effs2, .panicked) => (effs ++ effs2, .panicked)
      | (effs, .err e) => (effs, .err (.failDelta e))
      | (effs, .panicked) => (effs, .panicked)

/-- Lexicographic order on character lists (the strict key order used to keep
trees canonical). -/
def charListLt : List Char → List Char → Bool
  | [], [] => false
  | [], _ :: _ => true
  | _ :: _, [] => false
  | a :: as, b :: bs => if a < b then true else if b < a then false else charListLt as bs

/-- Strict path order on strings. -/
def keyLt (a b : String) : Bool := charListLt a.toList b.toList

/-- Insert or replace a path in a sorted tree. -/
def sortedInsert (p : String) (v : List String) :
    List (String × List String) → List (String × List String)
  | [] => [(p, v)]
  | (q, b) :: rest =>
    if keyLt p q then (p, v) :: (q, b) :: rest
    else if p = q then (p, v) :: rest
    else (q, b) :: sortedInsert p v rest

/-- Remove a path from a tree. -/
def removeKey (p : String) (t : List (String × List String)) :
    List (String × List String) :=
  t.filter (fun e => e.1 != p)

/-- Apply one pending tree edit. -/
def applyEdit (t : List (String × List String)) : TreeEdit → List (String × List String)
  | .removeEntry p => removeKey p t
  | .upsert p v => sortedInsert p v t

/-- Embeds `TreeUpdateBuilder::create_updated`: fold the collected edits over
the base tree. -/
def applyEdits (t : List (String × List String)) (es : List TreeEdit) :
    List (String × List String) :=
  es.foldl applyEdit t

inductive ApplyOutcome
  | ok (tree : List (String × List String))
  | err (e : PatchApplyError)
  | panicked
deriving DecidableEq, Repr

/-- Embeds `EmailMessage::apply_commit`: read the index tree (the checked-out
base), process every delta into the pending tree update, and only after all
deltas succeed build the updated tree, create the commit and hard-reset HEAD
(the final two effects). -/
def apply_commit (msg : EmailMessage) (tree : List (String × List String)) :
    List Effect × ApplyOutcome :=
  match apply_deltas tree msg.git_diff with
  | (effs, .ok edits) =>
    (effs ++ [Effect.commitCreate, Effect.headReset], .ok (applyEdits tree edits))
  | (effs, .err e) => (effs, .err e)
  | (effs, .panicked) => (effs, .panicked)

theorem apply_delta_effects_blob (tree : List (String × List String)) (d : Delta) :
    ∀ e ∈ (apply_delta tree d).1, ∃ c, e = Effect.blobWrite c := by
  intro e he
  unfold apply_delta at he
  repeat' split at he
  all_goals simp_all

theorem apply_deltas_effects_blob (tree : List (String × List String)) :
    ∀ ds : List Delta, ∀ e ∈ (apply_deltas tree ds).1, ∃ c, e = Effect.blobWrite c := by
  intro ds
  induction ds with
  | nil => intro e he; simp [apply_deltas] at he
  | cons d ds' ih =>
    intro e he
    unfold apply_deltas at he
    split at he
    · simp at he
    · split at he
      · rename_i effs edit heq
        split at he
        all_goals
          rename_i heq2
          simp only [List.mem_append] at he
          rcases he with he | he
          · exact apply_delta_effects_blob tree d e (by rw [heq]; exact he)
          · exact ih e (by rw [heq2]; exact he)
      · rename_i effs e2 heq
        exact apply_delta_effects_blob tree d e (by rw [heq]; exact he)
      · rename_i effs heq
        exact apply_delta_effects_blob tree d e (by rw [heq]; exact he)

/-- Claim C3: apply atomicity — when any delta fails, `apply_commit` returns
an error with no commit created and HEAD not moved; the commit and the hard
reset of HEAD happen only at the very end, after every delta has
succeeded. -/
theorem claim_C3_atomicity (msg : EmailMessage) (tree : List (String × List String)) :
    (∀ (e : PatchApplyError) (effs : List Effect),
        apply_commit msg tree = (effs, .err e) →
          Effect.commitCreate ∉ effs ∧ Effect.headReset ∉ effs) ∧
      (∀ (t' : List (String × List String)) (effs : List Effect),
        apply_commit msg tree = (effs, .ok t') →
          ∃ pre, effs = pre ++ [Effect.commitCreate, Effect.headReset] ∧
            Effect.commitCreate ∉ pre ∧ Effect.headReset ∉ pre) := by
  constructor
  · intro e effs happly
    unfold apply_commit at happly
    split at happly
    · simp at happly
    · rename_i effs2 e2 heq
      injection happly with h1 h2
      subst h1
      constructor
      · intro hmem
        obtain ⟨c, hc⟩ := apply_deltas_effects_blob tree msg.git_diff _ (by rw [heq]; exact hmem)
        simp at hc
      · intro hmem
        obtain ⟨c, hc⟩ := apply_deltas_effects_blob tree msg.git_diff _ (by rw [heq]; exact hmem)
        simp at hc
    · simp at happly
  · intro t' effs happly
    unfold apply_commit at happly
    split at happly
    · rename_i effs2 edits heq
      injection happly with h1 h2
      refine ⟨effs2, h1.symm, ?_, ?_⟩
      · intro hmem
        obtain ⟨c, hc⟩ := apply_deltas_effects_blob tree msg.git_diff _ (by rw [heq]; exact hmem)
        simp at hc
      · intro hmem
        obtain ⟨c, hc⟩ := apply_deltas_effects_blob tree msg.git_diff _ (by rw [heq]; exact hmem)
        simp at hc
    · simp at happly
    · simp at happly

/-- A message whose first delta fails (missing original file) while its
second delta carries an absolute old path. -/
def msgC2 : EmailMessage :=
  { date := "Mon, 3 Jul 2006 17:18:43 +0200",
    message_summary := "Fix", message_tail := "",
    author_name := "Alice Dev", author_email := "alice@example.com",
    git_diff :=
      [{ status := .modified, oldPath := some "m.txt", newPath := some "m.txt",
         oldExists := true, newExists := true, oldLines := ["x"],
         newLines := ["y"], binary := false },
       { status := .modified, oldPath := some "/etc/passwd",
         newPath := some "/etc/passwd", oldExists := true, newExists := true,
         oldLines := ["x"], newLines := ["y"], binary := false }] }

/-- Whether the outcome is the `ForbiddenAbsolutePath` error. -/
def isForbiddenAbs : ApplyOutcome → Bool
  | .err (.forbiddenAbsolutePath _) => true
  | _ => false

/-- Witness for claim C3 at a concrete failing apply: the message `msgC2`
fails on its first delta and leaves no commit or HEAD move in the trace. -/
theorem claim_C3_witness :
    Effect.commitCreate ∉ ([] : List Effect) ∧ Effect.headReset ∉ ([] : List Effect) :=
  (claim_C3_atomicity msgC2 []).1 (.failDelta (.missingOriginalFile "m.txt")) []
    (by decide)

/-- Claim C2, counterexample: the message `msgC2` contains a delta (its
second) with the absolute old path `/etc/passwd`, yet `apply_commit` on an
empty base tree returns `FailDelta (MissingOriginalFile m.txt)` from the
earlier delta, not `ForbiddenAbsolutePath`. -/
theorem claim_C2_counterexample :
    apply_commit msgC2 [] = ([], .err (.failDelta (.missingOriginalFile "m.txt"))) ∧
      (msgC2.git_diff.get? 1).any hasAbsSide = true ∧
      isForbiddenAbs (apply_commit msgC2 []).2 = false := by
  refine ⟨by decide, by decide, by decide⟩

theorem apply_deltas_append_of_ok (tree : List (String × List String))
    (ys : List Delta) :
    ∀ (xs : List Delta) (effs : List Effect) (edits : List TreeEdit),
      apply_deltas tree xs = (effs, .ok edits) →
      apply_deltas tree (xs ++ ys) =
        (match apply_deltas tree ys with
         | (e2, .ok ed2) => (effs ++ e2, .ok (edits ++ ed2))
         | (e2, .err e) => (effs ++ e2, .err e)
         | (e2, .panicked) => (effs ++ e2, .panicked)) := by
  intro xs
  induction xs with
  | nil =>
    intro effs edits h
    simp only [apply_deltas] at h
    injection h with h1 h2
    subst h1
    injection h2 with h3
    subst h3
    simp only [List.nil_append]
    cases happ : apply_deltas tree ys with
    | mk e2 r2 => cases r2 <;> simp
  | cons d xs' ih =>
    intro effs edits h
    have hstep : ∀ zs : List Delta, apply_deltas tree (d :: zs) =
        (match checkDeltaPaths d with
         | some e => ([], .err e)
         | none =>
           match apply_delta tree d with
           | (effs1, .ok edit) =>
             match apply_deltas tree zs with
             | (effs2, .ok edits2) => (effs1 ++ effs2, .ok (edit :: edits2))
             | (effs2, .err e) => (effs1 ++ effs2, .err e)
             | (effs2, .panicked) => (effs1 ++ effs2, .panicked)
           | (effs1, .err e) => (effs1, .err (.failDelta e))
           | (effs1, .panicked) => (effs1, .panicked)) := fun zs => rfl
    rw [hstep xs'] at h
    rw [List.cons_append, hstep (xs' ++ ys)]
    cases hcheck : checkDeltaPaths d with
    | some e =>
      rw [hcheck] at h
      simp at h
    | none =>
      rw [hcheck] at h
      cases hda : apply_delta tree d with
      | mk effs1 r1 =>
        rw [hda] at h
        cases r1 with
        | ok edit =>
          cases hxs : apply_deltas tree xs' with
          | mk effs2 r2 =>
            rw [hxs] at h
            cases r2 with
            | ok edits2 =>
              injection h with h1 h2
              subst h1
              injection h2 with h3
              subst h3
              rw [ih effs2 edits2 hxs]
              cases happ : apply_deltas tree ys with
              | mk e3 r3 => cases r3 <;> simp
            | err e => simp at h
            | panicked => simp at h
        | err e => simp at h
        | panicked => simp at h

/-- Claim C2, amended: if every delta before position `i` applies
successfully and the delta at position `i` carries an absolute old or new
path, then `apply_commit` returns the `ForbiddenAbsolutePath` error for the
first absolute path of that delta (old side checked first, regardless of the
delta's status), the effect trace is exactly that of the earlier deltas — so
no blob is written and no tree edit is recorded for that delta — and no
commit is created and HEAD is not moved. -/
theorem claim_C2_amended (msg : EmailMessage) (tree : List (String × List String))
    (i : Nat) (d : Delta) (effs : List Effect) (edits : List TreeEdit)
    (hget : msg.git_diff.get? i = some d)
    (habs : hasAbsSide d = true)
    (hpre : apply_deltas tree (msg.git_diff.take i) = (effs, .ok edits)) :
    apply_commit msg tree =
        (effs, .err (.forbiddenAbsolutePath ((firstAbsPath d).getD ""))) ∧
      Effect.commitCreate ∉ effs ∧ Effect.headReset ∉ effs := by
  have hcheck : ∃ p, firstAbsPath d = some p := by
    unfold hasAbsSide at habs
    unfold firstAbsPath
    rcases hop : d.oldPath with _ | p
    · rcases hnp : d.newPath with _ | q
      · rw [hop, hnp] at habs
        simp at habs
      · rw [hop, hnp] at habs
        simp only [Bool.false_or] at habs
        exact ⟨q, by simp [habs]⟩
    · by_cases hp : isAbsolutePath p
      · exact ⟨p, by simp [hp]⟩
      · rcases hnp : d.newPath with _ | q
        · rw [hop, hnp] at habs
          simp [hp] at habs
        · rw [hop, hnp] at habs
          simp only [hp, Bool.false_or] at habs
          exact ⟨q, by simp [hp, habs]⟩
  obtain ⟨p, hp⟩ := hcheck
  have hilt : i < msg.git_diff.length := by
    by_contra hcontr
    rw [List.get?_eq_none.mpr (by omega)] at hget
    exact absurd hget (by simp)
  have hsplit : msg.git_diff = msg.git_diff.take i ++ d :: msg.git_diff.drop (i + 1) := by
    conv_lhs => rw [← List.take_append_drop i msg.git_diff]
    congr 1
    rw [List.drop_eq_getElem_cons hilt]
    congr 1
    have := List.get?_eq_getElem? msg.git_diff i
    rw [hget] at this
    have h2 := (List.getElem?_eq_some.mp this.symm)
    obtain ⟨hh, hv⟩ := h2
    exact hv
  have happly : apply_deltas tree msg.git_diff = (effs, .err (.forbiddenAbsolutePath p)) := by
    conv_lhs => rw [hsplit]
    rw [apply_deltas_append_of_ok tree _ _ _ _ hpre]
    have hstep : apply_deltas tree (d :: msg.git_diff.drop (i + 1)) =
        ([], .err (.forbiddenAbsolutePath p)) := by
      unfold apply_deltas
      rw [show checkDeltaPaths d = some (.forbiddenAbsolutePath p) from by
        unfold checkDeltaPaths
        rw [hp]
        rfl]
    rw [hstep]
    simp
  constructor
  · unfold apply_commit
    rw [happly, hp]
    rfl
  · constructor
    · intro hmem
      obtain ⟨c, hc⟩ := apply_deltas_effects_blob tree (msg.git_diff.take i) _
        (by rw [hpre]; exact hmem)
      simp at hc
    · intro hmem
      obtain ⟨c, hc⟩ := apply_deltas_effects_blob tree (msg.git_diff.take i) _
        (by rw [hpre]; exact hmem)
      simp at hc

/-- Witness for the amended claim C2: a good first delta applies (one blob
write), then the absolute-path delta is rejected. -/
theorem claim_C2_witness :
    apply_commit
        { msgC2 with git_diff :=
            [{ status := .modified, oldPath := some "a.txt", newPath := some "a.txt",
               oldExists := true, newExists := true, oldLines := ["x"],
               newLines := ["y"], binary := false },
             { status := .modified, oldPath := some "/etc/passwd",
               newPath := some "/etc/passwd", oldExists := true, newExists := true,
               oldLines := ["x"], newLines := ["y"], binary := false }] }
        [("a.txt", ["x"])] =
        ([Effect.blobWrite ["y"]],
          .err (.forbiddenAbsolutePath
            ((firstAbsPath
              { status := .modified, oldPath := some "/etc/passwd",
                newPath := some "/etc/passwd", oldExists := true, newExists := true,
                oldLines := ["x"], newLines := ["y"], binary := false }).getD ""))) ∧
      Effect.commitCreate ∉ [Effect.blobWrite ["y"]] ∧
      Effect.headReset ∉ [Effect.blobWrite ["y"]] :=
  claim_C2_amended
    { msgC2 with git_diff :=
        [{ status := .modified, oldPath := some "a.txt", newPath := some "a.txt",
           oldExists := true, newExists := true, oldLines := ["x"],
           newLines := ["y"], binary := false },
         { status := .modified, oldPath := some "/etc/passwd",
           newPath := some "/etc/passwd", oldExists := true, newExists := true,
           oldLines := ["x"], newLines := ["y"], binary := false }] }
    [("a.txt", ["x"])] 1
    { status := .modified, oldPath := some "/etc/passwd",
      newPath := some "/etc/passwd", oldExists := true, newExists := true,
      oldLines := ["x"], newLines := ["y"], binary := false }
    [Effect.blobWrite ["y"]]
    [TreeEdit.upsert "a.txt" ["y"]]
    (by decide) (by decide) (by decide)



/-! ## Round trip: format, clean up, parse, apply (claim C1)

The formatter side (`PatchFormatter::generate` in src/format_patches/mod.rs)
renders one commit as an email via the external `git2::Email::from_diff`
(modelled from the spec) and then rewrites it with `cleanup_patch` (embedded
from the source).  The resulting text is parsed by `EmailMessage::parse` and
applied by `apply_commit` against the parent tree.
-/

/-- Characters admitted by the path well-formedness condition of the
round-trip statement: ASCII alphanumerics plus `.`, `_`, `/` and `-`. -/
def charOkP (c : Char) : Bool :=
  (48 ≤ c.toNat && c.toNat ≤ 57) || (65 ≤ c.toNat && c.toNat ≤ 90) ||
    (97 ≤ c.toNat && c.toNat ≤ 122) ||
    c == '.' || c == '_' || c == '/' || c == '-'

/-- A well-formed relative path: non-empty, safe characters only, and not
absolute. -/
def pathOk (p : String) : Bool :=
  !(p == "") && p.toList.all charOkP && !(isAbsolutePath p)

/-- Strict ascending key order of a tree, stated pairwise. -/
def treeSortedB : List (String × List String) → Bool
  | [] => true
  | (p, _) :: rest => rest.all (fun e => keyLt p e.1) && treeSortedB rest

/-- The delta emitted for a file present only in the old tree. -/
def mkDeleted (p : String) (a : List String) : Delta :=
  { status := .deleted, oldPath := some p, newPath := none, oldExists := true,
    newExists := false, oldLines := a, newLines := [], binary := false }

/-- The delta emitted for a file present only in the new tree. -/
def mkAdded (q : String) (b : List String) : Delta :=
  { status := .added, oldPath := none, newPath := some q, oldExists := false,
    newExists := true, oldLines := [], newLines := b, binary := false }

/-- The delta emitted for a file whose content changed. -/
def mkModified (p : String) (a b : List String) : Delta :=
  { status := .modified, oldPath := some p, newPath := some p, oldExists := true,
    newExists := true, oldLines := a, newLines := b, binary := false }

/-- Modelled from the spec: the tree-to-tree diff of the version-control
backend (spec §6, tree-to-tree diff), as a fuelled merge walk over two sorted
trees, emitting one delta per differing path in ascending path order. -/
def modelDiffF : Nat → List (String × List String) → List (String × List String) → List Delta
  | 0, _, _ => []
  | _ + 1, [], [] => []
  | fuel + 1, (p, a) :: ps, [] => mkDeleted p a :: modelDiffF fuel ps []
  | fuel + 1, [], (q, b) :: qs => mkAdded q b :: modelDiffF fuel [] qs
  | fuel + 1, (p, a) :: ps, (q, b) :: qs =>
    if keyLt p q then mkDeleted p a :: modelDiffF fuel ps ((q, b) :: qs)
    else if keyLt q p then mkAdded q b :: modelDiffF fuel ((p, a) :: ps) qs
    else if a = b then modelDiffF fuel ps qs
    else mkModified p a b :: modelDiffF fuel ps qs

/-- The diff of two trees (enough fuel for the full merge walk). -/
def modelDiff (P C : List (String × List String)) : List Delta :=
  modelDiffF (P.length + C.length) P C

/-- Decimal digit rendering, fuelled so it reduces in the kernel. -/
def natDigitsF : Nat → Nat → List Char
  | 0, _ => []
  | fuel + 1, n =>
    if n < 10 then [Char.ofNat (48 + n)]
    else natDigitsF fuel (n / 10) ++ [Char.ofNat (48 + n % 10)]

/-- Decimal rendering of a natural number. -/
def natRepr (n : Nat) : String := (natDigitsF (n + 1) n).asString

/-- Modelled from the spec: the mbox header line the email renderer emits. -/
def headerLine (hash : String) : String :=
  "From " ++ hash ++ " Mon Sep 17 00:00:00 2001"

/-- Modelled from the spec: the author line the email renderer emits. -/
def authorLine (name email : String) : String :=
  "From: " ++ name ++ " <" ++ email ++ ">"

/-- Modelled from the spec: the date line the email renderer emits. -/
def dateLine (date : String) : String := "Date: " ++ date

/-- Modelled from the spec: the subject line the email renderer emits. -/
def subjectLine (summary : String) : String := "Subject: [PATCH] " ++ summary

/-- The `diff --git a/X b/Y` line opening a delta block. -/
def beginDiffLine (d : Delta) : String :=
  "diff --git a/" ++ (d.oldPath.getD (d.newPath.getD "")) ++ " b/" ++
    (d.newPath.getD (d.oldPath.getD ""))

/-- Modelled from the spec: the remaining lines of one rendered delta block —
optional file-mode line, index line, the two file lines, the single hunk
header, and the marked old and new content lines. -/
def renderDeltaRest (d : Delta) : List String :=
  (match d.status with
   | .added => ["new file mode 100644"]
   | .deleted => ["deleted file mode 100644"]
   | _ => []) ++
  ["index 1111111..2222222 100644",
   (match d.oldPath with | some p => "--- a/" ++ p | none => "--- /dev/null"),
   (match d.newPath with | some q => "+++ b/" ++ q | none => "+++ /dev/null"),
   "@@ -1," ++ natRepr d.oldLines.length ++ " +1," ++
     natRepr d.newLines.length ++ " @@"] ++
  d.oldLines.map (fun l => "-" ++ l) ++ d.newLines.map (fun l => "+" ++ l)

/-- One rendered delta block. -/
def renderDelta (d : Delta) : List String := beginDiffLine d :: renderDeltaRest d

/-- All rendered delta blocks, in delta order. -/
def renderDeltas : List Delta → List String
  | [] => []
  | d :: ds => renderDelta d ++ renderDeltas ds

/-- Modelled from the spec: one diff-stat line of the renderer (removed again
by the cleanup step). -/
def statLine (d : Delta) : String :=
  " " ++ (d.newPath.getD (d.oldPath.getD "")) ++ " | changed"

/-- Modelled from the spec: the tool-version footer the renderer appends. -/
def footerLines : List String := ["-- ", "libgit2 1.9.0"]

/-- Modelled from the spec: `git2::Email::from_diff` — the single-patch email
text for a commit (spec §6): mbox header, author, date, subject, blank line,
body, a diff-stat block opened by `---`, a blank line, the rendered delta
blocks, and the version footer. -/
def renderEmail (hash name email date summary : String) (body : List String)
    (ds : List Delta) : String :=
  joinLF ([headerLine hash, authorLine name email, dateLine date,
           subjectLine summary, ""] ++ body ++
          ["---"] ++ ds.map statLine ++ [""] ++ renderDeltas ds ++ footerLines)

/-- Embeds `SimpleParser::take_until`: the lines popped before the first line
matching `pred` (seen by the handler), the matching line, and the remainder;
`none` is the `UnexpectedEof` of the source. -/
def takeUntil (pred : String → Bool) :
    List String → Option (List String × String × List String)
  | [] => none
  | l :: rest =>
    if pred l then some ([], l, rest)
    else
      match takeUntil pred rest with
      | some (pre, m, post) => some (l :: pre, m, post)
      | none => none

/-- A line consisting solely of whitespace (`SimpleParser::skip_whitespace`
skips exactly these). -/
def lineAllWs (l : String) : Bool := l.toList.all isWs

/-- Embeds `cleanup_patch` (src/format_patches/mod.rs): echo every line up to
and including the `Subject: [PATCH]` line, skip whitespace lines, collect the
trailing commit message up to the renderer's `---` diff-stat opener and trim
it, emit it between exactly one blank line on each side, drop the stat block
up to the `diff` line, then dump the rest. -/
def cleanup_patch (s : String) : Option String :=
  match takeUntil (fun l => strStartsWith l "Subject: [PATCH]") (rustLines s) with
  | none => none
  | some (pre, subj, rest1) =>
    match takeUntil (fun l => strStartsWith l "---") (rest1.dropWhile lineAllWs) with
    | none => none
    | some (bodyls, _, rest3) =>
      let tcm := strTrim (joinLF bodyls)
      match takeUntil (fun l => strStartsWith l "diff") rest3 with
      | none => none
      | some (_, diffLine, rest4) =>
        some (joinLF (pre ++ [subj, ""]) ++
              (if tcm == "" then "" else tcm ++ "\n") ++
              joinLF ("" :: diffLine :: rest4))

/-- Shape invariant of the deltas the model diff emits, sufficient for a
rendered block to parse back to the same delta. -/
def wfDelta (d : Delta) : Bool :=
  (match d.status, d.oldPath, d.newPath with
   | .deleted, some p, none =>
     pathOk p && d.oldExists && !d.newExists && d.newLines.isEmpty
   | .added, none, some q =>
     pathOk q && !d.oldExists && d.newExists && d.oldLines.isEmpty
   | .modified, some p, some q =>
     pathOk p && p == q && d.oldExists && d.newExists
   | _, _, _ => false) &&
  !d.binary && d.oldLines.all cleanLine && d.newLines.all cleanLine

/-- The pending tree edit one successful delta contributes. -/
def deltaEdit (d : Delta) : TreeEdit :=
  match d.status with
  | .deleted => .removeEntry (d.oldPath.getD "")
  | _ => .upsert (d.newPath.getD "") d.newLines

/-- The blob-write effects one successful delta contributes. -/
def deltaEff (d : Delta) : List Effect :=
  match d.status with
  | .deleted => []
  | _ => [Effect.blobWrite d.newLines]

/-- The full effect trace of a successful delta sequence. -/
def deltaEffs : List Delta → List Effect
  | [] => []
  | d :: ds => deltaEff d ++ deltaEffs ds

/-- The path a pending edit touches. -/
def editKey : TreeEdit → String
  | .removeEntry p => p
  | .upsert p _ => p

/-- The first character of a line exists and is not whitespace. -/
def firstCharNonWs (s : String) : Bool :=
  match s.toList.head? with
  | some c => !isWs c
  | none => false

/-- The last character of a line exists and is not whitespace. -/
def lastCharNonWs (s : String) : Bool :=
  match s.toList.getLast? with
  | some c => !isWs c
  | none => false

/-- Trim normalisation of a body line list: empty, or first line starting and
last line ending in non-whitespace (what `cleanup_patch`'s trim preserves). -/
def bodyNormalized : List String → Bool
  | [] => true
  | l :: ls => firstCharNonWs l && lastCharNonWs (List.getLastD ls l)

/-! ### Basic lemmas: prefixes, joins and the key order -/

theorem listPrefixOf_self_append : ∀ (x r : List Char), listPrefixOf x (x ++ r) = true := by
  intro x r
  induction x with
  | nil => rfl
  | cons c cs ih => simp [listPrefixOf, ih]

theorem drop_append_len : ∀ (x y : List Char) (n : Nat), x.length = n → (x ++ y).drop n = y := by
  intro x
  induction x with
  | nil =>
    intro y n h
    simp at h
    subst h
    rfl
  | cons c cs ih =>
    intro y n h
    cases n with
    | zero => simp at h
    | succ m =>
      simp only [List.length_cons] at h
      rw [List.cons_append, List.drop_succ_cons]
      exact ih y m (by omega)

theorem strStartsWith_append_self (p r : String) : strStartsWith (p ++ r) p = true := by
  unfold strStartsWith
  rw [toList_append]
  exact listPrefixOf_self_append _ _

theorem joinLF_append (A B : List String) : joinLF (A ++ B) = joinLF A ++ joinLF B := by
  induction A with
  | nil =>
    show joinLF B = "" ++ "" ++ joinLF B
    rw [String.append_empty, String.empty_append]
  | cons l A ih =>
    show l ++ "\n" ++ joinLF (A ++ B) = l ++ "\n" ++ joinLF A ++ joinLF B
    rw [ih]
    rw [String.append_assoc (l ++ "\n") (joinLF A) (joinLF B)]

theorem joinLF_eq_collectLF (L : List String) : joinLF L = collectLF L := by
  induction L with
  | nil => rfl
  | cons l L ih =>
    show l ++ "\n" ++ joinLF L = collectLF (l :: L)
    by_cases hl : l = ""
    · subst hl
      rw [collectLF_cons_blank, ih, String.empty_append]
    · rw [collectLF_cons_nonblank l L hl, ih]

theorem charListLt_irrefl : ∀ l : List Char, charListLt l l = false := by
  intro l
  induction l with
  | nil => rfl
  | cons c cs ih =>
    unfold charListLt
    rw [if_neg (lt_irrefl c), if_neg (lt_irrefl c)]
    exact ih

theorem charListLt_trans :
    ∀ a b c : List Char, charListLt a b = true → charListLt b c = true →
      charListLt a c = true := by
  intro a
  induction a with
  | nil =>
    intro b c hab hbc
    cases b with
    | nil => exact absurd hab (by simp [charListLt])
    | cons x xs =>
      cases c with
      | nil => exact absurd hbc (by simp [charListLt])
      | cons y ys => rfl
  | cons p ps ih =>
    intro b c hab hbc
    cases b with
    | nil => exact absurd hab (by simp [charListLt])
    | cons x xs =>
      cases c with
      | nil => exact absurd hbc (by simp [charListLt])
      | cons y ys =>
        unfold charListLt at hab hbc ⊢
        by_cases hpx : p < x
        · by_cases hxy : x < y
          · rw [if_pos (lt_trans hpx hxy)]
          · rw [if_neg hxy] at hbc
            by_cases hyx : y < x
            · rw [if_pos hyx] at hbc
              exact absurd hbc (by simp)
            · have hxey : x = y := le_antisymm (le_of_not_lt hyx) (le_of_not_lt hxy)
              subst hxey
              rw [if_pos hpx]
        · rw [if_neg hpx] at hab
          by_cases hxp : x < p
          · rw [if_pos hxp] at hab
            exact absurd hab (by simp)
          · have hpex : p = x := le_antisymm (le_of_not_lt hxp) (le_of_not_lt hpx)
            subst hpex
            rw [if_neg (lt_irrefl p)] at hab
            by_cases hxy : p < y
            · rw [if_pos hxy]
            · rw [if_neg hxy] at hbc ⊢
              by_cases hyx : y < p
              · rw [if_pos hyx] at hbc
                exact absurd hbc (by simp)
              · rw [if_neg hyx] at hbc ⊢
                exact ih xs ys hab hbc

theorem charListLt_asymm {a b : List Char} (h : charListLt a b = true) :
    charListLt b a = false := by
  by_contra hcontr
  rw [Bool.not_eq_false] at hcontr
  have := charListLt_trans a b a h hcontr
  rw [charListLt_irrefl] at this
  exact absurd this (by simp)

theorem charListLt_conn :
    ∀ a b : List Char, charListLt a b = false → charListLt b a = false → a = b := by
  intro a
  induction a with
  | nil =>
    intro b hab _
    cases b with
    | nil => rfl
    | cons x xs => exact absurd hab (by simp [charListLt])
  | cons p ps ih =>
    intro b hab hba
    cases b with
    | nil => exact absurd hba (by simp [charListLt])
    | cons x xs =>
      unfold charListLt at hab hba
      by_cases hpx : p < x
      · rw [if_pos hpx] at hab
        exact absurd hab (by simp)
      · by_cases hxp : x < p
        · rw [if_pos hxp] at hba
          exact absurd hba (by simp)
        · have hpex : p = x := le_antisymm (le_of_not_lt hxp) (le_of_not_lt hpx)
          subst hpex
          rw [if_neg (lt_irrefl p), if_neg (lt_irrefl p)] at hab hba
          rw [ih xs hab hba]

theorem toList_inj {a b : String} (h : a.toList = b.toList) : a = b := by
  have := congrArg List.asString h
  rw [asString_toList, asString_toList] at this
  exact this

theorem keyLt_irrefl (p : String) : keyLt p p = false := charListLt_irrefl _

theorem keyLt_trans {a b c : String} (h1 : keyLt a b = true) (h2 : keyLt b c = true) :
    keyLt a c = true := charListLt_trans _ _ _ h1 h2

theorem keyLt_asymm {a b : String} (h : keyLt a b = true) : keyLt b a = false :=
  charListLt_asymm h

theorem keyLt_conn {a b : String} (h1 : keyLt a b = false) (h2 : keyLt b a = false) :
    a = b := toList_inj (charListLt_conn _ _ h1 h2)

theorem keyLt_ne {a b : String} (h : keyLt a b = true) : a ≠ b := by
  intro hcontr
  subst hcontr
  rw [keyLt_irrefl] at h
  exact absurd h (by simp)

/-! ### Character, digit and line helpers -/

theorem toList_asString (l : List Char) : l.asString.toList = l := rfl

theorem charOkP_ne_lf {c : Char} (h : charOkP c = true) : c ≠ '\n' := by
  intro heq
  subst heq
  exact absurd h (by decide)

theorem charOkP_ne_cr {c : Char} (h : charOkP c = true) : c ≠ '\r' := by
  intro heq
  subst heq
  exact absurd h (by decide)

theorem charOkP_ne_space {c : Char} (h : charOkP c = true) : c ≠ ' ' := by
  intro heq
  subst heq
  exact absurd h (by decide)

theorem cleanLine_chars (s : String) (h1 : ∀ c ∈ s.toList, c ≠ '\n')
    (h2 : ∀ c, s.toList.getLast? = some c → c ≠ '\r') : cleanLine s = true := by
  unfold cleanLine
  have ha : s.toList.all (fun c => c != '\n') = true := by
    rw [List.all_eq_true]
    intro c hc
    simpa using h1 c hc
  rw [ha]
  cases hl : s.toList.getLast? with
  | none => rfl
  | some c =>
    have := h2 c hl
    simp [this]

theorem getLast?_append_right {α : Type} (xs ys : List α) (h : ys ≠ []) :
    (xs ++ ys).getLast? = ys.getLast? := by
  induction xs with
  | nil => rfl
  | cons c cs ih =>
    rw [List.cons_append]
    cases hcs : cs ++ ys with
    | nil =>
      rcases List.append_eq_nil.mp hcs with ⟨_, h2⟩
      exact absurd h2 h
    | cons a t =>
      rw [List.getLast?_cons_cons, ← hcs, ih]

theorem digitsToNat_append_digit (xs : List Char) (c : Char) :
    digitsToNat (xs ++ [c]) = digitsToNat xs * 10 + (c.toNat - 48) := by
  unfold digitsToNat
  rw [List.foldl_append]
  rfl

theorem digit_char_facts : ∀ d : Nat, d < 10 →
    (Char.ofNat (48 + d)).isDigit = true ∧ (Char.ofNat (48 + d)).toNat = 48 + d ∧
      Char.ofNat (48 + d) ≠ '\n' := by
  intro d hd
  interval_cases d <;> exact ⟨by decide, by decide, by decide⟩

theorem natDigitsF_facts : ∀ fuel n, n < 10 ^ (fuel + 1) →
    digitsToNat (natDigitsF (fuel + 1) n) = n ∧ natDigitsF (fuel + 1) n ≠ [] ∧
      ∀ c ∈ natDigitsF (fuel + 1) n, c.isDigit = true ∧ c ≠ '\n' := by
  intro fuel
  induction fuel with
  | zero =>
    intro n h
    have hn : n < 10 := by simpa using h
    rw [show natDigitsF 1 n = if n < 10 then [Char.ofNat (48 + n)]
        else natDigitsF 0 (n / 10) ++ [Char.ofNat (48 + n % 10)] from rfl, if_pos hn]
    obtain ⟨hd1, hd2, hd3⟩ := digit_char_facts n hn
    refine ⟨?_, by simp, ?_⟩
    · show digitsToNat ([] ++ [Char.ofNat (48 + n)]) = n
      rw [digitsToNat_append_digit]
      rw [hd2]
      show 0 * 10 + (48 + n - 48) = n
      omega
    · intro c hc
      simp at hc
      subst hc
      exact ⟨hd1, hd3⟩
  | succ f ih =>
    intro n h
    by_cases hn : n < 10
    · rw [show natDigitsF (f + 1 + 1) n = if n < 10 then [Char.ofNat (48 + n)]
          else natDigitsF (f + 1) (n / 10) ++ [Char.ofNat (48 + n % 10)] from rfl,
        if_pos hn]
      obtain ⟨hd1, hd2, hd3⟩ := digit_char_facts n hn
      refine ⟨?_, by simp, ?_⟩
      · show digitsToNat ([] ++ [Char.ofNat (48 + n)]) = n
        rw [digitsToNat_append_digit, hd2]
        show 0 * 10 + (48 + n - 48) = n
        omega
      · intro c hc
        simp at hc
        subst hc
        exact ⟨hd1, hd3⟩
    · rw [show natDigitsF (f + 1 + 1) n = if n < 10 then [Char.ofNat (48 + n)]
          else natDigitsF (f + 1) (n / 10) ++ [Char.ofNat (48 + n % 10)] from rfl,
        if_neg hn]
      have hdiv : n / 10 < 10 ^ (f + 1) := by
        rw [Nat.div_lt_iff_lt_mul (by norm_num)]
        calc n < 10 ^ (f + 1 + 1) := h
        _ = 10 ^ (f + 1) * 10 := by rw [pow_succ]
      obtain ⟨ih1, ih2, ih3⟩ := ih (n / 10) hdiv
      obtain ⟨hd1, hd2, hd3⟩ := digit_char_facts (n % 10) (Nat.mod_lt n (by norm_num))
      refine ⟨?_, by simp, ?_⟩
      · rw [digitsToNat_append_digit, ih1, hd2]
        have := Nat.div_add_mod n 10
        omega
      · intro c hc
        rw [List.mem_append] at hc
        rcases hc with hc | hc
        · exact ih3 c hc
        · simp at hc
          subst hc
          exact ⟨hd1, hd3⟩

theorem natRepr_facts (n : Nat) :
    digitsToNat (natRepr n).toList = n ∧ (natRepr n).toList ≠ [] ∧
      ∀ c ∈ (natRepr n).toList, c.isDigit = true ∧ c ≠ '\n' := by
  unfold natRepr
  rw [toList_asString]
  have hlt : n < 10 ^ (n + 1) := by
    calc n < 10 ^ n := Nat.lt_pow_self (by norm_num) n
    _ ≤ 10 ^ (n + 1) := Nat.pow_le_pow_right (by norm_num) (by omega)
  exact natDigitsF_facts n n hlt

theorem takeWhile_append_all {p : Char → Bool} :
    ∀ (xs : List Char) (y : Char) (ys : List Char),
      (∀ c ∈ xs, p c = true) → p y = false →
      (xs ++ y :: ys).takeWhile p = xs := by
  intro xs
  induction xs with
  | nil =>
    intro y ys _ hy
    simp [List.takeWhile_cons, hy]
  | cons c cs ih =>
    intro y ys hall hy
    rw [List.cons_append, List.takeWhile_cons]
    rw [hall c (by simp)]
    rw [ih y ys (fun x hx => hall x (by simp [hx])) hy]
    simp

theorem takeUntil_split (pred : String → Bool) :
    ∀ (A : List String) (m : String) (B : List String),
      (∀ l ∈ A, pred l = false) → pred m = true →
      takeUntil pred (A ++ m :: B) = some (A, m, B) := by
  intro A
  induction A with
  | nil =>
    intro m B _ hm
    rw [List.nil_append]
    unfold takeUntil
    rw [hm]
    rfl
  | cons l A ih =>
    intro m B hA hm
    rw [List.cons_append]
    unfold takeUntil
    rw [hA l (by simp), ih m B (fun x hx => hA x (by simp [hx])) hm]
    simp

theorem lineAllWs_false_of_first (l : String) (h : firstCharNonWs l = true) :
    lineAllWs l = false := by
  unfold firstCharNonWs at h
  unfold lineAllWs
  cases hl : l.toList with
  | nil =>
    rw [hl] at h
    simp at h
  | cons c cs =>
    rw [hl] at h
    simp only [List.head?_cons] at h
    rw [List.all_cons]
    rw [show isWs c = false from by
      cases hw : isWs c
      · rfl
      · rw [hw] at h
        simp at h]
    rfl

/-! ### Line codec round-trip lemmas -/

theorem splitFirst_boundary (s0 : Char) (srest : List Char) :
    ∀ (xs rest : List Char), (∀ c ∈ xs, (s0 == c) = false) →
      splitFirst (xs ++ ((s0 :: srest) ++ rest)) (s0 :: srest) = some (xs, rest) := by
  intro xs
  induction xs with
  | nil =>
    intro rest h
    rw [List.nil_append]
    rw [show splitFirst ((s0 :: srest) ++ rest) (s0 :: srest) =
        if listPrefixOf (s0 :: srest) ((s0 :: srest) ++ rest) then
          some ([], ((s0 :: srest) ++ rest).drop (s0 :: srest).length)
        else
          match splitFirst (srest ++ rest) (s0 :: srest) with
          | some (a, b) => some (s0 :: a, b)
          | none => none from rfl]
    rw [listPrefixOf_self_append (s0 :: srest) rest]
    rw [if_pos rfl]
    rw [drop_append_len (s0 :: srest) rest _ rfl]
  | cons c cs ih =>
    intro rest h
    have hc : (s0 == c) = false := h c (by simp)
    rw [List.cons_append]
    rw [show splitFirst (c :: (cs ++ ((s0 :: srest) ++ rest))) (s0 :: srest) =
        if listPrefixOf (s0 :: srest) (c :: (cs ++ ((s0 :: srest) ++ rest))) then
          some ([], (c :: (cs ++ ((s0 :: srest) ++ rest))).drop (s0 :: srest).length)
        else
          match splitFirst (cs ++ ((s0 :: srest) ++ rest)) (s0 :: srest) with
          | some (a, b) => some (c :: a, b)
          | none => none from rfl]
    rw [show listPrefixOf (s0 :: srest) (c :: (cs ++ ((s0 :: srest) ++ rest))) =
        (s0 == c && listPrefixOf srest (cs ++ ((s0 :: srest) ++ rest))) from rfl]
    rw [hc]
    rw [show (false && listPrefixOf srest (cs ++ ((s0 :: srest) ++ rest))) = false from rfl]
    rw [if_neg (by simp)]
    rw [ih rest (fun x hx => h x (by simp [hx]))]

theorem parse_begin_diff_line_mk (pa pb : String)
    (h : ∀ c ∈ pa.toList, (' ' == c) = false) :
    parse_begin_diff_line ("diff --git a/" ++ pa ++ " b/" ++ pb) = some (pa, pb) := by
  have hassoc : "diff --git a/" ++ pa ++ " b/" ++ pb =
      "diff --git a/" ++ (pa ++ (" b/" ++ pb)) := by
    rw [String.append_assoc, String.append_assoc]
  rw [hassoc]
  unfold parse_begin_diff_line
  rw [strStartsWith_append_self]
  rw [if_pos rfl]
  rw [toList_append]
  rw [drop_append_len "diff --git a/".toList _ 13 (by rfl)]
  rw [toList_append]
  rw [show (" b/" ++ pb).toList = (' ' :: "b/".toList) ++ pb.toList from rfl]
  rw [show (" b/").toList = ' ' :: "b/".toList from rfl]
  rw [splitFirst_boundary ' ' "b/".toList pa.toList pb.toList h]
  show some (pa.toList.asString, pb.toList.asString) = some (pa, pb)
  rw [asString_toList, asString_toList]

theorem parseFileLine_old_some (p : String) :
    parseFileLine "--- " "a/" ("--- a/" ++ p) = some (some p) := by
  have hassoc : "--- a/" ++ p = "--- " ++ ("a/" ++ p) := by
    rw [show ("--- a/" : String) = "--- " ++ "a/" from rfl, String.append_assoc]
  rw [hassoc]
  unfold parseFileLine
  rw [strStartsWith_append_self]
  rw [if_pos rfl]
  rw [toList_append]
  rw [drop_append_len "--- ".toList _ 4 (by rfl)]
  rw [asString_toList]
  rw [if_neg (by
    intro heq
    have := congrArg String.toList heq
    rw [toList_append] at this
    simp at this)]
  rw [strStartsWith_append_self]
  rw [if_pos rfl]
  unfold strDrop
  rw [toList_append]
  rw [drop_append_len "a/".toList _ 2 (by rfl)]
  rw [asString_toList]

theorem parseFileLine_new_some (q : String) :
    parseFileLine "+++ " "b/" ("+++ b/" ++ q) = some (some q) := by
  have hassoc : "+++ b/" ++ q = "+++ " ++ ("b/" ++ q) := by
    rw [show ("+++ b/" : String) = "+++ " ++ "b/" from rfl, String.append_assoc]
  rw [hassoc]
  unfold parseFileLine
  rw [strStartsWith_append_self]
  rw [if_pos rfl]
  rw [toList_append]
  rw [drop_append_len "+++ ".toList _ 4 (by rfl)]
  rw [asString_toList]
  rw [if_neg (by
    intro heq
    have := congrArg String.toList heq
    rw [toList_append] at this
    simp at this)]
  rw [strStartsWith_append_self]
  rw [if_pos rfl]
  unfold strDrop
  rw [toList_append]
  rw [drop_append_len "b/".toList _ 2 (by rfl)]
  rw [asString_toList]

theorem parseFileLine_old_none : parseFileLine "--- " "a/" "--- /dev/null" = some none := by
  decide

theorem parseFileLine_new_none : parseFileLine "+++ " "b/" "+++ /dev/null" = some none := by
  decide

theorem parseHunkHeader_mk (m n : Nat) :
    parseHunkHeader ("@@ -1," ++ natRepr m ++ " +1," ++ natRepr n ++ " @@") = some (m, n) := by
  obtain ⟨hm1, hm2, hm3⟩ := natRepr_facts m
  obtain ⟨hn1, hn2, hn3⟩ := natRepr_facts n
  have hassoc : "@@ -1," ++ natRepr m ++ " +1," ++ natRepr n ++ " @@" =
      "@@ -1," ++ (natRepr m ++ (" +1," ++ (natRepr n ++ " @@"))) := by
    rw [String.append_assoc, String.append_assoc, String.append_assoc]
  rw [hassoc]
  unfold parseHunkHeader
  rw [strStartsWith_append_self]
  rw [if_pos rfl]
  simp only []
  rw [toList_append]
  rw [drop_append_len "@@ -1,".toList _ 6 (by rfl)]
  rw [toList_append]
  rw [show (" +1," ++ (natRepr n ++ " @@")).toList =
      ' ' :: ("+1,".toList ++ (natRepr n ++ " @@").toList) from by
    rw [toList_append]
    rfl]
  rw [takeWhile_append_all (natRepr m).toList ' ' _ (fun c hc => (hm3 c hc).1) (by decide)]
  rw [drop_append_len (natRepr m).toList _ (natRepr m).toList.length rfl]
  rw [if_neg hm2]
  rw [show (' ' :: ("+1,".toList ++ (natRepr n ++ " @@").toList)) =
      " +1,".toList ++ (natRepr n ++ " @@").toList from rfl]
  rw [listPrefixOf_self_append]
  rw [if_pos rfl]
  rw [drop_append_len " +1,".toList _ 4 (by rfl)]
  rw [toList_append]
  rw [show (" @@").toList = ' ' :: "@@".toList from rfl]
  rw [takeWhile_append_all (natRepr n).toList ' ' _ (fun c hc => (hn3 c hc).1) (by decide)]
  rw [drop_append_len (natRepr n).toList _ (natRepr n).toList.length rfl]
  rw [if_neg hn2]
  rw [if_pos (by rfl)]
  rw [hm1, hn1]

theorem takeMarked_render (c : Char) (cs : String) (hcs : cs.toList = [c]) :
    ∀ (xs r : List String),
      takeMarked c xs.length (xs.map (fun l => cs ++ l) ++ r) = some (xs, r) := by
  intro xs
  induction xs with
  | nil => intro r; rfl
  | cons l xs ih =>
    intro r
    show takeMarked c (xs.length + 1) ((cs ++ l) :: (xs.map (fun l => cs ++ l) ++ r)) =
      some (l :: xs, r)
    unfold takeMarked
    have hhead : (cs ++ l).toList.head? = some c := by
      rw [toList_append, hcs]
      rfl
    rw [if_pos hhead]
    rw [ih r]
    rw [show ((cs ++ l).toList.drop 1).asString = l from by
      rw [toList_append, hcs]
      rw [show ([c] ++ l.toList).drop 1 = l.toList from rfl]
      rw [asString_toList]]

theorem strStartsWith_prepend_ne (pre x pat : String) (c1 c2 : Char)
    (cs1 cs2 : List Char) (hpre : pre.toList = c1 :: cs1) (hpat : pat.toList = c2 :: cs2)
    (hne : (c2 == c1) = false) : strStartsWith (pre ++ x) pat = false := by
  unfold strStartsWith
  rw [toList_append, hpre, hpat]
  show (c2 == c1 && listPrefixOf cs2 (cs1 ++ x.toList)) = false
  rw [hne]
  rfl

theorem headerLine_assoc (h : String) :
    headerLine h = "From " ++ (h ++ " Mon Sep 17 00:00:00 2001") := by
  unfold headerLine
  rw [String.append_assoc]

theorem authorLine_assoc (n e : String) :
    authorLine n e = "From: " ++ (n ++ (" <" ++ (e ++ ">"))) := by
  unfold authorLine
  rw [String.append_assoc, String.append_assoc, String.append_assoc]

theorem subjectLine_assoc (s : String) :
    subjectLine s = "Subject: " ++ ("[PATCH] " ++ s) := by
  unfold subjectLine
  rw [show ("Subject: [PATCH] " : String) = "Subject: " ++ "[PATCH] " from rfl,
    String.append_assoc]

theorem beginDiffLine_assoc (d : Delta) :
    beginDiffLine d = "diff --git a/" ++ ((d.oldPath.getD (d.newPath.getD "")) ++
      (" b/" ++ (d.newPath.getD (d.oldPath.getD "")))) := by
  unfold beginDiffLine
  rw [String.append_assoc, String.append_assoc]

theorem statLine_assoc (d : Delta) :
    statLine d = " " ++ ((d.newPath.getD (d.oldPath.getD "")) ++ " | changed") := by
  unfold statLine
  rw [String.append_assoc]

theorem parse_subject_line_mk (s : String) :
    parse_subject_line (subjectLine s) = some s := by
  rw [subjectLine_assoc]
  unfold parse_subject_line
  rw [strStartsWith_append_self]
  rw [if_pos rfl]
  simp only []
  rw [toList_append]
  rw [drop_append_len "Subject: ".toList _ 9 (by rfl)]
  rw [toList_append]
  rw [listPrefixOf_self_append]
  rw [if_pos rfl]
  rw [drop_append_len "[PATCH] ".toList _ 8 (by rfl)]
  rw [asString_toList]

theorem headerLine_not_subject (h : String) :
    strStartsWith (headerLine h) "Subject: [PATCH]" = false := by
  rw [headerLine_assoc]
  exact strStartsWith_prepend_ne "From " _ _ 'F' 'S' _ _ rfl rfl (by decide)

theorem authorLine_not_subject (n e : String) :
    strStartsWith (authorLine n e) "Subject: [PATCH]" = false := by
  rw [authorLine_assoc]
  exact strStartsWith_prepend_ne "From: " _ _ 'F' 'S' _ _ rfl rfl (by decide)

theorem dateLine_not_subject (dt : String) :
    strStartsWith (dateLine dt) "Subject: [PATCH]" = false :=
  strStartsWith_prepend_ne "Date: " _ _ 'D' 'S' _ _ rfl rfl (by decide)

theorem subjectLine_is_subject (s : String) :
    strStartsWith (subjectLine s) "Subject: [PATCH]" = true := by
  rw [show subjectLine s = "Subject: [PATCH]" ++ (" " ++ s) from by
    unfold subjectLine
    rw [show ("Subject: [PATCH] " : String) = "Subject: [PATCH]" ++ " " from rfl,
      String.append_assoc]]
  exact strStartsWith_append_self _ _

theorem statLine_not_diff (d : Delta) :
    strStartsWith (statLine d) "diff" = false := by
  rw [statLine_assoc]
  exact strStartsWith_prepend_ne " " _ _ ' ' 'd' _ _ rfl rfl (by decide)

theorem beginDiffLine_is_diff (d : Delta) :
    strStartsWith (beginDiffLine d) "diff" = true := by
  rw [beginDiffLine_assoc]
  rw [show ("diff --git a/" : String) = "diff" ++ " --git a/" from rfl, String.append_assoc]
  exact strStartsWith_append_self _ _

theorem parse_begin_none_of (l : String)
    (h : strStartsWith l "diff --git a/" = false) : parse_begin_diff_line l = none := by
  unfold parse_begin_diff_line
  rw [h]
  rfl

theorem headerLine_not_begin (h : String) :
    parse_begin_diff_line (headerLine h) = none := by
  apply parse_begin_none_of
  rw [headerLine_assoc]
  exact strStartsWith_prepend_ne "From " _ _ 'F' 'd' _ _ rfl rfl (by decide)

theorem authorLine_not_begin (n e : String) :
    parse_begin_diff_line (authorLine n e) = none := by
  apply parse_begin_none_of
  rw [authorLine_assoc]
  exact strStartsWith_prepend_ne "From: " _ _ 'F' 'd' _ _ rfl rfl (by decide)

theorem dateLine_not_begin (dt : String) :
    parse_begin_diff_line (dateLine dt) = none := by
  apply parse_begin_none_of
  exact strStartsWith_prepend_ne "Date: " _ _ 'D' 'd' _ _ rfl rfl (by decide)

theorem subjectLine_not_begin (s : String) :
    parse_begin_diff_line (subjectLine s) = none := by
  apply parse_begin_none_of
  rw [subjectLine_assoc]
  exact strStartsWith_prepend_ne "Subject: " _ _ 'S' 'd' _ _ rfl rfl (by decide)

theorem pathOk_parts {p : String} (h : pathOk p = true) :
    p.toList ≠ [] ∧ (∀ c ∈ p.toList, charOkP c = true) ∧ isAbsolutePath p = false := by
  unfold pathOk at h
  simp only [Bool.and_eq_true, Bool.not_eq_true'] at h
  obtain ⟨⟨hne, hall⟩, habs⟩ := h
  refine ⟨?_, ?_, habs⟩
  · intro hcontr
    have : p = "" := toList_inj (by rw [hcontr]; rfl)
    rw [this] at hne
    simp at hne
  · intro c hc
    exact List.all_eq_true.mp hall c hc

theorem pathOk_space {p : String} (h : pathOk p = true) :
    ∀ c ∈ p.toList, (' ' == c) = false := by
  intro c hc
  have := charOkP_ne_space ((pathOk_parts h).2.1 c hc)
  exact beq_eq_false_iff_ne.mpr (Ne.symm this)

theorem wfDelta_cases {d : Delta} (h : wfDelta d = true) :
    (∃ p ol, d = mkDeleted p ol ∧ pathOk p = true ∧ ol.all cleanLine = true) ∨
    (∃ q nl, d = mkAdded q nl ∧ pathOk q = true ∧ nl.all cleanLine = true) ∨
    (∃ p ol nl, d = mkModified p ol nl ∧ pathOk p = true ∧
      ol.all cleanLine = true ∧ nl.all cleanLine = true) := by
  obtain ⟨st, op, np, oe, nex, ol, nl, bin⟩ := d
  unfold wfDelta at h
  simp only [Bool.and_eq_true, Bool.not_eq_true'] at h
  obtain ⟨⟨⟨hshape, hbin⟩, hol⟩, hnl⟩ := h
  subst hbin
  cases st <;> cases op <;> cases np
  all_goals try exact Bool.noConfusion hshape
  · rename_i q
    replace hshape : (pathOk q && !oe && nex && ol.isEmpty) = true := hshape
    simp only [Bool.and_eq_true, Bool.not_eq_true'] at hshape
    obtain ⟨⟨⟨hq, hoe⟩, hnex⟩, hone⟩ := hshape
    have hol0 : ol = [] := by simpa using hone
    subst hol0
    subst hoe
    subst hnex
    exact Or.inr (Or.inl ⟨q, nl, rfl, hq, hnl⟩)
  · rename_i p
    replace hshape : (pathOk p && oe && !nex && nl.isEmpty) = true := hshape
    simp only [Bool.and_eq_true, Bool.not_eq_true'] at hshape
    obtain ⟨⟨⟨hp, hoe⟩, hnex⟩, hnle⟩ := hshape
    have hnl0 : nl = [] := by simpa using hnle
    subst hnl0
    subst hoe
    subst hnex
    exact Or.inl ⟨p, ol, rfl, hp, hol⟩
  · rename_i p q
    replace hshape : (pathOk p && p == q && oe && nex) = true := hshape
    simp only [Bool.and_eq_true, beq_iff_eq] at hshape
    obtain ⟨⟨⟨hp, hpq⟩, hoe⟩, hnex⟩ := hshape
    subst hpq
    subst hoe
    subst hnex
    exact Or.inr (Or.inr ⟨p, ol, nl, rfl, hp, hol, hnl⟩)

theorem parseDeltaBlock_render_deleted (p : String) (ol : List String) (tail : List String)
    (hp : pathOk p = true) :
    parseDeltaBlock (renderDelta (mkDeleted p ol) ++ tail) = some (mkDeleted p ol, tail) := by
  have hsp := pathOk_space hp
  have hlist : renderDelta (mkDeleted p ol) ++ tail =
      ("diff --git a/" ++ p ++ " b/" ++ p) :: "deleted file mode 100644" ::
        "index 1111111..2222222 100644" :: ("--- a/" ++ p) :: "+++ /dev/null" ::
        ("@@ -1," ++ natRepr ol.length ++ " +1," ++ natRepr 0 ++ " @@") ::
        (ol.map (fun l => "-" ++ l) ++ tail) := by
    unfold renderDelta renderDeltaRest beginDiffLine mkDeleted
    simp [List.append_assoc]
  rw [hlist]
  unfold parseDeltaBlock
  simp only []
  rw [parse_begin_diff_line_mk p p hsp]
  simp only []
  rw [show strStartsWith "deleted file mode 100644" "new file mode" = false from by decide]
  rw [show strStartsWith "deleted file mode 100644" "deleted file mode" = true from by decide]
  rw [if_pos (show (false || true) = true from rfl)]
  simp only []
  rw [show strStartsWith "index 1111111..2222222 100644" "index" = true from by decide]
  rw [if_pos rfl]
  rw [parseFileLine_old_some p, parseFileLine_new_none, parseHunkHeader_mk ol.length 0]
  simp only []
  rw [takeMarked_render '-' "-" rfl ol tail]
  rfl

theorem parseDeltaBlock_render_added (q : String) (nl : List String) (tail : List String)
    (hq : pathOk q = true) :
    parseDeltaBlock (renderDelta (mkAdded q nl) ++ tail) = some (mkAdded q nl, tail) := by
  have hsp := pathOk_space hq
  have hlist : renderDelta (mkAdded q nl) ++ tail =
      ("diff --git a/" ++ q ++ " b/" ++ q) :: "new file mode 100644" ::
        "index 1111111..2222222 100644" :: "--- /dev/null" :: ("+++ b/" ++ q) ::
        ("@@ -1," ++ natRepr 0 ++ " +1," ++ natRepr nl.length ++ " @@") ::
        (nl.map (fun l => "+" ++ l) ++ tail) := by
    unfold renderDelta renderDeltaRest beginDiffLine mkAdded
    simp [List.append_assoc]
  rw [hlist]
  unfold parseDeltaBlock
  simp only []
  rw [parse_begin_diff_line_mk q q hsp]
  simp only []
  rw [show strStartsWith "new file mode 100644" "new file mode" = true from by decide]
  rw [if_pos (show (true || strStartsWith "new file mode 100644" "deleted file mode") = true
    from rfl)]
  simp only []
  rw [show strStartsWith "index 1111111..2222222 100644" "index" = true from by decide]
  rw [if_pos rfl]
  rw [parseFileLine_old_none, parseFileLine_new_some q, parseHunkHeader_mk 0 nl.length]
  simp only []
  rw [show takeMarked '-' 0 (nl.map (fun l => "+" ++ l) ++ tail) =
      some ([], nl.map (fun l => "+" ++ l) ++ tail) from rfl]
  simp only []
  rw [takeMarked_render '+' "+" rfl nl tail]
  rfl

theorem parseDeltaBlock_render_modified (p : String) (ol nl : List String)
    (tail : List String) (hp : pathOk p = true) :
    parseDeltaBlock (renderDelta (mkModified p ol nl) ++ tail) =
      some (mkModified p ol nl, tail) := by
  have hsp := pathOk_space hp
  have hlist : renderDelta (mkModified p ol nl) ++ tail =
      ("diff --git a/" ++ p ++ " b/" ++ p) ::
        "index 1111111..2222222 100644" :: ("--- a/" ++ p) :: ("+++ b/" ++ p) ::
        ("@@ -1," ++ natRepr ol.length ++ " +1," ++ natRepr nl.length ++ " @@") ::
        (ol.map (fun l => "-" ++ l) ++ (nl.map (fun l => "+" ++ l) ++ tail)) := by
    unfold renderDelta renderDeltaRest beginDiffLine mkModified
    simp [List.append_assoc]
  rw [hlist]
  unfold parseDeltaBlock
  simp only []
  rw [parse_begin_diff_line_mk p p hsp]
  simp only []
  rw [show strStartsWith "index 1111111..2222222 100644" "new file mode" = false from by decide]
  rw [show strStartsWith "index 1111111..2222222 100644" "deleted file mode" = false
    from by decide]
  rw [if_neg (show ¬((false || false) = true) from by simp)]
  simp only []
  rw [show strStartsWith "index 1111111..2222222 100644" "index" = true from by decide]
  rw [if_pos rfl]
  rw [parseFileLine_old_some p, parseFileLine_new_some p, parseHunkHeader_mk ol.length nl.length]
  simp only []
  rw [takeMarked_render '-' "-" rfl ol (nl.map (fun l => "+" ++ l) ++ tail)]
  simp only []
  rw [takeMarked_render '+' "+" rfl nl tail]
  rfl

theorem parseDeltaBlock_render (d : Delta) (tail : List String) (hwf : wfDelta d = true) :
    parseDeltaBlock (renderDelta d ++ tail) = some (d, tail) := by
  rcases wfDelta_cases hwf with ⟨p, ol, rfl, hp, -⟩ | ⟨q, nl, rfl, hq, -⟩ |
    ⟨p, ol, nl, rfl, hp, -, -⟩
  · exact parseDeltaBlock_render_deleted p ol tail hp
  · exact parseDeltaBlock_render_added q nl tail hq
  · exact parseDeltaBlock_render_modified p ol nl tail hp

theorem wf_begin_isSome (d : Delta) (hwf : wfDelta d = true) :
    (parse_begin_diff_line (beginDiffLine d)).isSome = true := by
  rcases wfDelta_cases hwf with ⟨p, ol, rfl, hp, -⟩ | ⟨q, nl, rfl, hq, -⟩ |
    ⟨p, ol, nl, rfl, hp, -, -⟩
  · rw [show beginDiffLine (mkDeleted p ol) = "diff --git a/" ++ p ++ " b/" ++ p from rfl,
      parse_begin_diff_line_mk p p (pathOk_space hp)]
    rfl
  · rw [show beginDiffLine (mkAdded q nl) = "diff --git a/" ++ q ++ " b/" ++ q from rfl,
      parse_begin_diff_line_mk q q (pathOk_space hq)]
    rfl
  · rw [show beginDiffLine (mkModified p ol nl) = "diff --git a/" ++ p ++ " b/" ++ p from rfl,
      parse_begin_diff_line_mk p p (pathOk_space hp)]
    rfl

theorem parseDeltaBlocks_render :
    ∀ (ds : List Delta) (rest : List String) (fuel : Nat),
      (∀ d ∈ ds, wfDelta d = true) →
      (match rest with | [] => True | l :: _ => (parse_begin_diff_line l).isSome = false) →
      (renderDeltas ds ++ rest).length ≤ fuel →
      parseDeltaBlocks fuel (renderDeltas ds ++ rest) = some ds := by
  intro ds
  induction ds with
  | nil =>
    intro rest fuel _ hrest hfuel
    rw [show renderDeltas [] = [] from rfl, List.nil_append]
    cases rest with
    | nil => cases fuel <;> rfl
    | cons l rs =>
      replace hrest : (parse_begin_diff_line l).isSome = false := hrest
      cases fuel with
      | zero => simp at hfuel
      | succ f =>
        unfold parseDeltaBlocks
        rw [hrest]
        simp
  | cons d ds ih =>
    intro rest fuel hwf hrest hfuel
    have hf : (renderDeltas ds ++ rest).length ≤ fuel - 1 := by
      have h1 : (renderDeltas (d :: ds) ++ rest).length ≤ fuel := hfuel
      rw [show renderDeltas (d :: ds) = renderDelta d ++ renderDeltas ds from rfl] at h1
      rw [show renderDelta d = beginDiffLine d :: renderDeltaRest d from rfl] at h1
      simp only [List.length_append, List.length_cons] at h1 ⊢
      omega
    rw [show renderDeltas (d :: ds) = renderDelta d ++ renderDeltas ds from rfl]
    rw [List.append_assoc]
    rw [show renderDelta d = beginDiffLine d :: renderDeltaRest d from rfl]
    rw [List.cons_append]
    cases fuel with
    | zero =>
      exfalso
      rw [show renderDeltas (d :: ds) = renderDelta d ++ renderDeltas ds from rfl] at hfuel
      rw [show renderDelta d = beginDiffLine d :: renderDeltaRest d from rfl] at hfuel
      simp at hfuel
    | succ f =>
      unfold parseDeltaBlocks
      rw [wf_begin_isSome d (hwf d (by simp))]
      rw [if_pos rfl]
      have hblock := parseDeltaBlock_render d (renderDeltas ds ++ rest) (hwf d (by simp))
      rw [show beginDiffLine d :: (renderDeltaRest d ++ (renderDeltas ds ++ rest)) =
          renderDelta d ++ (renderDeltas ds ++ rest) from rfl]
      rw [hblock]
      simp only []
      rw [ih rest f (fun x hx => hwf x (by simp [hx])) hrest (by simpa using hf)]

theorem dropWhile_append_stop {α : Type} (p : α → Bool) :
    ∀ (A : List α) (x : α) (B : List α), (∀ l ∈ A, p l = true) → p x = false →
      (A ++ x :: B).dropWhile p = x :: B := by
  intro A
  induction A with
  | nil =>
    intro x B _ hx
    simp [List.dropWhile_cons, hx]
  | cons a A ih =>
    intro x B hA hx
    rw [List.cons_append, List.dropWhile_cons]
    rw [hA a (by simp)]
    rw [ih x B (fun l hl => hA l (by simp [hl])) hx]
    simp

theorem diff_from_buffer_render
    (pre : List String) (ds : List Delta) (rest : List String)
    (hpre : ∀ l ∈ pre, (parse_begin_diff_line l).isSome = false)
    (hwf : ∀ d ∈ ds, wfDelta d = true)
    (hds : ds ≠ [])
    (hrest : match rest with | [] => True | l :: _ => (parse_begin_diff_line l).isSome = false)
    (hclean : ∀ l ∈ pre ++ renderDeltas ds ++ rest, cleanLine l = true) :
    diff_from_buffer (joinLF (pre ++ renderDeltas ds ++ rest)) = some ds := by
  cases ds with
  | nil => exact absurd rfl hds
  | cons d ds =>
    unfold diff_from_buffer
    simp only []
    rw [rustLines_joinLF _ hclean]
    have hdXpand : pre ++ renderDeltas (d :: ds) ++ rest =
        pre ++ beginDiffLine d :: (renderDeltaRest d ++ (renderDeltas ds ++ rest)) := by
      rw [show renderDeltas (d :: ds) = renderDelta d ++ renderDeltas ds from rfl]
      rw [show renderDelta d = beginDiffLine d :: renderDeltaRest d from rfl]
      simp [List.append_assoc]
    have hstop : List.dropWhile (fun l => !(parse_begin_diff_line l).isSome)
        (pre ++ beginDiffLine d :: (renderDeltaRest d ++ (renderDeltas ds ++ rest))) =
        beginDiffLine d :: (renderDeltaRest d ++ (renderDeltas ds ++ rest)) := by
      apply dropWhile_append_stop
      · intro l hl
        rw [hpre l hl]
        rfl
      · rw [wf_begin_isSome d (hwf d (by simp))]
        rfl
    rw [hdXpand, hstop]
    simp only []
    have hback : beginDiffLine d :: (renderDeltaRest d ++ (renderDeltas ds ++ rest)) =
        renderDeltas (d :: ds) ++ rest := by
      rw [show renderDeltas (d :: ds) = renderDelta d ++ renderDeltas ds from rfl]
      rw [show renderDelta d = beginDiffLine d :: renderDeltaRest d from rfl]
      simp [List.append_assoc]
    rw [hback]
    exact parseDeltaBlocks_render (d :: ds) rest _ hwf hrest (le_refl _)

/-! ### Cleanliness of the rendered lines -/

theorem mem_of_getLastQ {α : Type} : ∀ (l : List α) (a : α), l.getLast? = some a → a ∈ l := by
  intro l
  induction l with
  | nil =>
    intro a h
    simp at h
  | cons x xs ih =>
    intro a h
    cases xs with
    | nil =>
      simp at h
      subst h
      simp
    | cons y t =>
      rw [List.getLast?_cons_cons] at h
      exact List.mem_cons_of_mem x (ih a h)

theorem cleanLine_lit_path (pre p : String) (hpre : ∀ c ∈ pre.toList, c ≠ '\n')
    (hp : ∀ c ∈ p.toList, charOkP c = true) (hne : p.toList ≠ []) :
    cleanLine (pre ++ p) = true := by
  apply cleanLine_chars
  · intro c hc
    rw [toList_append, List.mem_append] at hc
    rcases hc with hc | hc
    · exact hpre c hc
    · exact charOkP_ne_lf (hp c hc)
  · intro c hc
    rw [toList_append, getLast?_append_right _ _ hne] at hc
    exact charOkP_ne_cr (hp c (mem_of_getLastQ _ _ hc))

theorem cleanLine_path_lit (pre p post : String) (hpre : ∀ c ∈ pre.toList, c ≠ '\n')
    (hp : ∀ c ∈ p.toList, charOkP c = true) (hpost : ∀ c ∈ post.toList, c ≠ '\n')
    (hne : post.toList ≠ []) (hcr : post.toList.getLast? ≠ some '\r') :
    cleanLine (pre ++ p ++ post) = true := by
  apply cleanLine_chars
  · intro c hc
    rw [toList_append, toList_append, List.append_assoc, List.mem_append,
      List.mem_append] at hc
    rcases hc with hc | hc | hc
    · exact hpre c hc
    · exact charOkP_ne_lf (hp c hc)
    · exact hpost c hc
  · intro c hc
    rw [toList_append, getLast?_append_right _ _ hne] at hc
    intro hcontr
    subst hcontr
    exact absurd hc hcr

theorem cleanLine_beginDiff (pa pb : String)
    (ha : ∀ c ∈ pa.toList, charOkP c = true) (hb : ∀ c ∈ pb.toList, charOkP c = true)
    (hbne : pb.toList ≠ []) :
    cleanLine ("diff --git a/" ++ pa ++ " b/" ++ pb) = true := by
  have hlit1 : ∀ x ∈ "diff --git a/".toList, x ≠ '\n' := by decide
  have hlit2 : ∀ x ∈ " b/".toList, x ≠ '\n' := by decide
  apply cleanLine_lit_path ("diff --git a/" ++ pa ++ " b/") pb ?hpre hb hbne
  intro c hc
  rw [toList_append, toList_append, List.append_assoc, List.mem_append,
    List.mem_append] at hc
  rcases hc with hc | hc | hc
  · exact hlit1 c hc
  · exact charOkP_ne_lf (ha c hc)
  · exact hlit2 c hc

theorem cleanLine_hunk (m n : Nat) :
    cleanLine ("@@ -1," ++ natRepr m ++ " +1," ++ natRepr n ++ " @@") = true := by
  obtain ⟨-, -, hm3⟩ := natRepr_facts m
  obtain ⟨-, -, hn3⟩ := natRepr_facts n
  have hlit1 : ∀ x ∈ "@@ -1,".toList, x ≠ '\n' := by decide
  have hlit2 : ∀ x ∈ " +1,".toList, x ≠ '\n' := by decide
  have hlit3 : ∀ x ∈ " @@".toList, x ≠ '\n' := by decide
  apply cleanLine_chars
  · intro c hc
    simp only [toList_append, List.mem_append, or_assoc] at hc
    rcases hc with hc | hc | hc | hc | hc
    · exact hlit1 c hc
    · exact (hm3 c hc).2
    · exact hlit2 c hc
    · exact (hn3 c hc).2
    · exact hlit3 c hc
  · intro c hc
    rw [toList_append,
      getLast?_append_right _ _ (show " @@".toList ≠ [] from by decide)] at hc
    have hc2 : '@' = c := by simpa using hc
    subst hc2
    decide

theorem cleanLine_marker (c : Char) (cs : String) (hcs : cs.toList = [c])
    (hlf : c ≠ '\n') (hcr : c ≠ '\r') (l : String) (hl : cleanLine l = true) :
    cleanLine (cs ++ l) = true := by
  unfold cleanLine at hl
  rw [Bool.and_eq_true] at hl
  obtain ⟨hl1, hl2⟩ := hl
  apply cleanLine_chars
  · intro x hx
    rw [toList_append, hcs, List.mem_append] at hx
    rcases hx with hx | hx
    · simp at hx
      subst hx
      exact hlf
    · have := List.all_eq_true.mp hl1 x hx
      simpa using this
  · intro x hx
    rw [toList_append, hcs] at hx
    cases hlt : l.toList with
    | nil =>
      rw [hlt] at hx
      simp at hx
      subst hx
      exact hcr
    | cons y t =>
      rw [hlt] at hx
      rw [getLast?_append_right [c] (y :: t) (by simp)] at hx
      intro hcontr
      subst hcontr
      rw [hlt] at hl2
      rw [hx] at hl2
      simp at hl2

theorem renderDelta_clean (d : Delta) (hwf : wfDelta d = true) :
    ∀ l ∈ renderDelta d, cleanLine l = true := by
  rcases wfDelta_cases hwf with ⟨p, ol, rfl, hp, hol⟩ | ⟨q, nl, rfl, hq, hnl⟩ |
    ⟨p, ol, nl, rfl, hp, hol, hnl⟩
  · obtain ⟨hpne, hpok, -⟩ := pathOk_parts hp
    intro l hl
    simp only [renderDelta, renderDeltaRest, beginDiffLine, mkDeleted, Option.getD_some,
      List.mem_cons, List.mem_append, List.map_nil, List.length_nil, List.append_nil,
      List.mem_map, List.cons_append, List.nil_append, List.not_mem_nil, or_false,
      List.mem_singleton] at hl
    rcases hl with rfl | rfl | rfl | rfl | rfl | rfl | ⟨x, hx, rfl⟩
    · exact cleanLine_beginDiff p p hpok hpok hpne
    · decide
    · decide
    · exact cleanLine_lit_path "--- a/" p (by decide) hpok hpne
    · decide
    · exact cleanLine_hunk ol.length 0
    · exact cleanLine_marker '-' "-" rfl (by decide) (by decide) x
        (List.all_eq_true.mp hol x hx)
  · obtain ⟨hqne, hqok, -⟩ := pathOk_parts hq
    intro l hl
    simp only [renderDelta, renderDeltaRest, beginDiffLine, mkAdded, Option.getD_some,
      Option.getD_none, List.mem_cons, List.mem_append, List.map_nil, List.length_nil,
      List.append_nil, List.mem_map, List.cons_append, List.nil_append,
      List.not_mem_nil, or_false, List.mem_singleton, false_or] at hl
    rcases hl with rfl | rfl | rfl | rfl | rfl | rfl | ⟨x, hx, rfl⟩
    · exact cleanLine_beginDiff q q hqok hqok hqne
    · decide
    · decide
    · decide
    · exact cleanLine_lit_path "+++ b/" q (by decide) hqok hqne
    · exact cleanLine_hunk 0 nl.length
    · exact cleanLine_marker '+' "+" rfl (by decide) (by decide) x
        (List.all_eq_true.mp hnl x hx)
  · obtain ⟨hpne, hpok, -⟩ := pathOk_parts hp
    intro l hl
    simp only [renderDelta, renderDeltaRest, beginDiffLine, mkModified, Option.getD_some,
      List.mem_cons, List.mem_append, List.mem_map, List.cons_append, List.nil_append,
      List.not_mem_nil, or_false, List.mem_singleton, false_or] at hl
    rcases hl with rfl | rfl | rfl | rfl | rfl | ⟨x, hx, rfl⟩ | ⟨x, hx, rfl⟩
    · exact cleanLine_beginDiff p p hpok hpok hpne
    · decide
    · exact cleanLine_lit_path "--- a/" p (by decide) hpok hpne
    · exact cleanLine_lit_path "+++ b/" p (by decide) hpok hpne
    · exact cleanLine_hunk ol.length nl.length
    · exact cleanLine_marker '-' "-" rfl (by decide) (by decide) x
        (List.all_eq_true.mp hol x hx)
    · exact cleanLine_marker '+' "+" rfl (by decide) (by decide) x
        (List.all_eq_true.mp hnl x hx)

theorem renderDeltas_clean (ds : List Delta) (hwf : ∀ d ∈ ds, wfDelta d = true) :
    ∀ l ∈ renderDeltas ds, cleanLine l = true := by
  induction ds with
  | nil => intro l hl; simp [renderDeltas] at hl
  | cons d ds ih =>
    intro l hl
    rw [show renderDeltas (d :: ds) = renderDelta d ++ renderDeltas ds from rfl,
      List.mem_append] at hl
    rcases hl with hl | hl
    · exact renderDelta_clean d (hwf d (by simp)) l hl
    · exact ih (fun x hx => hwf x (by simp [hx])) l hl

theorem statLine_clean (d : Delta) (hwf : wfDelta d = true) :
    cleanLine (statLine d) = true := by
  rcases wfDelta_cases hwf with ⟨p, ol, rfl, hp, -⟩ | ⟨q, nl, rfl, hq, -⟩ |
    ⟨p, ol, nl, rfl, hp, -, -⟩
  · obtain ⟨hpne, hpok, -⟩ := pathOk_parts hp
    show cleanLine (" " ++ p ++ " | changed") = true
    exact cleanLine_path_lit " " p " | changed" (by decide) hpok (by decide) (by decide)
      (by decide)
  · obtain ⟨hqne, hqok, -⟩ := pathOk_parts hq
    show cleanLine (" " ++ q ++ " | changed") = true
    exact cleanLine_path_lit " " q " | changed" (by decide) hqok (by decide) (by decide)
      (by decide)
  · obtain ⟨hpne, hpok, -⟩ := pathOk_parts hp
    show cleanLine (" " ++ p ++ " | changed") = true
    exact cleanLine_path_lit " " p " | changed" (by decide) hpok (by decide) (by decide)
      (by decide)

theorem footerLines_clean : ∀ l ∈ footerLines, cleanLine l = true := by decide

/-! ### The trim step of the cleanup -/

theorem joinBodyLF_head (l : String) (ls : List String) (c : Char) (cs : List Char)
    (hl : l.toList = c :: cs) :
    ∃ R, (joinBodyLF (l :: ls)).toList = c :: R := by
  cases ls with
  | nil => exact ⟨cs, by rw [show joinBodyLF [l] = l from rfl, hl]⟩
  | cons m rest =>
    refine ⟨cs ++ ("\n" ++ joinBodyLF (m :: rest)).toList, ?_⟩
    rw [show joinBodyLF (l :: m :: rest) = l ++ "\n" ++ joinBodyLF (m :: rest) from rfl]
    rw [String.append_assoc, toList_append, hl]
    rfl

theorem joinBodyLF_getLast : ∀ (ls : List String) (l : String) (c : Char),
    (List.getLastD ls l).toList.getLast? = some c →
    (joinBodyLF (l :: ls)).toList.getLast? = some c := by
  intro ls
  induction ls with
  | nil => intro l c h; exact h
  | cons m rest ih =>
    intro l c h
    rw [List.getLastD_cons] at h
    have ih' := ih m c h
    have hne2 : (joinBodyLF (m :: rest)).toList ≠ [] := by
      intro hcontr
      rw [hcontr] at ih'
      simp at ih'
    have hne1 : ("\n" ++ joinBodyLF (m :: rest)).toList ≠ [] := by
      rw [toList_append]
      intro hcontr
      simp at hcontr
    rw [show joinBodyLF (l :: m :: rest) = l ++ "\n" ++ joinBodyLF (m :: rest) from rfl]
    rw [String.append_assoc, toList_append]
    rw [getLast?_append_right _ _ hne1]
    rw [toList_append]
    rw [getLast?_append_right _ _ hne2]
    exact ih'

theorem strTrim_joinLF_body (body : List String) (hn : bodyNormalized body = true) :
    strTrim (joinLF body) = joinBodyLF body := by
  cases body with
  | nil => rfl
  | cons l ls =>
    unfold bodyNormalized at hn
    rw [Bool.and_eq_true] at hn
    obtain ⟨hfirst, hlast⟩ := hn
    unfold firstCharNonWs at hfirst
    cases hlt : l.toList with
    | nil =>
      rw [hlt] at hfirst
      simp at hfirst
    | cons c cs =>
      rw [hlt] at hfirst
      simp only [List.head?_cons] at hfirst
      have hcws : isWs c = false := by
        cases hw : isWs c
        · rfl
        · rw [hw] at hfirst
          simp at hfirst
      unfold lastCharNonWs at hlast
      cases hgl : (List.getLastD ls l).toList.getLast? with
      | none =>
        rw [hgl] at hlast
        simp at hlast
      | some e =>
        rw [hgl] at hlast
        replace hlast : (!isWs e) = true := hlast
        have hews : isWs e = false := by
          cases hw : isWs e
          · rfl
          · rw [hw] at hlast
            simp at hlast
        rw [joinLF_eq_collectLF, collectLF_eq_joinBody_append _ (by simp)]
        obtain ⟨R, hR⟩ := joinBodyLF_head l ls c cs hlt
        have hglast := joinBodyLF_getLast ls l e hgl
        unfold strTrim
        rw [toList_append]
        rw [show ("\n" : String).toList = ['\n'] from rfl]
        rw [hR]
        rw [show ((c :: R) ++ ['\n']).dropWhile isWs = (c :: R) ++ ['\n'] from by
          rw [List.cons_append, List.dropWhile_cons, hcws]
          simp]
        rw [List.reverse_append]
        rw [show ((['\n'] : List Char).reverse ++ (c :: R).reverse) =
            '\n' :: (c :: R).reverse from rfl]
        rw [List.dropWhile_cons]
        rw [show isWs '\n' = true from rfl]
        rw [if_pos rfl]
        have hrev : (c :: R).reverse.head? = some e := by
          rw [List.head?_reverse]
          rw [← hR]
          exact hglast
        cases hrevl : (c :: R).reverse with
        | nil => simp at hrevl
        | cons e2 t =>
          rw [hrevl] at hrev
          simp only [List.head?_cons] at hrev
          injection hrev with he2
          subst he2
          rw [List.dropWhile_cons, hews]
          rw [if_neg (by simp)]
          rw [← hrevl, List.reverse_reverse, ← hR, asString_toList]

theorem joinBodyLF_ne_empty (l : String) (ls : List String) (c : Char) (cs : List Char)
    (hl : l.toList = c :: cs) : joinBodyLF (l :: ls) ≠ "" := by
  obtain ⟨R, hR⟩ := joinBodyLF_head l ls c cs hl
  intro hcontr
  rw [hcontr] at hR
  simp at hR

theorem joinLF_body_eq (body : List String) (hne : body ≠ []) :
    joinBodyLF body ++ "\n" = joinLF body := by
  rw [joinLF_eq_collectLF, collectLF_eq_joinBody_append body hne]

/-! ### The cleanup step on a rendered email -/

theorem cleanup_render (hash name email date summary : String) (body : List String)
    (ds : List Delta)
    (hwf : ∀ d ∈ ds, wfDelta d = true)
    (hdsne : ds ≠ [])
    (hbodyn : bodyNormalized body = true)
    (hbody_dash : ∀ l ∈ body, strStartsWith l "---" = false)
    (hcl1 : cleanLine (headerLine hash) = true)
    (hcl2 : cleanLine (authorLine name email) = true)
    (hcl3 : cleanLine (dateLine date) = true)
    (hcl4 : cleanLine (subjectLine summary) = true)
    (hbody_clean : ∀ l ∈ body, cleanLine l = true) :
    cleanup_patch (renderEmail hash name email date summary body ds) =
      some (joinLF (headerLine hash :: authorLine name email :: dateLine date ::
        subjectLine summary :: "" :: (body ++ "" :: (renderDeltas ds ++ footerLines)))) := by
  cases ds with
  | nil => exact absurd rfl hdsne
  | cons d0 ds' =>
    have hcleanAll : ∀ l ∈ ([headerLine hash, authorLine name email, dateLine date,
        subjectLine summary, ""] ++ body ++ ["---"] ++ (d0 :: ds').map statLine ++ [""] ++
        renderDeltas (d0 :: ds') ++ footerLines), cleanLine l = true := by
      intro l hlmem
      simp only [List.mem_append, List.mem_cons, List.mem_map, List.not_mem_nil,
        or_false, false_or, List.mem_singleton, or_assoc] at hlmem
      rcases hlmem with rfl | rfl | rfl | rfl | rfl | hb | rfl | ⟨d, hd, rfl⟩ | rfl |
        hdl | hf
      · exact hcl1
      · exact hcl2
      · exact hcl3
      · exact hcl4
      · decide
      · exact hbody_clean l hb
      · decide
      · exact statLine_clean d (hwf d (List.mem_cons.mpr hd))
      · decide
      · exact renderDeltas_clean _ hwf l hdl
      · exact footerLines_clean l hf
    unfold cleanup_patch renderEmail
    rw [rustLines_joinLF _ hcleanAll]
    have hsplit1 : [headerLine hash, authorLine name email, dateLine date,
        subjectLine summary, ""] ++ body ++ ["---"] ++ (d0 :: ds').map statLine ++ [""] ++
        renderDeltas (d0 :: ds') ++ footerLines =
        [headerLine hash, authorLine name email, dateLine date] ++
          (subjectLine summary :: ("" :: (body ++ ("---" ::
            ((d0 :: ds').map statLine ++ ("" ::
              (renderDeltas (d0 :: ds') ++ footerLines))))))) := by
      simp [List.append_assoc]
    rw [hsplit1]
    rw [takeUntil_split _ [headerLine hash, authorLine name email, dateLine date]
      (subjectLine summary) _
      (by
        intro x hx
        simp only [List.mem_cons, List.not_mem_nil, or_false] at hx
        rcases hx with rfl | rfl | rfl
        · exact headerLine_not_subject hash
        · exact authorLine_not_subject name email
        · exact dateLine_not_subject date)
      (subjectLine_is_subject summary)]
    simp only []
    have hdrop : List.dropWhile lineAllWs ("" :: (body ++ ("---" ::
        ((d0 :: ds').map statLine ++ ("" :: (renderDeltas (d0 :: ds') ++ footerLines)))))) =
        body ++ ("---" :: ((d0 :: ds').map statLine ++ ("" ::
          (renderDeltas (d0 :: ds') ++ footerLines)))) := by
      rw [List.dropWhile_cons]
      rw [show lineAllWs "" = true from rfl]
      rw [if_pos rfl]
      cases body with
      | nil =>
        rw [List.nil_append, List.dropWhile_cons,
          show lineAllWs "---" = false from by decide]
        simp
      | cons l ls =>
        have hfirst : firstCharNonWs l = true := by
          unfold bodyNormalized at hbodyn
          exact (Bool.and_eq_true_iff.mp hbodyn).1
        rw [List.cons_append, List.dropWhile_cons, lineAllWs_false_of_first l hfirst]
        simp
    rw [hdrop]
    rw [takeUntil_split _ body "---" _ hbody_dash (by decide)]
    simp only []
    rw [strTrim_joinLF_body body hbodyn]
    have hR2 : (d0 :: ds').map statLine ++ ("" :: (renderDeltas (d0 :: ds') ++ footerLines)) =
        ((d0 :: ds').map statLine ++ [""]) ++
          (beginDiffLine d0 :: (renderDeltaRest d0 ++ (renderDeltas ds' ++ footerLines))) := by
      rw [show renderDeltas (d0 :: ds') = renderDelta d0 ++ renderDeltas ds' from rfl]
      rw [show renderDelta d0 = beginDiffLine d0 :: renderDeltaRest d0 from rfl]
      simp [List.append_assoc]
    rw [hR2]
    rw [takeUntil_split _ ((d0 :: ds').map statLine ++ [""]) (beginDiffLine d0) _
      (by
        intro x hx
        rw [List.mem_append] at hx
        rcases hx with hx | hx
        · obtain ⟨d, hd, rfl⟩ := List.mem_map.mp hx
          exact statLine_not_diff d
        · simp only [List.mem_singleton] at hx
          subst hx
          decide)
      (beginDiffLine_is_diff d0)]
    simp only []
    refine congrArg some ?_
    have hdd : beginDiffLine d0 :: (renderDeltaRest d0 ++ (renderDeltas ds' ++ footerLines)) =
        renderDeltas (d0 :: ds') ++ footerLines := by
      rw [show renderDeltas (d0 :: ds') = renderDelta d0 ++ renderDeltas ds' from rfl]
      rw [show renderDelta d0 = beginDiffLine d0 :: renderDeltaRest d0 from rfl]
      simp [List.append_assoc]
    rw [hdd]
    rw [show ([headerLine hash, authorLine name email, dateLine date] ++
        [subjectLine summary, ""]) =
        [headerLine hash, authorLine name email, dateLine date, subjectLine summary, ""]
        from rfl]
    rw [show (headerLine hash :: authorLine name email :: dateLine date ::
        subjectLine summary :: "" :: (body ++ "" :: (renderDeltas (d0 :: ds') ++ footerLines))) =
        [headerLine hash, authorLine name email, dateLine date, subjectLine summary, ""] ++
          (body ++ ("" :: (renderDeltas (d0 :: ds') ++ footerLines))) from rfl]
    rw [joinLF_append, joinLF_append]
    cases body with
    | nil =>
      rw [show joinBodyLF [] = "" from rfl]
      rw [show (("" : String) == "") = true from by decide]
      rw [if_pos rfl]
      rw [show joinLF ([] : List String) = "" from rfl]
      rw [String.append_empty, String.empty_append]
    | cons l ls =>
      have hfirst : firstCharNonWs l = true := by
        unfold bodyNormalized at hbodyn
        exact (Bool.and_eq_true_iff.mp hbodyn).1
      unfold firstCharNonWs at hfirst
      cases hlt : l.toList with
      | nil =>
        rw [hlt] at hfirst
        simp at hfirst
      | cons c cs =>
        have hne2 : joinBodyLF (l :: ls) ≠ "" := joinBodyLF_ne_empty l ls c cs hlt
        rw [show (joinBodyLF (l :: ls) == "") = false from beq_eq_false_iff_ne.mpr hne2]
        rw [if_neg (by simp)]
        rw [← joinLF_body_eq (l :: ls) (by simp)]
        rw [String.append_assoc]

/-! ### Applying the model diff -/

theorem apply_deltas_cons (tree : List (String × List String)) (d : Delta)
    (ds : List Delta) :
    apply_deltas tree (d :: ds) =
      (match checkDeltaPaths d with
       | some e => ([], .err e)
       | none =>
         match apply_delta tree d with
         | (effs, .ok edit) =>
           match apply_deltas tree ds with
           | (effs2, .ok edits) => (effs ++ effs2, .ok (edit :: edits))
           | (effs2, .err e) => (effs ++ effs2, .err e)
           | (effs2, .panicked) => (effs ++ effs2, .panicked)
         | (effs, .err e) => (effs, .err (.failDelta e))
         | (effs, .panicked) => (effs, .panicked)) := rfl

theorem treeSortedB_tail {e : String × List String} {t : List (String × List String)}
    (h : treeSortedB (e :: t) = true) :
    treeSortedB t = true ∧ ∀ x ∈ t, keyLt e.1 x.1 = true := by
  replace h : (t.all (fun x => keyLt e.1 x.1) && treeSortedB t) = true := h
  rw [Bool.and_eq_true] at h
  exact ⟨h.2, fun x hx => List.all_eq_true.mp h.1 x hx⟩

theorem lookupTree_mem (T : List (String × List String)) (hs : treeSortedB T = true) :
    ∀ p a, (p, a) ∈ T → lookupTree T p = some a := by
  induction T with
  | nil =>
    intro p a h
    simp at h
  | cons e t ih =>
    intro p a h
    obtain ⟨hst, hgt⟩ := treeSortedB_tail hs
    rw [List.mem_cons] at h
    obtain ⟨q, b⟩ := e
    rcases h with h | h
    · rw [Prod.mk.injEq] at h
      obtain ⟨rfl, rfl⟩ := h
      unfold lookupTree
      rw [if_pos rfl]
    · have hlt : keyLt q p = true := hgt (p, a) h
      have hne : p ≠ q := Ne.symm (keyLt_ne hlt)
      unfold lookupTree
      rw [if_neg hne]
      exact ih hst p a h

theorem checkDeltaPaths_mkDeleted (p : String) (a : List String)
    (h : isAbsolutePath p = false) : checkDeltaPaths (mkDeleted p a) = none := by
  unfold checkDeltaPaths firstAbsPath mkDeleted
  simp [h]

theorem checkDeltaPaths_mkAdded (q : String) (b : List String)
    (h : isAbsolutePath q = false) : checkDeltaPaths (mkAdded q b) = none := by
  unfold checkDeltaPaths firstAbsPath mkAdded
  simp [h]

theorem checkDeltaPaths_mkModified (p : String) (a b : List String)
    (h : isAbsolutePath p = false) : checkDeltaPaths (mkModified p a b) = none := by
  unfold checkDeltaPaths firstAbsPath mkModified
  simp [h]

theorem apply_delta_mkDeleted (P : List (String × List String)) (p : String)
    (a : List String) :
    apply_delta P (mkDeleted p a) = ([], .ok (.removeEntry p)) := rfl

theorem apply_delta_mkAdded (P : List (String × List String)) (q : String)
    (b : List String) :
    apply_delta P (mkAdded q b) = ([Effect.blobWrite b], .ok (.upsert q b)) := rfl

theorem apply_delta_mkModified (P : List (String × List String)) (p : String)
    (a b : List String) (hl : lookupTree P p = some a) :
    apply_delta P (mkModified p a b) = ([Effect.blobWrite b], .ok (.upsert p b)) := by
  unfold apply_delta mkModified
  simp only []
  rw [if_neg (show ¬(false = true) from by simp)]
  rw [if_neg (show ¬(DeltaStatus.modified = DeltaStatus.added) from by decide)]
  simp only []
  rw [hl]
  simp [diffyApply]

theorem modelDiffF_wf : ∀ (fuel : Nat) (ps qs : List (String × List String)),
    (∀ e ∈ ps, pathOk e.1 = true) → (∀ e ∈ qs, pathOk e.1 = true) →
    (∀ e ∈ ps, e.2.all cleanLine = true) → (∀ e ∈ qs, e.2.all cleanLine = true) →
    ∀ d ∈ modelDiffF fuel ps qs, wfDelta d = true := by
  intro fuel
  induction fuel with
  | zero =>
    intro ps qs _ _ _ _ d hd
    simp [modelDiffF] at hd
  | succ f ih =>
    intro ps qs hpok hqok hpcl hqcl d hd
    rcases ps with _ | ⟨⟨p, a⟩, ps⟩
    · rcases qs with _ | ⟨⟨q, b⟩, qs⟩
      · simp [modelDiffF] at hd
      · rw [show modelDiffF (f + 1) [] ((q, b) :: qs) =
            mkAdded q b :: modelDiffF f [] qs from rfl, List.mem_cons] at hd
        rcases hd with rfl | hd
        · have hq := hqok (q, b) (by simp)
          have hcl := hqcl (q, b) (by simp)
          unfold wfDelta mkAdded
          simp [hq, hcl]
        · exact ih [] qs (by simp) (fun x hx => hqok x (by simp [hx])) (by simp)
            (fun x hx => hqcl x (by simp [hx])) d hd
    · rcases qs with _ | ⟨⟨q, b⟩, qs⟩
      · rw [show modelDiffF (f + 1) ((p, a) :: ps) [] =
            mkDeleted p a :: modelDiffF f ps [] from rfl, List.mem_cons] at hd
        rcases hd with rfl | hd
        · have hp := hpok (p, a) (by simp)
          have hcl := hpcl (p, a) (by simp)
          unfold wfDelta mkDeleted
          simp [hp, hcl]
        · exact ih ps [] (fun x hx => hpok x (by simp [hx])) (by simp)
            (fun x hx => hpcl x (by simp [hx])) (by simp) d hd
      · have hstep : modelDiffF (f + 1) ((p, a) :: ps) ((q, b) :: qs) =
            if keyLt p q then mkDeleted p a :: modelDiffF f ps ((q, b) :: qs)
            else if keyLt q p then mkAdded q b :: modelDiffF f ((p, a) :: ps) qs
            else if a = b then modelDiffF f ps qs
            else mkModified p a b :: modelDiffF f ps qs := rfl
        rw [hstep] at hd
        by_cases h1 : keyLt p q = true
        · rw [if_pos h1, List.mem_cons] at hd
          rcases hd with rfl | hd
          · have hp := hpok (p, a) (by simp)
            have hcl := hpcl (p, a) (by simp)
            unfold wfDelta mkDeleted
            simp [hp, hcl]
          · exact ih ps ((q, b) :: qs) (fun x hx => hpok x (by simp [hx])) hqok
              (fun x hx => hpcl x (by simp [hx])) hqcl d hd
        · rw [if_neg h1] at hd
          by_cases h2 : keyLt q p = true
          · rw [if_pos h2, List.mem_cons] at hd
            rcases hd with rfl | hd
            · have hq := hqok (q, b) (by simp)
              have hcl := hqcl (q, b) (by simp)
              unfold wfDelta mkAdded
              simp [hq, hcl]
            · exact ih ((p, a) :: ps) qs hpok (fun x hx => hqok x (by simp [hx]))
                hpcl (fun x hx => hqcl x (by simp [hx])) d hd
          · rw [if_neg h2] at hd
            by_cases h3 : a = b
            · rw [if_pos h3] at hd
              exact ih ps qs (fun x hx => hpok x (by simp [hx]))
                (fun x hx => hqok x (by simp [hx]))
                (fun x hx => hpcl x (by simp [hx]))
                (fun x hx => hqcl x (by simp [hx])) d hd
            · rw [if_neg h3, List.mem_cons] at hd
              rcases hd with rfl | hd
              · have hp := hpok (p, a) (by simp)
                unfold wfDelta mkModified
                have hpc := hpcl (p, a) (by simp)
                have hqc := hqcl (q, b) (by simp)
                simp [hp, hpc, hqc]
              · exact ih ps qs (fun x hx => hpok x (by simp [hx]))
                  (fun x hx => hqok x (by simp [hx]))
                  (fun x hx => hpcl x (by simp [hx]))
                  (fun x hx => hqcl x (by simp [hx])) d hd

theorem modelDiffF_keys_bound (x : String) :
    ∀ (fuel : Nat) (ps qs : List (String × List String)),
      (∀ e ∈ ps, keyLt x e.1 = true) → (∀ e ∈ qs, keyLt x e.1 = true) →
      ∀ d ∈ modelDiffF fuel ps qs, keyLt x (editKey (deltaEdit d)) = true := by
  intro fuel
  induction fuel with
  | zero =>
    intro ps qs _ _ d hd
    simp [modelDiffF] at hd
  | succ f ih =>
    intro ps qs hpb hqb d hd
    rcases ps with _ | ⟨⟨p, a⟩, ps⟩
    · rcases qs with _ | ⟨⟨q, b⟩, qs⟩
      · simp [modelDiffF] at hd
      · rw [show modelDiffF (f + 1) [] ((q, b) :: qs) =
            mkAdded q b :: modelDiffF f [] qs from rfl, List.mem_cons] at hd
        rcases hd with rfl | hd
        · exact hqb (q, b) (by simp)
        · exact ih [] qs (by simp) (fun e he => hqb e (by simp [he])) d hd
    · rcases qs with _ | ⟨⟨q, b⟩, qs⟩
      · rw [show modelDiffF (f + 1) ((p, a) :: ps) [] =
            mkDeleted p a :: modelDiffF f ps [] from rfl, List.mem_cons] at hd
        rcases hd with rfl | hd
        · exact hpb (p, a) (by simp)
        · exact ih ps [] (fun e he => hpb e (by simp [he])) (by simp) d hd
      · have hstep : modelDiffF (f + 1) ((p, a) :: ps) ((q, b) :: qs) =
            if keyLt p q then mkDeleted p a :: modelDiffF f ps ((q, b) :: qs)
            else if keyLt q p then mkAdded q b :: modelDiffF f ((p, a) :: ps) qs
            else if a = b then modelDiffF f ps qs
            else mkModified p a b :: modelDiffF f ps qs := rfl
        rw [hstep] at hd
        by_cases h1 : keyLt p q = true
        · rw [if_pos h1, List.mem_cons] at hd
          rcases hd with rfl | hd
          · exact hpb (p, a) (by simp)
          · exact ih ps ((q, b) :: qs) (fun e he => hpb e (by simp [he])) hqb d hd
        · rw [if_neg h1] at hd
          by_cases h2 : keyLt q p = true
          · rw [if_pos h2, List.mem_cons] at hd
            rcases hd with rfl | hd
            · exact hqb (q, b) (by simp)
            · exact ih ((p, a) :: ps) qs hpb (fun e he => hqb e (by simp [he])) d hd
          · rw [if_neg h2] at hd
            by_cases h3 : a = b
            · rw [if_pos h3] at hd
              exact ih ps qs (fun e he => hpb e (by simp [he]))
                (fun e he => hqb e (by simp [he])) d hd
            · rw [if_neg h3, List.mem_cons] at hd
              rcases hd with rfl | hd
              · exact hpb (p, a) (by simp)
              · exact ih ps qs (fun e he => hpb e (by simp [he]))
                  (fun e he => hqb e (by simp [he])) d hd

theorem apply_deltas_modelDiffF (P : List (String × List String)) :
    ∀ (fuel : Nat) (ps qs : List (String × List String)),
      (∀ e ∈ ps, lookupTree P e.1 = some e.2) →
      (∀ e ∈ ps, pathOk e.1 = true) →
      (∀ e ∈ qs, pathOk e.1 = true) →
      apply_deltas P (modelDiffF fuel ps qs) =
        (deltaEffs (modelDiffF fuel ps qs), .ok ((modelDiffF fuel ps qs).map deltaEdit)) := by
  intro fuel
  induction fuel with
  | zero => intro ps qs _ _ _; rfl
  | succ f ih =>
    intro ps qs hlook hpok hqok
    rcases ps with _ | ⟨⟨p, a⟩, ps⟩
    · rcases qs with _ | ⟨⟨q, b⟩, qs⟩
      · rfl
      · rw [show modelDiffF (f + 1) [] ((q, b) :: qs) =
            mkAdded q b :: modelDiffF f [] qs from rfl]
        have hq := hqok (q, b) (by simp)
        rw [apply_deltas_cons,
          checkDeltaPaths_mkAdded q b (pathOk_parts hq).2.2]
        simp only []
        rw [apply_delta_mkAdded P q b]
        simp only []
        rw [ih [] qs (by simp) (by simp) (fun e he => hqok e (by simp [he]))]
        rfl
    · rcases qs with _ | ⟨⟨q, b⟩, qs⟩
      · rw [show modelDiffF (f + 1) ((p, a) :: ps) [] =
            mkDeleted p a :: modelDiffF f ps [] from rfl]
        have hp := hpok (p, a) (by simp)
        rw [apply_deltas_cons,
          checkDeltaPaths_mkDeleted p a (pathOk_parts hp).2.2]
        simp only []
        rw [apply_delta_mkDeleted P p a]
        simp only []
        rw [ih ps [] (fun e he => hlook e (by simp [he]))
          (fun e he => hpok e (by simp [he])) (by simp)]
        rfl
      · have hstep : modelDiffF (f + 1) ((p, a) :: ps) ((q, b) :: qs) =
            if keyLt p q then mkDeleted p a :: modelDiffF f ps ((q, b) :: qs)
            else if keyLt q p then mkAdded q b :: modelDiffF f ((p, a) :: ps) qs
            else if a = b then modelDiffF f ps qs
            else mkModified p a b :: modelDiffF f ps qs := rfl
        rw [hstep]
        by_cases h1 : keyLt p q = true
        · rw [if_pos h1]
          have hp := hpok (p, a) (by simp)
          rw [apply_deltas_cons,
            checkDeltaPaths_mkDeleted p a (pathOk_parts hp).2.2]
          simp only []
          rw [apply_delta_mkDeleted P p a]
          simp only []
          rw [ih ps ((q, b) :: qs) (fun e he => hlook e (by simp [he]))
            (fun e he => hpok e (by simp [he])) hqok]
          rfl
        · rw [if_neg h1]
          by_cases h2 : keyLt q p = true
          · rw [if_pos h2]
            have hq := hqok (q, b) (by simp)
            rw [apply_deltas_cons,
              checkDeltaPaths_mkAdded q b (pathOk_parts hq).2.2]
            simp only []
            rw [apply_delta_mkAdded P q b]
            simp only []
            rw [ih ((p, a) :: ps) qs hlook hpok (fun e he => hqok e (by simp [he]))]
            rfl
          · rw [if_neg h2]
            by_cases h3 : a = b
            · rw [if_pos h3]
              exact ih ps qs (fun e he => hlook e (by simp [he]))
                (fun e he => hpok e (by simp [he])) (fun e he => hqok e (by simp [he]))
            · rw [if_neg h3]
              have hp := hpok (p, a) (by simp)
              rw [apply_deltas_cons,
                checkDeltaPaths_mkModified p a b (pathOk_parts hp).2.2]
              simp only []
              rw [apply_delta_mkModified P p a b (hlook (p, a) (by simp))]
              simp only []
              rw [ih ps qs (fun e he => hlook e (by simp [he]))
                (fun e he => hpok e (by simp [he])) (fun e he => hqok e (by simp [he]))]
              rfl

theorem applyEdits_head_keep (q : String) (b : List String) :
    ∀ (E : List TreeEdit) (T : List (String × List String)),
      (∀ e ∈ E, keyLt q (editKey e) = true) →
      applyEdits ((q, b) :: T) E = (q, b) :: applyEdits T E := by
  intro E
  induction E with
  | nil => intro T _; rfl
  | cons e E ih =>
    intro T hb
    have hq := hb e (by simp)
    cases e with
    | removeEntry p =>
      replace hq : keyLt q p = true := hq
      rw [show applyEdits ((q, b) :: T) (TreeEdit.removeEntry p :: E) =
          applyEdits (removeKey p ((q, b) :: T)) E from rfl]
      rw [show applyEdits T (TreeEdit.removeEntry p :: E) =
          applyEdits (removeKey p T) E from rfl]
      have hrk : removeKey p ((q, b) :: T) = (q, b) :: removeKey p T := by
        unfold removeKey
        rw [List.filter_cons]
        rw [show (((q, b).1 != p) = true) from by
          simp only [bne_iff_ne]
          exact keyLt_ne hq]
        simp
      rw [hrk]
      exact ih (removeKey p T) (fun x hx => hb x (by simp [hx]))
    | upsert p v =>
      replace hq : keyLt q p = true := hq
      rw [show applyEdits ((q, b) :: T) (TreeEdit.upsert p v :: E) =
          applyEdits (sortedInsert p v ((q, b) :: T)) E from rfl]
      rw [show applyEdits T (TreeEdit.upsert p v :: E) =
          applyEdits (sortedInsert p v T) E from rfl]
      have hsi : sortedInsert p v ((q, b) :: T) = (q, b) :: sortedInsert p v T := by
        rw [show sortedInsert p v ((q, b) :: T) =
            (if keyLt p q then (p, v) :: (q, b) :: T
             else if p = q then (p, v) :: T
             else (q, b) :: sortedInsert p v T) from rfl]
        rw [show (keyLt p q) = false from keyLt_asymm hq]
        rw [if_neg (by simp)]
        rw [if_neg (Ne.symm (keyLt_ne hq))]
      rw [hsi]
      exact ih (sortedInsert p v T) (fun x hx => hb x (by simp [hx]))

theorem applyEdits_modelDiffF :
    ∀ (fuel : Nat) (ps qs : List (String × List String)),
      treeSortedB ps = true → treeSortedB qs = true →
      ps.length + qs.length ≤ fuel →
      applyEdits ps ((modelDiffF fuel ps qs).map deltaEdit) = qs := by
  intro fuel
  induction fuel with
  | zero =>
    intro ps qs _ _ hf
    have hps : ps = [] := List.length_eq_zero.mp (by omega)
    have hqs : qs = [] := List.length_eq_zero.mp (by omega)
    subst hps
    subst hqs
    rfl
  | succ f ih =>
    intro ps qs hsp hsq hf
    rcases ps with _ | ⟨⟨p, a⟩, ps⟩
    · rcases qs with _ | ⟨⟨q, b⟩, qs⟩
      · rfl
      · obtain ⟨hsq2, hqb⟩ := treeSortedB_tail hsq
        rw [show modelDiffF (f + 1) [] ((q, b) :: qs) =
            mkAdded q b :: modelDiffF f [] qs from rfl, List.map_cons]
        rw [show deltaEdit (mkAdded q b) = TreeEdit.upsert q b from rfl]
        rw [show applyEdits [] (TreeEdit.upsert q b ::
            (modelDiffF f [] qs).map deltaEdit) =
            applyEdits [(q, b)] ((modelDiffF f [] qs).map deltaEdit) from rfl]
        have hbound : ∀ e ∈ (modelDiffF f [] qs).map deltaEdit,
            keyLt q (editKey e) = true := by
          intro e he
          obtain ⟨d, hd, rfl⟩ := List.mem_map.mp he
          exact modelDiffF_keys_bound q f [] qs (by simp) (fun x hx => hqb x hx) d hd
        rw [applyEdits_head_keep q b _ [] hbound]
        rw [ih [] qs rfl hsq2
          (by simp only [List.length_nil, List.length_cons] at hf ⊢; omega)]
    · obtain ⟨hsp2, hpb⟩ := treeSortedB_tail hsp
      have hrm : removeKey p ((p, a) :: ps) = ps := by
        unfold removeKey
        rw [List.filter_cons]
        rw [show (((p, a).1 != p) = false) from by simp]
        rw [if_neg (by simp)]
        rw [List.filter_eq_self.mpr ?_]
        intro e he
        simp only [bne_iff_ne]
        exact Ne.symm (keyLt_ne (hpb e he))
      rcases qs with _ | ⟨⟨q, b⟩, qs⟩
      · rw [show modelDiffF (f + 1) ((p, a) :: ps) [] =
            mkDeleted p a :: modelDiffF f ps [] from rfl, List.map_cons]
        rw [show deltaEdit (mkDeleted p a) = TreeEdit.removeEntry p from rfl]
        rw [show applyEdits ((p, a) :: ps) (TreeEdit.removeEntry p ::
            (modelDiffF f ps []).map deltaEdit) =
            applyEdits (removeKey p ((p, a) :: ps))
              ((modelDiffF f ps []).map deltaEdit) from rfl]
        rw [hrm]
        rw [ih ps [] hsp2 rfl
          (by simp only [List.length_nil, List.length_cons] at hf ⊢; omega)]
      · obtain ⟨hsq2, hqb⟩ := treeSortedB_tail hsq
        have hstep : modelDiffF (f + 1) ((p, a) :: ps) ((q, b) :: qs) =
            if keyLt p q then mkDeleted p a :: modelDiffF f ps ((q, b) :: qs)
            else if keyLt q p then mkAdded q b :: modelDiffF f ((p, a) :: ps) qs
            else if a = b then modelDiffF f ps qs
            else mkModified p a b :: modelDiffF f ps qs := rfl
        rw [hstep]
        by_cases h1 : keyLt p q = true
        · rw [if_pos h1, List.map_cons]
          rw [show deltaEdit (mkDeleted p a) = TreeEdit.removeEntry p from rfl]
          rw [show applyEdits ((p, a) :: ps) (TreeEdit.removeEntry p ::
              (modelDiffF f ps ((q, b) :: qs)).map deltaEdit) =
              applyEdits (removeKey p ((p, a) :: ps))
                ((modelDiffF f ps ((q, b) :: qs)).map deltaEdit) from rfl]
          rw [hrm]
          rw [ih ps ((q, b) :: qs) hsp2 hsq
            (by simp only [List.length_nil, List.length_cons] at hf ⊢; omega)]
        · rw [if_neg h1]
          by_cases h2 : keyLt q p = true
          · rw [if_pos h2, List.map_cons]
            rw [show deltaEdit (mkAdded q b) = TreeEdit.upsert q b from rfl]
            rw [show applyEdits ((p, a) :: ps) (TreeEdit.upsert q b ::
                (modelDiffF f ((p, a) :: ps) qs).map deltaEdit) =
                applyEdits (sortedInsert q b ((p, a) :: ps))
                  ((modelDiffF f ((p, a) :: ps) qs).map deltaEdit) from rfl]
            have hsi : sortedInsert q b ((p, a) :: ps) = (q, b) :: (p, a) :: ps := by
              rw [show sortedInsert q b ((p, a) :: ps) =
                  (if keyLt q p then (q, b) :: (p, a) :: ps
                   else if q = p then (q, b) :: ps
                   else (p, a) :: sortedInsert q b ps) from rfl, if_pos h2]
            rw [hsi]
            have hbound : ∀ e ∈ (modelDiffF f ((p, a) :: ps) qs).map deltaEdit,
                keyLt q (editKey e) = true := by
              intro e he
              obtain ⟨d, hd, rfl⟩ := List.mem_map.mp he
              apply modelDiffF_keys_bound q f ((p, a) :: ps) qs ?_ ?_ d hd
              · intro x hx
                rw [List.mem_cons] at hx
                rcases hx with rfl | hx
                · exact h2
                · exact keyLt_trans h2 (hpb x hx)
              · intro x hx
                exact hqb x hx
            rw [applyEdits_head_keep q b _ _ hbound]
            rw [ih ((p, a) :: ps) qs hsp hsq2
              (by simp only [List.length_nil, List.length_cons] at hf ⊢; omega)]
          · have hpq : p = q := keyLt_conn (Bool.eq_false_iff.mpr h1) (Bool.eq_false_iff.mpr h2)
            subst hpq
            rw [keyLt_irrefl, if_neg (show ¬(false = true) from by simp)]
            have hbound : ∀ e ∈ (modelDiffF f ps qs).map deltaEdit,
                keyLt p (editKey e) = true := by
              intro e he
              obtain ⟨d, hd, rfl⟩ := List.mem_map.mp he
              exact modelDiffF_keys_bound p f ps qs (fun x hx => hpb x hx)
                (fun x hx => hqb x hx) d hd
            by_cases h3 : a = b
            · rw [if_pos h3]
              subst h3
              rw [applyEdits_head_keep p a _ _ hbound]
              rw [ih ps qs hsp2 hsq2
                (by simp only [List.length_nil, List.length_cons] at hf ⊢; omega)]
            · rw [if_neg h3, List.map_cons]
              rw [show deltaEdit (mkModified p a b) = TreeEdit.upsert p b from rfl]
              rw [show applyEdits ((p, a) :: ps) (TreeEdit.upsert p b ::
                  (modelDiffF f ps qs).map deltaEdit) =
                  applyEdits (sortedInsert p b ((p, a) :: ps))
                    ((modelDiffF f ps qs).map deltaEdit) from rfl]
              have hsi : sortedInsert p b ((p, a) :: ps) = (p, b) :: ps := by
                rw [show sortedInsert p b ((p, a) :: ps) =
                    (if keyLt p p then (p, b) :: (p, a) :: ps
                     else if p = p then (p, b) :: ps
                     else (p, a) :: sortedInsert p b ps) from rfl]
                rw [keyLt_irrefl]
                rw [if_neg (by simp), if_pos rfl]
              rw [hsi]
              rw [applyEdits_head_keep p b _ _ hbound]
              rw [ih ps qs hsp2 hsq2
                (by simp only [List.length_nil, List.length_cons] at hf ⊢; omega)]

/-- Claim C1, amended: round trip for a non-empty diff.  For every pair of
canonical trees `P` (the parent state) and `C` (the commit state) that are
sorted, with well-formed relative paths and clean text content, and whose
diff is non-empty, and for every well-formed commit message (a hash, author
and RFC 2822 date accepted by the corresponding line parsers, a clean summary
and a trim-normalised body that does not collide with the patch-text
delimiters), rendering the email (`git2::Email::from_diff`, modelled),
cleaning it with `cleanup_patch`, parsing the result with
`EmailMessage.parse` and applying the parsed message with `apply_commit`
against `P` succeeds and reproduces exactly the tree `C`, preserving the
summary and body. -/
theorem claim_C1_amended
    (P C : List (String × List String)) (hash name email date summary : String)
    (body : List String)
    (hPs : treeSortedB P = true) (hCs : treeSortedB C = true)
    (hPok : ∀ e ∈ P, pathOk e.1 = true) (hCok : ∀ e ∈ C, pathOk e.1 = true)
    (hPcl : ∀ e ∈ P, e.2.all cleanLine = true) (hCcl : ∀ e ∈ C, e.2.all cleanLine = true)
    (hne : modelDiff P C ≠ [])
    (hh : parse_header_line (headerLine hash) = some ())
    (ha : parse_author_line (authorLine name email) = some (name, email))
    (hdl : parse_date_line (dateLine date) = some date)
    (hdate : rfc2822Ok date = true)
    (hcl1 : cleanLine (headerLine hash) = true)
    (hcl2 : cleanLine (authorLine name email) = true)
    (hcl3 : cleanLine (dateLine date) = true)
    (hcl4 : cleanLine (subjectLine summary) = true)
    (hbody_clean : ∀ l ∈ body, cleanLine l = true)
    (hbodyn : bodyNormalized body = true)
    (hterm : noEarlyTerm body = true)
    (hbody_nb : ∀ l ∈ body, (parse_begin_diff_line l).isSome = false)
    (hbody_dash : ∀ l ∈ body, strStartsWith l "---" = false) :
    ∃ (cleaned : String) (msg : EmailMessage) (effs : List Effect),
      cleanup_patch (renderEmail hash name email date summary body (modelDiff P C)) =
          some cleaned ∧
        EmailMessage.parse cleaned = .ok msg ∧
        msg.git_diff = modelDiff P C ∧
        msg.message_summary = summary ∧
        msg.message_tail = joinBodyLF body ∧
        apply_commit msg P = (effs, .ok C) := by
  have hwf : ∀ d ∈ modelDiff P C, wfDelta d = true := by
    rw [show modelDiff P C = modelDiffF (P.length + C.length) P C from rfl]
    exact modelDiffF_wf (P.length + C.length) P C hPok hCok hPcl hCcl
  cases hds : modelDiff P C with
  | nil => exact absurd hds hne
  | cons d0 ds' =>
    rw [hds] at hwf
    have hcup := cleanup_render hash name email date summary body (d0 :: ds') hwf
      (by simp) hbodyn hbody_dash hcl1 hcl2 hcl3 hcl4 hbody_clean
    have hshape : renderDeltas (d0 :: ds') ++ footerLines =
        beginDiffLine d0 :: (renderDeltaRest d0 ++ (renderDeltas ds' ++ footerLines)) := by
      rw [show renderDeltas (d0 :: ds') = renderDelta d0 ++ renderDeltas ds' from rfl]
      rw [show renderDelta d0 = beginDiffLine d0 :: renderDeltaRest d0 from rfl]
      simp [List.append_assoc]
    have hcleanParse : ∀ l ∈ headerLine hash :: authorLine name email :: dateLine date ::
        subjectLine summary :: "" :: (body ++ "" :: (renderDeltas (d0 :: ds') ++
          footerLines)), cleanLine l = true := by
      intro l hlmem
      simp only [List.mem_cons, List.mem_append] at hlmem
      rcases hlmem with rfl | rfl | rfl | rfl | rfl | hb | hlmem
      · exact hcl1
      · exact hcl2
      · exact hcl3
      · exact hcl4
      · decide
      · exact hbody_clean l hb
      · rcases hlmem with rfl | hlmem | hlmem
        · decide
        · exact renderDeltas_clean _ hwf l hlmem
        · exact footerLines_clean l hlmem
    have hbufarr : headerLine hash :: authorLine name email :: dateLine date ::
        subjectLine summary :: "" :: (body ++ "" :: (renderDeltas (d0 :: ds') ++
          footerLines)) =
        (headerLine hash :: authorLine name email :: dateLine date ::
          subjectLine summary :: "" :: (body ++ [""])) ++
          renderDeltas (d0 :: ds') ++ footerLines := by
      simp [List.append_assoc]
    have hpre : ∀ l ∈ headerLine hash :: authorLine name email :: dateLine date ::
        subjectLine summary :: "" :: (body ++ [""]),
        (parse_begin_diff_line l).isSome = false := by
      intro l hlmem
      simp only [List.mem_cons, List.mem_append, List.mem_singleton,
        List.not_mem_nil, or_false] at hlmem
      rcases hlmem with rfl | rfl | rfl | rfl | rfl | hb | rfl
      · rw [headerLine_not_begin hash]
        rfl
      · rw [authorLine_not_begin name email]
        rfl
      · rw [dateLine_not_begin date]
        rfl
      · rw [subjectLine_not_begin summary]
        rfl
      · decide
      · exact hbody_nb l hb
      · decide
    have hbuf0 := diff_from_buffer_render
      (headerLine hash :: authorLine name email :: dateLine date ::
        subjectLine summary :: "" :: (body ++ [""]))
      (d0 :: ds') footerLines hpre hwf (by simp)
      (show (parse_begin_diff_line "-- ").isSome = false from by decide)
      (by
        rw [← hbufarr]
        exact hcleanParse)
    rw [← hbufarr] at hbuf0
    have hbuf : diff_from_buffer (joinLF (headerLine hash :: authorLine name email ::
        dateLine date :: subjectLine summary :: "" :: (body ++ "" :: beginDiffLine d0 ::
          (renderDeltaRest d0 ++ (renderDeltas ds' ++ footerLines))))) =
        some (d0 :: ds') := by
      rw [← hshape]
      exact hbuf0
    have hparse := email_parse_structure (headerLine hash) (authorLine name email)
      (dateLine date) (subjectLine summary) name email date summary body
      (beginDiffLine d0) (renderDeltaRest d0 ++ (renderDeltas ds' ++ footerLines))
      (d0 :: ds') hh ha hdl hdate (parse_subject_line_mk summary)
      (by
        rw [show (headerLine hash :: authorLine name email :: dateLine date ::
            subjectLine summary :: "" :: (body ++ "" :: beginDiffLine d0 ::
              (renderDeltaRest d0 ++ (renderDeltas ds' ++ footerLines)))) =
            (headerLine hash :: authorLine name email :: dateLine date ::
              subjectLine summary :: "" :: (body ++ "" :: (renderDeltas (d0 :: ds') ++
                footerLines))) from by rw [hshape]]
        exact hcleanParse)
      hterm (wf_begin_isSome d0 (hwf d0 (by simp))) hbuf
    refine ⟨joinLF (headerLine hash :: authorLine name email :: dateLine date ::
      subjectLine summary :: "" :: (body ++ "" :: (renderDeltas (d0 :: ds') ++
        footerLines))),
      ⟨date, summary, joinBodyLF body, name, email, d0 :: ds'⟩,
      deltaEffs (modelDiff P C) ++
          [Effect.commitCreate, Effect.headReset], hcup, ?_, ?_, ?_, ?_, ?_⟩
    · rw [show (headerLine hash :: authorLine name email :: dateLine date ::
          subjectLine summary :: "" :: (body ++ "" :: (renderDeltas (d0 :: ds') ++
            footerLines))) =
          (headerLine hash :: authorLine name email :: dateLine date ::
            subjectLine summary :: "" :: (body ++ "" :: beginDiffLine d0 ::
              (renderDeltaRest d0 ++ (renderDeltas ds' ++ footerLines)))) from by
        rw [hshape]]
      exact hparse
    · rfl
    · rfl
    · rfl
    · have hlook : ∀ e ∈ P, lookupTree P e.1 = some e.2 := by
        intro e he
        obtain ⟨p0, a0⟩ := e
        exact lookupTree_mem P hPs p0 a0 he
      have happ : apply_deltas P (modelDiff P C) =
          (deltaEffs (modelDiff P C), .ok ((modelDiff P C).map deltaEdit)) := by
        rw [show modelDiff P C = modelDiffF (P.length + C.length) P C from rfl]
        exact apply_deltas_modelDiffF P (P.length + C.length) P C hlook hPok hCok
      have hedits : applyEdits P ((modelDiff P C).map deltaEdit) = C := by
        rw [show modelDiff P C = modelDiffF (P.length + C.length) P C from rfl]
        exact applyEdits_modelDiffF (P.length + C.length) P C hPs hCs (le_refl _)
      show apply_commit ⟨date, summary, joinBodyLF body, name, email, d0 :: ds'⟩ P =
        (deltaEffs (modelDiff P C) ++ [Effect.commitCreate, Effect.headReset], .ok C)
      unfold apply_commit
      rw [show (⟨date, summary, joinBodyLF body, name, email,
          d0 :: ds'⟩ : EmailMessage).git_diff = modelDiff P C from by rw [hds]]
      rw [happ]
      simp only []
      rw [hedits]

/-- Claim C1, counterexample: an empty commit (tree identical to its parent)
cannot be round-tripped.  The diff is empty, the rendered email contains no
`diff` line, and `cleanup_patch` fails with `UnexpectedEof` (modelled `none`),
so no patch text is produced at all — contradicting the claim's unconditional
"for every commit C with parent P". -/
theorem claim_C1_counterexample :
    modelDiff [("a.txt", ["x"])] [("a.txt", ["x"])] = [] ∧
      cleanup_patch (renderEmail "1234abcd" "Alice Dev" "alice@example.com"
        "Mon, 3 Jul 2006 17:18:43 +0200" "Fix" []
        (modelDiff [("a.txt", ["x"])] [("a.txt", ["x"])])) = none :=
  ⟨by decide, by decide⟩

/-- Witness for the amended claim C1 at concrete trees exercising all three
delta kinds: one modified, one deleted and one added file. -/
theorem claim_C1_witness :
    ∃ (cleaned : String) (msg : EmailMessage) (effs : List Effect),
      cleanup_patch (renderEmail "1234abcd" "Alice Dev" "alice@example.com"
          "Mon, 3 Jul 2006 17:18:43 +0200" "Fix the frobnicator"
          ["Body line one", "", "Body line two"]
          (modelDiff [("a.txt", ["x"]), ("b.txt", ["y"])]
            [("a.txt", ["x2"]), ("c.txt", ["z"])])) = some cleaned ∧
        EmailMessage.parse cleaned = .ok msg ∧
        msg.git_diff = modelDiff [("a.txt", ["x"]), ("b.txt", ["y"])]
          [("a.txt", ["x2"]), ("c.txt", ["z"])] ∧
        msg.message_summary = "Fix the frobnicator" ∧
        msg.message_tail = joinBodyLF ["Body line one", "", "Body line two"] ∧
        apply_commit msg [("a.txt", ["x"]), ("b.txt", ["y"])] =
          (effs, .ok [("a.txt", ["x2"]), ("c.txt", ["z"])]) :=
  claim_C1_amended [("a.txt", ["x"]), ("b.txt", ["y"])]
    [("a.txt", ["x2"]), ("c.txt", ["z"])]
    "1234abcd" "Alice Dev" "alice@example.com" "Mon, 3 Jul 2006 17:18:43 +0200"
    "Fix the frobnicator" ["Body line one", "", "Body line two"]
    (by decide) (by decide) (by decide) (by decide) (by decide) (by decide)
    (by decide) (by decide) (by decide) (by decide) (by decide) (by decide)
    (by decide) (by decide) (by decide) (by decide) (by decide) (by decide)
    (by decide) (by decide)

end Gitpatcher
